import Mathlib

/-!
# MisskeyLLM: a verification development for `src/bot.js`

The bot keeps two bounded memory buffers, coalesces streaming events per note id
behind a cooldown timer, answers the selected event through a completion
endpoint and posts unprompted notes on a random schedule.

Conventions of the embedding:

* module-level mutable bindings (`conversationMemory`, `autoMemory`,
  `incomingMessages`) are fields of explicit state records;
* the two HTTP endpoints are functions of a `World` record, so that every
  outcome of a request (resolved or rejected) is covered by quantifying over it;
* an `async` function is run to completion in program order: the model describes
  what one invocation does, not how several invocations interleave.
-/

namespace MisskeyLLM

/-! ## Configuration and the outside world -/

/-- The environment variables read by bot.js. `envMAX_MEMORY` is the number that
the comparison `length > MAX_MEMORY` converts the text of the variable to. -/
structure Config where
  CHANNEL_ID : String
  SYSTEM_PROMPT : String
  SYSTEM_PROMPT_AUTO : String
  BOT_USERNAME : String
  BOT_USER_ID : String
  LLM_MODEL : String
  MAX_TOKEN : String
  envMAX_MEMORY : Nat

/-- Line 18: `const MAX_MEMORY = process.env.MAX_MEMORY`. -/
def MAX_MEMORY (cfg : Config) : Nat := cfg.envMAX_MEMORY

/-- Line 22: `const MAX_AUTO_MEMORY = process.env.MAX_MEMORY` (the same variable). -/
def MAX_AUTO_MEMORY (cfg : Config) : Nat := cfg.envMAX_MEMORY

/-- The JSON body posted to `/api/notes/create` (lines 40-46 and 63-68). -/
structure NotePayload where
  channelId : String
  text : String
  replyId : Option String
  visibility : Option String

/-- The JSON body posted to the completion endpoint (lines 94-100 and 240-246):
`max_tokens` is the text of an environment variable on the interactive path and
the number 500 on the autonomous path. -/
structure LLMRequest where
  model : String
  system : String
  user : String
  max_tokens : String ⊕ Nat

/-- The two remote endpoints. `llm` gives `none` exactly when the `try` block of
`processWithAI` / `processAutoWithAI` throws (the `catch` then returns `null`);
`post` tells whether `axios.post` to `/api/notes/create` resolved. -/
structure World where
  llm : LLMRequest → Option String
  post : NotePayload → Bool

/-! ## Inbound notes -/

/-- The exceptions the modelled code can raise. -/
inductive JSError where
  | SyntaxError
  | TypeError
  | ReferenceError (name : String)
  deriving DecidableEq

/-- The note a note replies to: `note.reply`, with the two fields bot.js reads.
`text` is `none` when the replied-to note has no text (`null`). -/
structure ReplyTarget where
  text : Option String
  userId : String

/-- The author of a note: `note.user`. -/
structure User where
  username : String

/-- An inbound note, with the fields `processMessage` reads. `text` is a string or
`null` (`none`): the server sends `text: null` for a note that carries only files.
`user` and `reply` are objects, or `none` when the property is `null` or missing. -/
structure Note where
  id : String
  text : Option String
  user : Option User
  reply : Option ReplyTarget
  visibility : String

/-- The `body` of a `channel` frame: `{type, body: <note>}`. -/
structure MessageBody where
  type : String
  body : Note

/-- An element of a bucket of `incomingMessages` (lines 201-204):
`{type: message.body.type, body: message.body}`. -/
structure Entry (β : Type) where
  type : String
  body : β

/-! ## Bot state -/

/-- A call the pipelines make, recorded in program order. -/
inductive Call where
  | processWithAI (message : String) (quotedMessage : Option String)
  | processAutoWithAI (message : String)
  | sendReply (text : String) (replyId : String) (isDirectMessage : Bool)
  | sendNoteToChannel (text : String) (replyId : Option String)

/-- The two module-level buffers of bot.js, and the log of calls made so far. -/
structure BotState where
  conversationMemory : List String
  autoMemory : List String
  trace : List Call

/-- The state at module start: lines 17 and 21. -/
def initialState : BotState := ⟨[], [], []⟩

/-- The template literal of lines 26 and 223. -/
def render (username message : String) : String := username ++ ": " ++ message

/-- Lines 25-30. -/
def addToMemory (cfg : Config) (st : BotState) (username message : String) : BotState :=
  let pushed := st.conversationMemory ++ [render username message]
  if pushed.length > MAX_MEMORY cfg then
    { st with conversationMemory := pushed.drop 1 }
  else
    { st with conversationMemory := pushed }

/-- Lines 33-35. -/
def getConversationHistory (st : BotState) : String :=
  String.intercalate "\n" st.conversationMemory

/-- Lines 222-227. -/
def addToAutoMemory (cfg : Config) (st : BotState) (username message : String) : BotState :=
  let pushed := st.autoMemory ++ [render username message]
  if pushed.length > MAX_AUTO_MEMORY cfg then
    { st with autoMemory := pushed.drop 1 }
  else
    { st with autoMemory := pushed }

/-- Lines 230-232. -/
def getAutoConversationHistory (st : BotState) : String :=
  String.intercalate "\n" st.autoMemory

/-- Appends a call to the log. -/
def record (st : BotState) (c : Call) : BotState :=
  { st with trace := st.trace ++ [c] }

/-- Lines 38-58. The default parameter `replyId = null` is `none`; `if (replyId)`
also skips the empty string. -/
def sendNoteToChannel (cfg : Config) (w : World) (st : BotState) (text : String)
    (replyId : Option String) : BotState :=
  let st := record st (Call.sendNoteToChannel text replyId)
  let payload : NotePayload :=
    { channelId := cfg.CHANNEL_ID, text := text,
      replyId := replyId.filter (fun r => r != ""), visibility := none }
  if w.post payload then
    addToMemory cfg st cfg.BOT_USERNAME text
  else
    st

/-- Lines 61-80. -/
def sendReply (cfg : Config) (w : World) (st : BotState) (text replyId : String)
    (isDirectMessage : Bool) : BotState :=
  let st := record st (Call.sendReply text replyId isDirectMessage)
  let payload : NotePayload :=
    { channelId := cfg.CHANNEL_ID, text := text, replyId := some replyId,
      visibility := some (if isDirectMessage then "specified" else "home") }
  if w.post payload then
    addToMemory cfg st cfg.BOT_USERNAME text
  else
    st

/-- Lines 86-92: the prompt of `processWithAI`. `if (quotedMessage)` skips `null`
and the empty string. -/
def buildPrompt (cfg : Config) (st : BotState) (message : String)
    (quotedMessage : Option String) : String :=
  let conversationContext := getConversationHistory st
  let prompt := cfg.SYSTEM_PROMPT ++ "\n\nConversation history:\n" ++ conversationContext ++ "\n\n"
  let prompt :=
    match quotedMessage with
    | some q => if q != "" then prompt ++ "Quoted message: \"" ++ q ++ "\"\n\n" else prompt
    | none => prompt
  prompt ++ "User: " ++ message ++ "\n" ++ cfg.BOT_USERNAME ++ ":"

/-- Lines 83-112: the value `processWithAI` resolves to (`none` is `null`). -/
def processWithAI (cfg : Config) (w : World) (st : BotState) (message : String)
    (quotedMessage : Option String) : Option String :=
  w.llm { model := cfg.LLM_MODEL, system := buildPrompt cfg st message quotedMessage,
          user := message, max_tokens := Sum.inl cfg.MAX_TOKEN }

/-- Lines 235-258: the value `processAutoWithAI` resolves to. -/
def processAutoWithAI (cfg : Config) (w : World) (st : BotState) (message : String) :
    Option String :=
  let conversationContext := getAutoConversationHistory st
  let prompt := cfg.SYSTEM_PROMPT_AUTO ++ "\n\nYour previous posts:\n" ++ conversationContext
    ++ "\n\n" ++ message
  w.llm { model := cfg.LLM_MODEL, system := prompt, user := message, max_tokens := Sum.inr 500 }

/-- The method `String.prototype.includes`: `t` occurs in `s` as a contiguous
substring. (JavaScript compares UTF-16 code units and Lean compares code points;
on well-formed text the two agree, since UTF-16 is self-synchronising.) -/
def includes (s t : String) : Bool := decide (t.data <:+: s.data)

/-- Line 161: `note.reply && note.reply.userId === process.env.BOT_USER_ID`. -/
def isReplyToBot (cfg : Config) (note : Note) : Bool :=
  match note.reply with
  | some r => r.userId == cfg.BOT_USER_ID
  | none => false

/-- Line 162 on a note whose text is a string: the text contains `@` followed by
the bot's username. -/
def isMentionToBot (cfg : Config) (text : String) : Bool :=
  includes text ("@" ++ cfg.BOT_USERNAME)

/-- Lines 167-170: the quoted context handed to `processWithAI`, `note.reply.text`
for a reply to the bot (`null` when the replied-to note has no text). -/
def quotedMessage (cfg : Config) (note : Note) : Option String :=
  if isReplyToBot cfg note then note.reply.bind (fun r => r.text) else none

/-- Lines 156-183: the state the run leaves, and how the run completes. Line 162 is
evaluated for every note, also when `isReplyToBot` is true, and its member access
`note.text.includes` raises a `TypeError` when `note.text` is `null`; line 165 reads
`note.user.username` before `addToMemory` is called. A `TypeError` ends the run (the
`async` function rejects) with the state as it was. -/
def processMessage (cfg : Config) (w : World) (st : BotState)
    (message : Entry MessageBody) : BotState × Except JSError Unit :=
  let note := message.body.body
  match note.text with
  | none => (st, .error .TypeError)
  | some text =>
    if isReplyToBot cfg note || isMentionToBot cfg text then
      match note.user with
      | none => (st, .error .TypeError)
      | some user =>
        let st := addToMemory cfg st user.username text
        let quoted := quotedMessage cfg note
        let response := processWithAI cfg w st text quoted
        let st := record st (Call.processWithAI text quoted)
        let isDirectMessage := note.visibility == "specified"
        match response with
        | some r => (sendReply cfg w st r note.id isDirectMessage, .ok ())
        | none => (st, .ok ())
    else
      (st, .ok ())

/-- Lines 261-267. -/
def sendAutoMessage (cfg : Config) (w : World) (st : BotState) : BotState :=
  let st := record st (Call.processAutoWithAI "AUTO")
  match processAutoWithAI cfg w st "AUTO" with
  | some response =>
    let st := sendNoteToChannel cfg w st response none
    addToAutoMemory cfg st cfg.BOT_USERNAME response
  | none => st

/-- The last `m` elements of a list. -/
def lastN {α : Type} (m : Nat) (l : List α) : List α := l.drop (l.length - m)

/-- A sequence of `addToMemory` calls, each given as (speaker, text). -/
def addAllToMemory (cfg : Config) (st : BotState) (calls : List (String × String)) : BotState :=
  calls.foldl (fun s c => addToMemory cfg s c.1 c.2) st

/-- A sequence of `addToAutoMemory` calls, each given as (speaker, text). -/
def addAllToAutoMemory (cfg : Config) (st : BotState) (calls : List (String × String)) :
    BotState :=
  calls.foldl (fun s c => addToAutoMemory cfg s c.1 c.2) st

/-! ## `Array.prototype.sort`

`messages.sort(comparefn)` (line 142) runs the sort of the JavaScript engine,
which is not part of bot.js. The comparator of lines 142-146 is not a consistent
comparison function (it answers `-1` for two `reply` entries in either order), and
for such a comparator ECMAScript leaves the resulting order to the engine. bot.js
is an ES module for Node.js, whose engine V8 sorts with the TimSort of
`third_party/v8/builtins/array-sort.tq`; the definitions below follow that file,
builtin by builtin, and keep its names. A `Smi` is an `Int` (array lengths stay
far below the `Smi` range), a `FixedArray` is a function from indices to elements
(only indices inside the array are read), and each loop takes a fuel that bounds
its iterations. -/

section V8

variable {α : Type}

/-- The constant `kMinGallopWins`. -/
def kMinGallopWins : Int := 7

/-- A `FixedArray`: `objects i` is the element at index `i`. -/
structure FixedArray (α : Type) where
  objects : Int → α

/-- The assignment `array.objects[i] = v`. -/
def setAt (a : FixedArray α) (i : Int) (v : α) : FixedArray α :=
  ⟨fun j => if j = i then v else a.objects j⟩

/-- `Copy(source, srcPos, target, dstPos, length)`: the elements
`source[srcPos, srcPos + length)` are written to `target[dstPos, dstPos + length)`;
when both are the same array the copy runs in the direction that reads every
element before it is overwritten. -/
def Copy (source : FixedArray α) (srcPos : Int) (target : FixedArray α) (dstPos length : Int) :
    FixedArray α :=
  ⟨fun j => if dstPos ≤ j ∧ j < dstPos + length then source.objects (srcPos + (j - dstPos))
    else target.objects j⟩

/-- The loop of `ReverseRange`. -/
def reverseLoop : Nat → (FixedArray α) → Int → Int → (FixedArray α)
  | 0, a, _, _ => a
  | fuel + 1, a, low, high =>
    if low < high then
      let elementLow := a.objects low
      let elementHigh := a.objects high
      reverseLoop fuel (setAt (setAt a low elementHigh) high elementLow) (low + 1) (high - 1)
    else a

/-- `ReverseRange(array, from, to)`. -/
def ReverseRange (a : FixedArray α) (fromIdx toIdx : Int) : FixedArray α :=
  reverseLoop (toIdx - fromIdx).toNat a fromIdx (toIdx - 1)

/-- The loop of `ComputeMinRunLength`, returning `n + r`. -/
def minRunLoop : Nat → Int → Int → Int
  | 0, n, r => n + r
  | fuel + 1, n, r =>
    if n ≥ 64 then minRunLoop fuel (n / 2) (if n % 2 = 1 then 1 else r) else n + r

/-- `ComputeMinRunLength(nArg)`: `r` becomes 1 if any 1 bit is shifted off. -/
def ComputeMinRunLength (nArg : Int) : Int := minRunLoop nArg.toNat nArg 0

/-- The `for` loop of `CountAndMakeRun`, returning `runLength`. -/
def countRunLoop (comparefn : α → α → Int) (a : FixedArray α) (isDescending : Bool) (high : Int) :
    Nat → Int → α → Int → Int
  | 0, _, _, runLength => runLength
  | fuel + 1, idx, previousElement, runLength =>
    if idx < high then
      let currentElement := a.objects idx
      let order := comparefn currentElement previousElement
      if isDescending then
        if order ≥ 0 then runLength
        else countRunLoop comparefn a isDescending high fuel (idx + 1) currentElement
          (runLength + 1)
      else
        if order < 0 then runLength
        else countRunLoop comparefn a isDescending high fuel (idx + 1) currentElement
          (runLength + 1)
    else runLength

/-- `CountAndMakeRun(lowArg, high)`: the length of the run starting at `lowArg`,
reversed in place when it is strictly descending. -/
def CountAndMakeRun (comparefn : α → α → Int) (a : FixedArray α) (lowArg high : Int) :
    (FixedArray α) × Int :=
  let low := lowArg + 1
  if low = high then (a, 1)
  else
    let elementLow := a.objects low
    let elementHigh := a.objects (low - 1)
    let order := comparefn elementLow elementHigh
    let isDescending := decide (order < 0)
    let runLength :=
      countRunLoop comparefn a isDescending high (high - low).toNat (low + 1) elementLow 2
    if isDescending then (ReverseRange a lowArg (lowArg + runLength), runLength)
    else (a, runLength)

/-- The binary search of `BinaryInsertionSort`, returning `left`. -/
def insertionPoint (comparefn : α → α → Int) (a : FixedArray α) (pivot : α) :
    Nat → Int → Int → Int
  | 0, left, _ => left
  | fuel + 1, left, right =>
    if left < right then
      let mid := left + (right - left) / 2
      let order := comparefn pivot (a.objects mid)
      if order < 0 then insertionPoint comparefn a pivot fuel left mid
      else insertionPoint comparefn a pivot fuel (mid + 1) right
    else left

/-- The loop `for (p = start; p > left; --p) a[p] = a[p - 1]` of
`BinaryInsertionSort`. -/
def slideLoop : Nat → (FixedArray α) → Int → Int → (FixedArray α)
  | 0, a, _, _ => a
  | fuel + 1, a, p, left =>
    if p > left then slideLoop fuel (setAt a p (a.objects (p - 1))) (p - 1) left else a

/-- The outer loop of `BinaryInsertionSort`. -/
def insertionLoop (comparefn : α → α → Int) (low high : Int) :
    Nat → (FixedArray α) → Int → (FixedArray α)
  | 0, a, _ => a
  | fuel + 1, a, start =>
    if start < high then
      let pivot := a.objects start
      let left := insertionPoint comparefn a pivot (start - low).toNat low start
      let a := slideLoop (start - left).toNat a start left
      insertionLoop comparefn low high fuel (setAt a left pivot) (start + 1)
    else a

/-- `BinaryInsertionSort(low, startArg, high)`. -/
def BinaryInsertionSort (comparefn : α → α → Int) (a : FixedArray α) (low startArg high : Int) :
    FixedArray α :=
  let start := if low = startArg then startArg + 1 else startArg
  insertionLoop comparefn low high (high - start).toNat a start

/-- The galloping loops of `GallopLeft` and `GallopRight`: `probe offset = true`
is the `break`. Returns `(lastOfs, offset)`. The test `offset <= 0` guards a
`Smi` overflow of the shift, which no array length reaches. -/
def gallopLoop (probe : Int → Bool) (maxOfs : Int) : Nat → Int → Int → Int × Int
  | 0, lastOfs, offset => (lastOfs, offset)
  | fuel + 1, lastOfs, offset =>
    if offset < maxOfs then
      if probe offset then (lastOfs, offset)
      else
        let lastOfs := offset
        let offset := offset * 2 + 1
        let offset := if offset ≤ 0 then maxOfs else offset
        gallopLoop probe maxOfs fuel lastOfs offset
    else (lastOfs, offset)

/-- The closing binary search of `GallopLeft`. -/
def gallopLeftSearch (comparefn : α → α → Int) (array : FixedArray α) (key : α) (base : Int) :
    Nat → Int → Int → Int
  | 0, _, offset => offset
  | fuel + 1, lastOfs, offset =>
    if lastOfs < offset then
      let m := lastOfs + (offset - lastOfs) / 2
      let order := comparefn (array.objects (base + m)) key
      if order < 0 then gallopLeftSearch comparefn array key base fuel (m + 1) offset
      else gallopLeftSearch comparefn array key base fuel lastOfs m
    else offset

/-- `GallopLeft(array, key, base, length, hint)`: the offset `k` in `0..length`
with `array[base + k - 1] < key <= array[base + k]`. -/
def GallopLeft (comparefn : α → α → Int) (array : FixedArray α) (key : α)
    (base length hint : Int) : Int :=
  let baseHintElement := array.objects (base + hint)
  let order := comparefn baseHintElement key
  let bounds : Int × Int :=
    if order < 0 then
      let maxOfs := length - hint
      let r := gallopLoop (fun offset => decide (comparefn (array.objects (base + hint + offset)) key ≥ 0))
        maxOfs maxOfs.toNat 0 1
      let offset := if r.2 > maxOfs then maxOfs else r.2
      (r.1 + hint, offset + hint)
    else
      let maxOfs := hint + 1
      let r := gallopLoop (fun offset => decide (comparefn (array.objects (base + hint - offset)) key < 0))
        maxOfs maxOfs.toNat 0 1
      let offset := if r.2 > maxOfs then maxOfs else r.2
      let tmp := r.1
      (hint - offset, hint - tmp)
  let lastOfs := bounds.1 + 1
  gallopLeftSearch comparefn array key base (bounds.2 - lastOfs).toNat lastOfs bounds.2

/-- The closing binary search of `GallopRight`. -/
def gallopRightSearch (comparefn : α → α → Int) (array : FixedArray α) (key : α) (base : Int) :
    Nat → Int → Int → Int
  | 0, _, offset => offset
  | fuel + 1, lastOfs, offset =>
    if lastOfs < offset then
      let m := lastOfs + (offset - lastOfs) / 2
      let order := comparefn key (array.objects (base + m))
      if order < 0 then gallopRightSearch comparefn array key base fuel lastOfs m
      else gallopRightSearch comparefn array key base fuel (m + 1) offset
    else offset

/-- `GallopRight(array, key, base, length, hint)`: the offset `k` in `0..length`
with `array[base + k - 1] <= key < array[base + k]`. -/
def GallopRight (comparefn : α → α → Int) (array : FixedArray α) (key : α)
    (base length hint : Int) : Int :=
  let baseHintElement := array.objects (base + hint)
  let order := comparefn key baseHintElement
  let bounds : Int × Int :=
    if order < 0 then
      let maxOfs := hint + 1
      let r := gallopLoop (fun offset => decide (comparefn key (array.objects (base + hint - offset)) ≥ 0))
        maxOfs maxOfs.toNat 0 1
      let offset := if r.2 > maxOfs then maxOfs else r.2
      let tmp := r.1
      (hint - offset, hint - tmp)
    else
      let maxOfs := length - hint
      let r := gallopLoop (fun offset => decide (comparefn key (array.objects (base + hint + offset)) < 0))
        maxOfs maxOfs.toNat 0 1
      let offset := if r.2 > maxOfs then maxOfs else r.2
      (r.1 + hint, offset + hint)
  let lastOfs := bounds.1 + 1
  gallopRightSearch comparefn array key base (bounds.2 - lastOfs).toNat lastOfs bounds.2

/-- The variables of `MergeLow` / `MergeHigh`. `cursor` is `cursorB` in `MergeLow`
and `cursorA` in `MergeHigh`; `minGallop` is the local variable and
`stateMinGallop` the field `sortState.minGallop`. -/
structure Merge (α : Type) where
  work : FixedArray α
  temp : FixedArray α
  lengthA : Int
  lengthB : Int
  dest : Int
  cursorTemp : Int
  cursor : Int
  minGallop : Int
  stateMinGallop : Int

/-- The two exit labels of a merge: `Succeed`, and `CopyB` (`MergeLow`) or `CopyA`
(`MergeHigh`). -/
inductive Label where
  | Succeed
  | CopyRest

/-- The inner loop of `MergeLow` that takes one element at a time; it ends in a
label or in a `break` with the counters `(nofWinsA, nofWinsB)`. -/
def mergeLowStraight (comparefn : α → α → Int) :
    Nat → Merge α → Int → Int → Merge α × (Label ⊕ (Int × Int))
  | 0, m, nofWinsA, nofWinsB => (m, Sum.inr (nofWinsA, nofWinsB))
  | fuel + 1, m, nofWinsA, nofWinsB =>
    let order := comparefn (m.work.objects m.cursor) (m.temp.objects m.cursorTemp)
    if order < 0 then
      let m := { m with work := setAt m.work m.dest (m.work.objects m.cursor), dest := m.dest + 1,
                        cursor := m.cursor + 1, lengthB := m.lengthB - 1 }
      let nofWinsB := nofWinsB + 1
      let nofWinsA := 0
      if m.lengthB = 0 then (m, Sum.inl Label.Succeed)
      else if nofWinsB ≥ m.minGallop then (m, Sum.inr (nofWinsA, nofWinsB))
      else mergeLowStraight comparefn fuel m nofWinsA nofWinsB
    else
      let m := { m with work := setAt m.work m.dest (m.temp.objects m.cursorTemp), dest := m.dest + 1,
                        cursorTemp := m.cursorTemp + 1, lengthA := m.lengthA - 1 }
      let nofWinsA := nofWinsA + 1
      let nofWinsB := 0
      if m.lengthA = 1 then (m, Sum.inl Label.CopyRest)
      else if nofWinsA ≥ m.minGallop then (m, Sum.inr (nofWinsA, nofWinsB))
      else mergeLowStraight comparefn fuel m nofWinsA nofWinsB

/-- The galloping loop of `MergeLow`; it ends in a label, or with `none` when
neither run wins `kMinGallopWins` times any more. -/
def mergeLowGallop (comparefn : α → α → Int) :
    Nat → Merge α → Int → Int → Bool → Merge α × Option Label
  | 0, m, _, _, _ => (m, none)
  | fuel + 1, m, nofWinsA, nofWinsB, firstIteration =>
    if nofWinsA ≥ kMinGallopWins ∨ nofWinsB ≥ kMinGallopWins ∨ firstIteration = true then
      let minGallop := max 1 (m.minGallop - 1)
      let m := { m with minGallop := minGallop, stateMinGallop := minGallop }
      let nofWinsA := GallopRight comparefn m.temp (m.work.objects m.cursor) m.cursorTemp m.lengthA 0
      let step1 : Merge α × Option Label :=
        if nofWinsA > 0 then
          let m := { m with work := Copy m.temp m.cursorTemp m.work m.dest nofWinsA,
                            dest := m.dest + nofWinsA, cursorTemp := m.cursorTemp + nofWinsA,
                            lengthA := m.lengthA - nofWinsA }
          if m.lengthA = 1 then (m, some Label.CopyRest)
          else if m.lengthA = 0 then (m, some Label.Succeed)
          else (m, none)
        else (m, none)
      match step1 with
      | (m, some l) => (m, some l)
      | (m, none) =>
        let m := { m with work := setAt m.work m.dest (m.work.objects m.cursor), dest := m.dest + 1,
                          cursor := m.cursor + 1, lengthB := m.lengthB - 1 }
        if m.lengthB = 0 then (m, some Label.Succeed)
        else
          let nofWinsB := GallopLeft comparefn m.work (m.temp.objects m.cursorTemp) m.cursor m.lengthB 0
          let step2 : Merge α × Option Label :=
            if nofWinsB > 0 then
              let m := { m with work := Copy m.work m.cursor m.work m.dest nofWinsB,
                                dest := m.dest + nofWinsB, cursor := m.cursor + nofWinsB,
                                lengthB := m.lengthB - nofWinsB }
              if m.lengthB = 0 then (m, some Label.Succeed) else (m, none)
            else (m, none)
          match step2 with
          | (m, some l) => (m, some l)
          | (m, none) =>
            let m := { m with work := setAt m.work m.dest (m.temp.objects m.cursorTemp),
                              dest := m.dest + 1, cursorTemp := m.cursorTemp + 1,
                              lengthA := m.lengthA - 1 }
            if m.lengthA = 1 then (m, some Label.CopyRest)
            else mergeLowGallop comparefn fuel m nofWinsA nofWinsB false
    else (m, none)

/-- The outer `while (true)` of `MergeLow`. -/
def mergeLowOuter (comparefn : α → α → Int) (inner : Nat) : Nat → Merge α → Merge α × Label
  | 0, m => (m, Label.Succeed)
  | fuel + 1, m =>
    match mergeLowStraight comparefn inner m 0 0 with
    | (m, Sum.inl l) => (m, l)
    | (m, Sum.inr (nofWinsA, nofWinsB)) =>
      let m := { m with minGallop := m.minGallop + 1 }
      match mergeLowGallop comparefn inner m nofWinsA nofWinsB true with
      | (m, some l) => (m, l)
      | (m, none) =>
        let minGallop := m.minGallop + 1
        mergeLowOuter comparefn inner fuel
          { m with minGallop := minGallop, stateMinGallop := minGallop }

/-- `MergeLow(baseA, lengthA, baseB, lengthB)`: merges the adjacent runs A and B,
`lengthA <= lengthB`, from the left through a copy of A. Returns the work array,
the temp array and `sortState.minGallop`. -/
def MergeLow (comparefn : α → α → Int) (work temp : FixedArray α) (stateMinGallop : Int)
    (baseA lengthAArg baseB lengthBArg : Int) : (FixedArray α) × (FixedArray α) × Int :=
  let tempArray := Copy work baseA temp 0 lengthAArg
  let m : Merge α :=
    { work := setAt work baseA (work.objects baseB), temp := tempArray, lengthA := lengthAArg,
      lengthB := lengthBArg - 1, dest := baseA + 1, cursorTemp := 0, cursor := baseB + 1,
      minGallop := stateMinGallop, stateMinGallop := stateMinGallop }
  let r : Merge α × Label :=
    if m.lengthB = 0 then (m, Label.Succeed)
    else if m.lengthA = 1 then (m, Label.CopyRest)
    else
      let fuel := (lengthAArg + lengthBArg).toNat + 1
      mergeLowOuter comparefn fuel fuel m
  let m := r.1
  match r.2 with
  | Label.Succeed =>
    if m.lengthA > 0 then (Copy m.temp m.cursorTemp m.work m.dest m.lengthA, m.temp, m.stateMinGallop)
    else (m.work, m.temp, m.stateMinGallop)
  | Label.CopyRest =>
    let work := Copy m.work m.cursor m.work m.dest m.lengthB
    (setAt work (m.dest + m.lengthB) (m.temp.objects m.cursorTemp), m.temp, m.stateMinGallop)

/-- The inner loop of `MergeHigh` that takes one element at a time. -/
def mergeHighStraight (comparefn : α → α → Int) :
    Nat → Merge α → Int → Int → Merge α × (Label ⊕ (Int × Int))
  | 0, m, nofWinsA, nofWinsB => (m, Sum.inr (nofWinsA, nofWinsB))
  | fuel + 1, m, nofWinsA, nofWinsB =>
    let order := comparefn (m.temp.objects m.cursorTemp) (m.work.objects m.cursor)
    if order < 0 then
      let m := { m with work := setAt m.work m.dest (m.work.objects m.cursor), dest := m.dest - 1,
                        cursor := m.cursor - 1, lengthA := m.lengthA - 1 }
      let nofWinsA := nofWinsA + 1
      let nofWinsB := 0
      if m.lengthA = 0 then (m, Sum.inl Label.Succeed)
      else if nofWinsA ≥ m.minGallop then (m, Sum.inr (nofWinsA, nofWinsB))
      else mergeHighStraight comparefn fuel m nofWinsA nofWinsB
    else
      let m := { m with work := setAt m.work m.dest (m.temp.objects m.cursorTemp), dest := m.dest - 1,
                        cursorTemp := m.cursorTemp - 1, lengthB := m.lengthB - 1 }
      let nofWinsB := nofWinsB + 1
      let nofWinsA := 0
      if m.lengthB = 1 then (m, Sum.inl Label.CopyRest)
      else if nofWinsB ≥ m.minGallop then (m, Sum.inr (nofWinsA, nofWinsB))
      else mergeHighStraight comparefn fuel m nofWinsA nofWinsB

/-- The galloping loop of `MergeHigh`. -/
def mergeHighGallop (comparefn : α → α → Int) (baseA : Int) :
    Nat → Merge α → Int → Int → Bool → Merge α × Option Label
  | 0, m, _, _, _ => (m, none)
  | fuel + 1, m, nofWinsA, nofWinsB, firstIteration =>
    if nofWinsA ≥ kMinGallopWins ∨ nofWinsB ≥ kMinGallopWins ∨ firstIteration = true then
      let minGallop := max 1 (m.minGallop - 1)
      let m := { m with minGallop := minGallop, stateMinGallop := minGallop }
      let k := GallopRight comparefn m.work (m.temp.objects m.cursorTemp) baseA m.lengthA (m.lengthA - 1)
      let nofWinsA := m.lengthA - k
      let step1 : Merge α × Option Label :=
        if nofWinsA > 0 then
          let dest := m.dest - nofWinsA
          let cursorA := m.cursor - nofWinsA
          let m := { m with work := Copy m.work (cursorA + 1) m.work (dest + 1) nofWinsA,
                            dest := dest, cursor := cursorA, lengthA := m.lengthA - nofWinsA }
          if m.lengthA = 0 then (m, some Label.Succeed) else (m, none)
        else (m, none)
      match step1 with
      | (m, some l) => (m, some l)
      | (m, none) =>
        let m := { m with work := setAt m.work m.dest (m.temp.objects m.cursorTemp), dest := m.dest - 1,
                          cursorTemp := m.cursorTemp - 1, lengthB := m.lengthB - 1 }
        if m.lengthB = 1 then (m, some Label.CopyRest)
        else
          let k := GallopLeft comparefn m.temp (m.work.objects m.cursor) 0 m.lengthB (m.lengthB - 1)
          let nofWinsB := m.lengthB - k
          let step2 : Merge α × Option Label :=
            if nofWinsB > 0 then
              let dest := m.dest - nofWinsB
              let cursorTemp := m.cursorTemp - nofWinsB
              let m := { m with work := Copy m.temp (cursorTemp + 1) m.work (dest + 1) nofWinsB,
                                dest := dest, cursorTemp := cursorTemp,
                                lengthB := m.lengthB - nofWinsB }
              if m.lengthB = 1 then (m, some Label.CopyRest)
              else if m.lengthB = 0 then (m, some Label.Succeed)
              else (m, none)
            else (m, none)
          match step2 with
          | (m, some l) => (m, some l)
          | (m, none) =>
            let m := { m with work := setAt m.work m.dest (m.work.objects m.cursor), dest := m.dest - 1,
                              cursor := m.cursor - 1, lengthA := m.lengthA - 1 }
            if m.lengthA = 0 then (m, some Label.Succeed)
            else mergeHighGallop comparefn baseA fuel m nofWinsA nofWinsB false
    else (m, none)

/-- The outer `while (true)` of `MergeHigh`. -/
def mergeHighOuter (comparefn : α → α → Int) (baseA : Int) (inner : Nat) :
    Nat → Merge α → Merge α × Label
  | 0, m => (m, Label.Succeed)
  | fuel + 1, m =>
    match mergeHighStraight comparefn inner m 0 0 with
    | (m, Sum.inl l) => (m, l)
    | (m, Sum.inr (nofWinsA, nofWinsB)) =>
      let m := { m with minGallop := m.minGallop + 1 }
      match mergeHighGallop comparefn baseA inner m nofWinsA nofWinsB true with
      | (m, some l) => (m, l)
      | (m, none) =>
        let minGallop := m.minGallop + 1
        mergeHighOuter comparefn baseA inner fuel
          { m with minGallop := minGallop, stateMinGallop := minGallop }

/-- `MergeHigh(baseA, lengthA, baseB, lengthB)`: merges the adjacent runs A and B,
`lengthA > lengthB`, from the right through a copy of B. -/
def MergeHigh (comparefn : α → α → Int) (work temp : FixedArray α) (stateMinGallop : Int)
    (baseA lengthAArg baseB lengthBArg : Int) : (FixedArray α) × (FixedArray α) × Int :=
  let tempArray := Copy work baseB temp 0 lengthBArg
  let dest := baseB + lengthBArg - 1
  let cursorA := baseA + lengthAArg - 1
  let m : Merge α :=
    { work := setAt work dest (work.objects cursorA), temp := tempArray, lengthA := lengthAArg - 1,
      lengthB := lengthBArg, dest := dest - 1, cursorTemp := lengthBArg - 1,
      cursor := cursorA - 1, minGallop := stateMinGallop, stateMinGallop := stateMinGallop }
  let r : Merge α × Label :=
    if m.lengthA = 0 then (m, Label.Succeed)
    else if m.lengthB = 1 then (m, Label.CopyRest)
    else
      let fuel := (lengthAArg + lengthBArg).toNat + 1
      mergeHighOuter comparefn baseA fuel fuel m
  let m := r.1
  match r.2 with
  | Label.Succeed =>
    if m.lengthB > 0 then
      (Copy m.temp 0 m.work (m.dest - (m.lengthB - 1)) m.lengthB, m.temp, m.stateMinGallop)
    else (m.work, m.temp, m.stateMinGallop)
  | Label.CopyRest =>
    let dest := m.dest - m.lengthA
    let cursorA := m.cursor - m.lengthA
    let work := Copy m.work (cursorA + 1) m.work (dest + 1) m.lengthA
    (setAt work dest (m.temp.objects m.cursorTemp), m.temp, m.stateMinGallop)

/-- The fields of `SortState` the sort works on: the work array, the temp array,
`minGallop`, and the stack `pendingRuns` of (base, length) pairs, bottom first. -/
structure SortState (α : Type) where
  workArray : FixedArray α
  tempArray : FixedArray α
  minGallop : Int
  pendingRuns : List (Int × Int)

/-- `GetPendingRunLength(pendingRuns, i)`. -/
def GetPendingRunLength (pendingRuns : List (Int × Int)) (i : Int) : Int :=
  (pendingRuns.getD i.toNat (0, 0)).2

/-- `GetPendingRunBase(pendingRuns, i)`. -/
def GetPendingRunBase (pendingRuns : List (Int × Int)) (i : Int) : Int :=
  (pendingRuns.getD i.toNat (0, 0)).1

/-- `MergeAt(i)`: merges the runs at stack positions `i` and `i + 1`. -/
def MergeAt (comparefn : α → α → Int) (s : SortState α) (i : Int) : SortState α :=
  let stackSize : Int := s.pendingRuns.length
  let baseA := GetPendingRunBase s.pendingRuns i
  let lengthA := GetPendingRunLength s.pendingRuns i
  let baseB := GetPendingRunBase s.pendingRuns (i + 1)
  let lengthB := GetPendingRunLength s.pendingRuns (i + 1)
  let runs := s.pendingRuns.set i.toNat (baseA, lengthA + lengthB)
  let runs :=
    if i = stackSize - 3 then
      runs.set (i + 1).toNat
        (GetPendingRunBase s.pendingRuns (i + 2), GetPendingRunLength s.pendingRuns (i + 2))
    else runs
  let runs := runs.take (stackSize - 1).toNat
  let s := { s with pendingRuns := runs }
  let keyRight := s.workArray.objects baseB
  let k := GallopRight comparefn s.workArray keyRight baseA lengthA 0
  let baseA := baseA + k
  let lengthA := lengthA - k
  if lengthA = 0 then s
  else
    let keyLeft := s.workArray.objects (baseA + lengthA - 1)
    let lengthB := GallopLeft comparefn s.workArray keyLeft baseB lengthB (lengthB - 1)
    if lengthB = 0 then s
    else if lengthA ≤ lengthB then
      let r := MergeLow comparefn s.workArray s.tempArray s.minGallop baseA lengthA baseB lengthB
      { s with workArray := r.1, tempArray := r.2.1, minGallop := r.2.2 }
    else
      let r := MergeHigh comparefn s.workArray s.tempArray s.minGallop baseA lengthA baseB lengthB
      { s with workArray := r.1, tempArray := r.2.1, minGallop := r.2.2 }

/-- `RunInvariantEstablished(pendingRuns, n)`. -/
def RunInvariantEstablished (pendingRuns : List (Int × Int)) (n : Int) : Bool :=
  if n < 2 then true
  else
    let lengthN := GetPendingRunLength pendingRuns n
    let lengthNM := GetPendingRunLength pendingRuns (n - 1)
    let lengthNMM := GetPendingRunLength pendingRuns (n - 2)
    decide (lengthNMM > lengthNM + lengthN)

/-- `MergeCollapse`: merges runs until the stack invariants hold again. -/
def MergeCollapse (comparefn : α → α → Int) : Nat → SortState α → SortState α
  | 0, s => s
  | fuel + 1, s =>
    if (s.pendingRuns.length : Int) > 1 then
      let n : Int := s.pendingRuns.length - 2
      if !RunInvariantEstablished s.pendingRuns (n + 1) ||
          !RunInvariantEstablished s.pendingRuns n then
        let n := if GetPendingRunLength s.pendingRuns (n - 1) <
          GetPendingRunLength s.pendingRuns (n + 1) then n - 1 else n
        MergeCollapse comparefn fuel (MergeAt comparefn s n)
      else if GetPendingRunLength s.pendingRuns n ≤ GetPendingRunLength s.pendingRuns (n + 1) then
        MergeCollapse comparefn fuel (MergeAt comparefn s n)
      else s
    else s

/-- `MergeForceCollapse`: merges all runs on the stack until one remains. -/
def MergeForceCollapse (comparefn : α → α → Int) : Nat → SortState α → SortState α
  | 0, s => s
  | fuel + 1, s =>
    if (s.pendingRuns.length : Int) > 1 then
      let n : Int := s.pendingRuns.length - 2
      let n := if n > 0 ∧ GetPendingRunLength s.pendingRuns (n - 1) <
        GetPendingRunLength s.pendingRuns (n + 1) then n - 1 else n
      MergeForceCollapse comparefn fuel (MergeAt comparefn s n)
    else s

/-- The main loop of `ArrayTimSortImpl`. -/
def timSortLoop (comparefn : α → α → Int) (minRunLength : Int) :
    Nat → SortState α → Int → Int → SortState α
  | 0, s, _, _ => s
  | fuel + 1, s, low, remaining =>
    if remaining ≠ 0 then
      let run := CountAndMakeRun comparefn s.workArray low (low + remaining)
      let s := { s with workArray := run.1 }
      let currentRunLength := run.2
      let r : SortState α × Int :=
        if currentRunLength < minRunLength then
          let forcedRunLength := min minRunLength remaining
          let sorted := BinaryInsertionSort comparefn s.workArray low (low + currentRunLength)
            (low + forcedRunLength)
          ({ s with workArray := sorted }, forcedRunLength)
        else (s, currentRunLength)
      let s := r.1
      let currentRunLength := r.2
      let s := { s with pendingRuns := s.pendingRuns ++ [(low, currentRunLength)] }
      let s := MergeCollapse comparefn s.pendingRuns.length s
      timSortLoop comparefn minRunLength fuel s (low + currentRunLength)
        (remaining - currentRunLength)
    else s

/-- `ArrayTimSortImpl(sortState, length)`. -/
def ArrayTimSortImpl (comparefn : α → α → Int) (s : SortState α) (length : Int) : SortState α :=
  if length < 2 then s
  else
    let minRunLength := ComputeMinRunLength length
    let s := timSortLoop comparefn minRunLength length.toNat s 0 length
    MergeForceCollapse comparefn s.pendingRuns.length s

/-- `Array.prototype.sort(comparefn)` on an array without holes or `undefined`
elements: the elements are copied to the work array, sorted there, and copied
back. -/
def arraySort (comparefn : α → α → Int) (array : List α) : List α :=
  match array with
  | [] => []
  | x :: _ =>
    let s : SortState α :=
      { workArray := ⟨fun i => array.getD i.toNat x⟩, tempArray := ⟨fun _ => x⟩,
        minGallop := kMinGallopWins, pendingRuns := [] }
    let s := ArrayTimSortImpl comparefn s array.length
    (List.range array.length).map (fun (i : Nat) => s.workArray.objects (i : Int))

end V8



/-! ## The arrival coalescer -/

/-- The comparator of lines 142-146. -/
def prioritizeReplies {β : Type} (a b : Entry β) : Int :=
  if a.type = "reply" then -1
  else if b.type = "reply" then 1
  else 0

/-- Lines 142-148 on a bucket: sort it with the comparator and take `messages[0]`
(`none` is `undefined`). -/
def selectMessage {β : Type} (messages : List (Entry β)) : Option (Entry β) :=
  (arraySort prioritizeReplies messages)[0]?

/-- A number produced by `JSON.parse`: a finite double, held as the rational it
denotes (the two zeros are the same `Map` key), or an infinity from a literal
beyond the double range. -/
inductive JSNum where
  | finite (q : ℚ)
  | posInf
  | negInf
  deriving DecidableEq

/-- A value produced by `JSON.parse`, and `undefined` for a missing property. -/
inductive JSValue where
  | undefined
  | null
  | bool (b : Bool)
  | num (x : JSNum)
  | str (s : String)
  | arr (items : List JSValue)
  | obj (props : List (String × JSValue))

/-- The value of the property `name` of an object: its own property, or `undefined`. -/
def JSValue.field (v : JSValue) (name : String) : JSValue :=
  match v with
  | .obj props => (props.lookup name).getD .undefined
  | _ => .undefined

/-- The member access `v.name` for the names the handler reads (`type`, `body`,
`id`): a `TypeError` on `undefined` and `null`, the own property of an object, and
`undefined` on any other value (none of these names is an index, `length` or a
member of a built-in prototype). -/
def getProp (v : JSValue) (name : String) : Except JSError JSValue :=
  match v with
  | .undefined => .error .TypeError
  | .null => .error .TypeError
  | _ => .ok (v.field name)

/-- A key of the `Map` `incomingMessages`. Keys are compared by SameValueZero:
primitives by value, objects by identity (`ref n` is the `n`-th object used as a
key; every `JSON.parse` result is a new object). -/
inductive Key where
  | undefined
  | null
  | bool (b : Bool)
  | num (x : JSNum)
  | str (s : String)
  | ref (address : Nat)
  deriving DecidableEq

/-- The key a primitive value is, and `none` for an object or array. -/
def primitiveKey : JSValue → Option Key
  | .undefined => some .undefined
  | .null => some .null
  | .bool b => some (.bool b)
  | .num x => some (.num x)
  | .str s => some (.str s)
  | .arr _ => none
  | .obj _ => none

/-- The constant of line 134. -/
def COOLDOWN_DURATION : Nat := 2000

/-- A pending `setTimeout` of `processMessageAfterCooldown`: the `messageId` its
callback closes over, and its delay. -/
structure Timer where
  messageId : Key
  delay : Nat
  deriving DecidableEq

/-- The state of the coalescer: the `Map` `incomingMessages` in insertion order, the
pending cooldown timers, the arguments of the `processMessage` calls made so far,
and the number of objects used as keys so far. -/
structure Coalescer where
  incomingMessages : List (Key × List (Entry JSValue))
  timers : List Timer
  processMessageCalls : List (Option (Entry JSValue))
  allocated : Nat

/-- The state at module start (line 131). -/
def Coalescer.initial : Coalescer := ⟨[], [], [], 0⟩

/-- The method `Map.prototype.has`. -/
def mapHas {β : Type} : List (Key × β) → Key → Bool
  | [], _ => false
  | p :: ps, k => if p.1 = k then true else mapHas ps k

/-- The method `Map.prototype.get` (`none` is `undefined`). -/
def mapGet {β : Type} : List (Key × β) → Key → Option β
  | [], _ => none
  | p :: ps, k => if p.1 = k then some p.2 else mapGet ps k

/-- The method `Map.prototype.set`: the value of an existing key is replaced in
place, a new key is added at the end. -/
def mapSet {β : Type} : List (Key × β) → Key → β → List (Key × β)
  | [], k, v => [(k, v)]
  | p :: ps, k, v => if p.1 = k then (k, v) :: ps else p :: mapSet ps k v

/-- The method `Map.prototype.delete`. -/
def mapDelete {β : Type} : List (Key × β) → Key → List (Key × β)
  | [], _ => []
  | p :: ps, k => if p.1 = k then mapDelete ps k else p :: mapDelete ps k

/-- The `Map` key that `messageId` is, and the number of keys allocated after it. -/
def toKey (allocated : Nat) (messageId : JSValue) : Key × Nat :=
  match primitiveKey messageId with
  | some k => (k, allocated)
  | none => (.ref allocated, allocated + 1)

/-- Lines 137-153, the call `processMessageAfterCooldown(messageId)`: it arms one
timer. -/
def processMessageAfterCooldown (st : Coalescer) (messageId : Key) : Coalescer :=
  { st with timers := st.timers ++ [{ messageId := messageId, delay := COOLDOWN_DURATION }] }

/-- Lines 196-204: store the message. -/
def storeMessage (st : Coalescer) (messageId : JSValue) (entry : Entry JSValue) : Coalescer :=
  let key := toKey st.allocated messageId
  let st := { st with allocated := key.2 }
  let messageId := key.1
  let st :=
    if mapHas st.incomingMessages messageId then st
    else
      processMessageAfterCooldown
        { st with incomingMessages := mapSet st.incomingMessages messageId [] } messageId
  let bucket := (mapGet st.incomingMessages messageId).getD []
  { st with incomingMessages := mapSet st.incomingMessages messageId (bucket ++ [entry]) }

/-- The comparison `v === s` with a string literal `s`. -/
def strictEquals (v : JSValue) (s : String) : Bool :=
  match v with
  | .str x => x == s
  | _ => false

/-- The `try` block of the message handler, lines 189-205. Every expression that
can throw (`JSON.parse` and the member accesses) is evaluated before the first
write to `incomingMessages`, so an exception leaves the state as it was. Inside
the guarded branch `message.body.type` is one of the two string literals, which is
what the stored entry's `type` holds. -/
def handleFrame (parse : String → Except JSError JSValue) (st : Coalescer)
    (stringData : String) : Except JSError Coalescer :=
  match parse stringData with
  | .error e => .error e
  | .ok message =>
    match getProp message "type" with
    | .error e => .error e
    | .ok type =>
      if strictEquals type "pong" then .ok st
      else if strictEquals type "channel" then
        match getProp message "body" with
        | .error e => .error e
        | .ok body =>
          match getProp body "type" with
          | .error e => .error e
          | .ok bodyType =>
            if strictEquals bodyType "mention" || strictEquals bodyType "reply" then
              match getProp body "body" with
              | .error e => .error e
              | .ok note =>
                match getProp note "id" with
                | .error e => .error e
                | .ok messageId =>
                  .ok (storeMessage st messageId
                    { type := if strictEquals bodyType "mention" then "mention" else "reply",
                      body := body })
            else .ok st
      else .ok st

/-- The message handler, lines 185-209: the `catch` logs the exception and the
handler returns; `parse` is `JSON.parse` (an error is its `SyntaxError`). -/
def onMessage (parse : String → Except JSError JSValue) (st : Coalescer)
    (data : String) : Coalescer :=
  match handleFrame parse st data with
  | .ok st' => st'
  | .error _ => st

/-- The callback of lines 138-152 for `messageId`. Only the call
`processMessage(message)` is recorded; its run is `processMessage` above. -/
def cooldownCallback (st : Coalescer) (messageId : Key) : Coalescer :=
  let messages := (mapGet st.incomingMessages messageId).getD []
  let st :=
    if messages.length > 0 then
      { st with processMessageCalls := st.processMessageCalls ++ [selectMessage messages] }
    else st
  { st with incomingMessages := mapDelete st.incomingMessages messageId }

/-- The pending timer `t` fires: it leaves the pending set and its callback runs. -/
def fireTimer (st : Coalescer) (t : Timer) : Coalescer :=
  cooldownCallback { st with timers := st.timers.erase t } t.messageId

/-- One step of the coalescer: a frame arrives, or a pending timer fires. -/
inductive Step (parse : String → Except JSError JSValue) : Coalescer → Coalescer → Prop where
  | frame (st : Coalescer) (data : String) : Step parse st (onMessage parse st data)
  | timer (st : Coalescer) (t : Timer) (h : t ∈ st.timers) : Step parse st (fireTimer st t)

/-- The states the coalescer reaches from module start. -/
inductive Reachable (parse : String → Except JSError JSValue) : Coalescer → Prop where
  | start : Reachable parse Coalescer.initial
  | step (st st' : Coalescer) (h : Reachable parse st) (hs : Step parse st st') :
      Reachable parse st'

/-- The number of pending timers whose callback is for `k`. -/
def pendingTimers (st : Coalescer) (k : Key) : Nat :=
  st.timers.countP (fun t => t.messageId == k)

/-- The frame is an arrival: it parses to a message with `type` `channel`, whose
`body` has `type` `t`, `mention` or `reply`, and a note payload `body.body`. -/
def IsArrival (message : JSValue) (t : String) (body note : JSValue) : Prop :=
  message.field "type" = .str "channel" ∧ body = message.field "body"
    ∧ body.field "type" = .str t ∧ (t = "mention" ∨ t = "reply")
    ∧ note = body.field "body" ∧ note ≠ .undefined ∧ note ≠ .null

/-! ## The autonomous poster's delay -/

/-- Rounding to the nearest integer, ties to even. -/
def roundHalfEven (m : ℚ) : ℤ :=
  if m - ⌊m⌋ < 1 / 2 then ⌊m⌋
  else if m - ⌊m⌋ > 1 / 2 then ⌊m⌋ + 1
  else if ⌊m⌋ % 2 = 0 then ⌊m⌋ else ⌊m⌋ + 1

/-- The exponent of the unit in the last place of the doubles around `q`: 52 below
the exponent of `q`, and never below that of the subnormal numbers. -/
def ulpExponent (q : ℚ) : ℤ := max (Int.log 2 |q|) (-1022) - 52

/-- The double nearest to the exact value `q`, ties to even (the rounding of every
IEEE 754 binary64 operation). Overflow is not modelled: the values here stay below
`2 ^ 24`. -/
def roundToDouble (q : ℚ) : ℚ := roundHalfEven (q / 2 ^ ulpExponent q) * 2 ^ ulpExponent q

/-- The rational `q` is a double. -/
def IsDouble (q : ℚ) : Prop := roundToDouble q = q

/-- Lines 271-273, given the value `random` of `Math.random()`. The two delays and
`maxDelay - minDelay + 1` are small integers, exact in double arithmetic; the
product and the final sum are rounded; `Math.floor` is exact. -/
def scheduleDelay (random : ℚ) : ℚ :=
  let minDelay : ℚ := 30 * 60 * 1000
  let maxDelay : ℚ := 4 * 60 * 60 * 1000
  roundToDouble
    ((⌊roundToDouble (random * (maxDelay - minDelay + 1))⌋ : ℚ) + minDelay)

/-! ## The streaming connection -/

/-- The identifiers bound at the top level of bot.js: the imports (lines 1-3), the
`const` and `let` bindings and the function declarations. -/
def moduleBindings : List String :=
  ["dotenv", "axios", "WebSocket", "BASE_URL", "WS_URL", "ACCESS_TOKEN", "CHANNEL_ID",
   "LLM_URL", "LLM_KEY", "SYSTEM_PROMPT", "conversationMemory", "MAX_MEMORY",
   "SYSTEM_PROMPT_AUTO", "autoMemory", "MAX_AUTO_MEMORY", "addToMemory",
   "getConversationHistory", "sendNoteToChannel", "sendReply", "processWithAI", "ws",
   "pingInterval", "incomingMessages", "COOLDOWN_DURATION", "processMessageAfterCooldown",
   "processMessage", "addToAutoMemory", "getAutoConversationHistory", "processAutoWithAI",
   "sendAutoMessage", "scheduleNextAutoMessage", "startPingInterval"]

/-- The globals of Node.js that bot.js refers to. -/
def hostGlobals : List String :=
  ["process", "console", "JSON", "Math", "setTimeout", "setInterval", "clearInterval"]

/-- The evaluation of an identifier reference: a name bound neither in the module
nor globally raises a `ReferenceError`. -/
def resolveIdentifier (name : String) : Except JSError Unit :=
  if name ∈ moduleBindings ∨ name ∈ hostGlobals then .ok ()
  else .error (.ReferenceError name)

/-- The state of the streaming connection: whether the keepalive interval of line
127 is armed, the delays of the pending reconnect timeouts, and the console log. -/
structure Connection where
  pingIntervalArmed : Bool
  reconnectTimers : List Nat
  log : List String

/-- The `close` handler, lines 215-219: the state when the handler ends, and the
exception it ends with, if any. The call `setTimeout(connectWebSocket, 5000)`
evaluates its arguments first. -/
def onClose (c : Connection) : Connection × Option JSError :=
  let c := { c with log := c.log ++ ["Disconnected from Misskey streaming API"] }
  let c := { c with pingIntervalArmed := false }
  match resolveIdentifier "connectWebSocket" with
  | .error e => (c, some e)
  | .ok _ => ({ c with reconnectTimers := c.reconnectTimers ++ [5000] }, none)

/-! ## Invariants of the sort

The sort is analysed for a comparison function that answers a negative number
exactly when its first argument satisfies `isR`, whatever the second one is; for
`prioritizeReplies`, `isR` is "the entry is a `reply`". The predicates below describe
the work array during such a sort. -/

section SortInvariants

variable {α : Type}

/-- All elements at `[lo, hi)` are replies. -/
def AllR (isR : α → Bool) (a : FixedArray α) (lo hi : Int) : Prop :=
  ∀ i, lo ≤ i → i < hi → isR (a.objects i) = true

/-- No element at `[lo, hi)` is a reply. -/
def NoR (isR : α → Bool) (a : FixedArray α) (lo hi : Int) : Prop :=
  ∀ i, lo ≤ i → i < hi → isR (a.objects i) = false

/-- The elements at `[lo, hi)` are replies up to `c` and other entries from `c` on. -/
def SplitAt (isR : α → Bool) (a : FixedArray α) (lo c hi : Int) : Prop :=
  lo ≤ c ∧ c ≤ hi ∧ AllR isR a lo c ∧ NoR isR a c hi

/-- The last reply among `o[lo .. lo + n]`, or `o[lo]` when there is none. -/
def pick (isR : α → Bool) (o : FixedArray α) (lo : Int) : Nat → α
  | 0 => o.objects lo
  | n + 1 =>
    if isR (o.objects (lo + ((n : Int) + 1))) then o.objects (lo + ((n : Int) + 1))
    else pick isR o lo n

/-- The array `w'` is `w` with the adjacent blocks `[baseA, baseA + la)` and
`[baseA + la, baseA + la + lb)` exchanged. -/
def Rotated (w w' : FixedArray α) (baseA la lb : Int) : Prop :=
  ∀ j, w'.objects j =
    if baseA ≤ j ∧ j < baseA + lb then w.objects (j + la)
    else if baseA + lb ≤ j ∧ j < baseA + lb + la then w.objects (j - lb)
    else w.objects j

/-- The state of `MergeLow` after `j` elements of B were moved to the front. -/
def LowInv (w : FixedArray α) (baseA la lb : Int) (m : Merge α) (j : Int) : Prop :=
  m.dest = baseA + j ∧ m.cursor = baseA + la + j ∧ m.lengthB = lb - j ∧ m.lengthA = la
    ∧ m.cursorTemp = 0
    ∧ (∀ i, 0 ≤ i → i < la → m.temp.objects i = w.objects (baseA + i))
    ∧ (∀ x, baseA ≤ x → x < baseA + j → m.work.objects x = w.objects (x + la))
    ∧ (∀ x, x < baseA ∨ baseA + la + j ≤ x → m.work.objects x = w.objects x)

/-- The statement `workArray[dest++] = workArray[cursorB++]; --lengthB` of `MergeLow`. -/
def lowTakeB (m : Merge α) : Merge α :=
  { m with work := setAt m.work m.dest (m.work.objects m.cursor), dest := m.dest + 1,
           cursor := m.cursor + 1, lengthB := m.lengthB - 1 }

/-- The entry of the galloping loop: `minGallop = SmiMax(1, minGallop - 1)`, stored
in `sortState.minGallop`. -/
def gallopEnter (m : Merge α) : Merge α :=
  { m with minGallop := max 1 (m.minGallop - 1), stateMinGallop := max 1 (m.minGallop - 1) }

/-- The block copy of `k` elements of B in the galloping loop of `MergeLow`. -/
def lowTakeRest (m : Merge α) (k : Int) : Merge α :=
  { m with work := Copy m.work m.cursor m.work m.dest k, dest := m.dest + k,
           cursor := m.cursor + k, lengthB := m.lengthB - k }

/-- The state of `MergeHigh` after `j` elements of A were moved to the back. -/
def HighInv (w : FixedArray α) (baseA la lb : Int) (m : Merge α) (j : Int) : Prop :=
  m.dest = baseA + la + lb - 1 - j ∧ m.cursor = baseA + la - 1 - j ∧ m.lengthA = la - j
    ∧ m.lengthB = lb ∧ m.cursorTemp = lb - 1
    ∧ (∀ i, 0 ≤ i → i < lb → m.temp.objects i = w.objects (baseA + la + i))
    ∧ (∀ x, baseA + la + lb - j ≤ x → x < baseA + la + lb → m.work.objects x = w.objects (x - lb))
    ∧ (∀ x, x ≤ baseA + la - 1 - j ∨ baseA + la + lb ≤ x → m.work.objects x = w.objects x)

/-- The statement `workArray[dest--] = workArray[cursorA--]; --lengthA` of `MergeHigh`. -/
def highTakeA (m : Merge α) : Merge α :=
  { m with work := setAt m.work m.dest (m.work.objects m.cursor), dest := m.dest - 1,
           cursor := m.cursor - 1, lengthA := m.lengthA - 1 }

/-- The block copy of `k` elements of A in the galloping loop of `MergeHigh`. -/
def highTakeRest (m : Merge α) (k : Int) : Merge α :=
  { m with work := Copy m.work (m.cursor - k + 1) m.work (m.dest - k + 1) k, dest := m.dest - k,
           cursor := m.cursor - k, lengthA := m.lengthA - k }

/-- The run `r = (base, length)` of the work array `g` is non-empty, has its
replies first, and starts with the last reply of the same positions of `o` (or
with `o[base]` when they hold no reply). -/
def RunOK (isR : α → Bool) (o g : FixedArray α) (r : Int × Int) : Prop :=
  1 ≤ r.2 ∧ (∃ c, SplitAt isR g r.1 c (r.1 + r.2))
    ∧ g.objects r.1 = pick isR o r.1 (r.2 - 1).toNat

/-- The runs of the stack are adjacent, cover `[lo, hi)` and each is `RunOK`. -/
def Stack (isR : α → Bool) (o g : FixedArray α) : List (Int × Int) → Int → Int → Prop
  | [], lo, hi => lo = hi
  | r :: rs, lo, hi => r.1 = lo ∧ RunOK isR o g r ∧ Stack isR o g rs (lo + r.2) hi

/-- The invariant of the sort loops: the pending runs cover `[0, low)`, and from
`low` on the work array still holds the elements of the original array `o`. -/
def SortInv (isR : α → Bool) (o : FixedArray α) (s : SortState α) (low : Int) : Prop :=
  Stack isR o s.workArray s.pendingRuns 0 low ∧ ∀ j, low ≤ j → s.workArray.objects j = o.objects j

end SortInvariants

/-! ## Concrete inputs used to instantiate the theorems -/

/-- A configuration with bot username `bot`, bot user id `u-bot` and cap 10. -/
def exampleConfig : Config :=
  { CHANNEL_ID := "ch", SYSTEM_PROMPT := "You are a bot.", SYSTEM_PROMPT_AUTO := "Post.",
    BOT_USERNAME := "bot", BOT_USER_ID := "u-bot", LLM_MODEL := "m", MAX_TOKEN := "100",
    envMAX_MEMORY := 10 }

/-- A world whose completion endpoint rejects every request. -/
def failingWorld : World := { llm := fun _ => none, post := fun _ => true }

/-- A world in which every completion is `hi` and every post succeeds. -/
def workingWorld : World := { llm := fun _ => some "hi", post := fun _ => true }

/-- A mention event: the note `@bot hello` by alice, with no reply target. -/
def mentionExample : Entry MessageBody :=
  { type := "mention",
    body := { type := "mention",
              body := { id := "n1", text := some "@bot hello", user := some ⟨"alice"⟩,
                        reply := none,
                        visibility := "home" } } }

/-- A reply event: the note `ok` by alice, replying to the note `how are you?` of the bot. -/
def replyExample : Entry MessageBody :=
  { type := "reply",
    body := { type := "reply",
              body := { id := "n2", text := some "ok", user := some ⟨"alice"⟩,
                        reply := some { text := some "how are you?", userId := "u-bot" },
                        visibility := "home" } } }

/-- The frame `f` is an arrival for the note id `id` (a primitive value, as note ids
are). -/
def ArrivesFor (parse : String → Except JSError JSValue) (id : Key) (f : String) : Prop :=
  ∃ message t body note, parse f = .ok message ∧ IsArrival message t body note
    ∧ primitiveKey (note.field "id") = some id

/-- A `JSON.parse` stand-in that reads every frame as one `reply` arrival for the
note with id `n1`. -/
def exampleParse : String → Except JSError JSValue := fun _ =>
  .ok (.obj [("type", .str "channel"),
    ("body", .obj [("type", .str "reply"), ("body", .obj [("id", .str "n1")])])])

/-- A second reply event for the note `n2`, arriving after `replyExample` with another
text. -/
def secondReplyExample : Entry MessageBody :=
  { type := "reply",
    body := { type := "reply",
              body := { id := "n2", text := some "ok, thanks", user := some ⟨"alice"⟩,
                        reply := some { text := some "how are you?", userId := "u-bot" },
                        visibility := "home" } } }

/-- A reply event whose note carries only a file: a reply by alice to the note
`how are you?` of the bot, with `text: null`. -/
def fileOnlyReplyExample : Entry MessageBody :=
  { type := "reply",
    body := { type := "reply",
              body := { id := "n3", text := none, user := some ⟨"alice"⟩,
                        reply := some { text := some "how are you?", userId := "u-bot" },
                        visibility := "home" } } }

/-! ## Theorems -/

/-! ### Memory buffers -/

theorem addAllToMemory_buffer (cfg : Config) (calls : List (String × String)) :
    ∀ st : BotState, st.conversationMemory.length ≤ MAX_MEMORY cfg →
      (addAllToMemory cfg st calls).conversationMemory =
        (st.conversationMemory ++ calls.map (fun c => render c.1 c.2)).drop
          (st.conversationMemory.length + calls.length - MAX_MEMORY cfg) := by
  induction calls with
  | nil =>
    intro st h
    simp [addAllToMemory, Nat.sub_eq_zero_of_le h]
  | cons c cs ih =>
    intro st h
    have hstep : addAllToMemory cfg st (c :: cs) =
        addAllToMemory cfg (addToMemory cfg st c.1 c.2) cs := rfl
    rw [hstep]
    by_cases hfull : (st.conversationMemory ++ [render c.1 c.2]).length > MAX_MEMORY cfg
    · have hlen : st.conversationMemory.length = MAX_MEMORY cfg := by
        simp at hfull; omega
      have hbuf : (addToMemory cfg st c.1 c.2).conversationMemory =
          (st.conversationMemory ++ [render c.1 c.2]).drop 1 := by
        simp only [addToMemory, if_pos hfull]
      rw [ih _ (by rw [hbuf]; simp; omega), hbuf]
      have e1 : ((st.conversationMemory ++ [render c.1 c.2]).drop 1).length = MAX_MEMORY cfg := by
        simp; omega
      rw [e1]
      have e2 : (st.conversationMemory ++ [render c.1 c.2]).drop 1 ++
          cs.map (fun c => render c.1 c.2) =
          (st.conversationMemory ++ List.map (fun c => render c.1 c.2) (c :: cs)).drop 1 := by
        cases hm : st.conversationMemory with
        | nil => simp
        | cons x xs => simp
      rw [e2, List.drop_drop]
      congr 1
      simp
      omega
    · have hbuf : (addToMemory cfg st c.1 c.2).conversationMemory =
          st.conversationMemory ++ [render c.1 c.2] := by
        simp only [addToMemory, if_neg hfull]
      rw [ih _ (by rw [hbuf]; omega), hbuf]
      simp
      congr 1
      omega

theorem addAllToAutoMemory_buffer (cfg : Config) (calls : List (String × String)) :
    ∀ st : BotState, st.autoMemory.length ≤ MAX_AUTO_MEMORY cfg →
      (addAllToAutoMemory cfg st calls).autoMemory =
        (st.autoMemory ++ calls.map (fun c => render c.1 c.2)).drop
          (st.autoMemory.length + calls.length - MAX_AUTO_MEMORY cfg) := by
  induction calls with
  | nil =>
    intro st h
    simp [addAllToAutoMemory, Nat.sub_eq_zero_of_le h]
  | cons c cs ih =>
    intro st h
    have hstep : addAllToAutoMemory cfg st (c :: cs) =
        addAllToAutoMemory cfg (addToAutoMemory cfg st c.1 c.2) cs := rfl
    rw [hstep]
    by_cases hfull : (st.autoMemory ++ [render c.1 c.2]).length > MAX_AUTO_MEMORY cfg
    · have hlen : st.autoMemory.length = MAX_AUTO_MEMORY cfg := by
        simp at hfull; omega
      have hbuf : (addToAutoMemory cfg st c.1 c.2).autoMemory =
          (st.autoMemory ++ [render c.1 c.2]).drop 1 := by
        simp only [addToAutoMemory, if_pos hfull]
      rw [ih _ (by rw [hbuf]; simp; omega), hbuf]
      have e1 : ((st.autoMemory ++ [render c.1 c.2]).drop 1).length = MAX_AUTO_MEMORY cfg := by
        simp; omega
      rw [e1]
      have e2 : (st.autoMemory ++ [render c.1 c.2]).drop 1 ++
          cs.map (fun c => render c.1 c.2) =
          (st.autoMemory ++ List.map (fun c => render c.1 c.2) (c :: cs)).drop 1 := by
        cases hm : st.autoMemory with
        | nil => simp
        | cons x xs => simp
      rw [e2, List.drop_drop]
      congr 1
      simp
      omega
    · have hbuf : (addToAutoMemory cfg st c.1 c.2).autoMemory =
          st.autoMemory ++ [render c.1 c.2] := by
        simp only [addToAutoMemory, if_neg hfull]
      rw [ih _ (by rw [hbuf]; omega), hbuf]
      simp
      congr 1
      omega

theorem lastN_min_eq {α : Type} (l : List α) (n : Nat) :
    lastN (min l.length n) l = l.drop (l.length - n) := by
  unfold lastN
  congr 1
  omega

theorem lastN_length_le {α : Type} (l : List α) (m : Nat) : (lastN m l).length ≤ m := by
  unfold lastN
  simp
  omega

/-- C3: for every cap (in particular every positive one) and every sequence of
`addToMemory` calls from the empty buffer, after each call (after the first `j`
calls, for every `j`) the interactive buffer holds at most `MAX_MEMORY` entries
and equals the last `min k MAX_MEMORY` rendered entries `speaker: text` of the `k`
calls made so far, in the order they were appended; `addToAutoMemory` does the
same on the autonomous buffer. -/
theorem memory_buffers_keep_last_entries (cfg : Config) (calls : List (String × String))
    (j : Nat) :
    ((addAllToMemory cfg initialState (calls.take j)).conversationMemory.length ≤ MAX_MEMORY cfg
      ∧ (addAllToMemory cfg initialState (calls.take j)).conversationMemory =
          lastN (min (calls.take j).length (MAX_MEMORY cfg))
            ((calls.take j).map (fun c => render c.1 c.2)))
    ∧ ((addAllToAutoMemory cfg initialState (calls.take j)).autoMemory.length
          ≤ MAX_AUTO_MEMORY cfg
      ∧ (addAllToAutoMemory cfg initialState (calls.take j)).autoMemory =
          lastN (min (calls.take j).length (MAX_AUTO_MEMORY cfg))
            ((calls.take j).map (fun c => render c.1 c.2))) := by
  have h1 : (addAllToMemory cfg initialState (calls.take j)).conversationMemory =
      lastN (min (calls.take j).length (MAX_MEMORY cfg))
        ((calls.take j).map (fun c => render c.1 c.2)) := by
    have h := addAllToMemory_buffer cfg (calls.take j) initialState (Nat.zero_le _)
    have hl := lastN_min_eq ((calls.take j).map (fun c => render c.1 c.2)) (MAX_MEMORY cfg)
    simp only [List.length_map] at hl
    rw [hl, h]
    simp [initialState]
  have h2 : (addAllToAutoMemory cfg initialState (calls.take j)).autoMemory =
      lastN (min (calls.take j).length (MAX_AUTO_MEMORY cfg))
        ((calls.take j).map (fun c => render c.1 c.2)) := by
    have h := addAllToAutoMemory_buffer cfg (calls.take j) initialState (Nat.zero_le _)
    have hl := lastN_min_eq ((calls.take j).map (fun c => render c.1 c.2)) (MAX_AUTO_MEMORY cfg)
    simp only [List.length_map] at hl
    rw [hl, h]
    simp [initialState]
  refine ⟨⟨?_, h1⟩, ?_, h2⟩
  · rw [h1]
    exact le_trans (lastN_length_le _ _) (Nat.min_le_right _ _)
  · rw [h2]
    exact le_trans (lastN_length_le _ _) (Nat.min_le_right _ _)

/-! ### The reply pipeline -/

theorem addToMemory_trace (cfg : Config) (st : BotState) (u m : String) :
    (addToMemory cfg st u m).trace = st.trace := by
  simp only [addToMemory]
  split <;> rfl

theorem addToMemory_autoMemory (cfg : Config) (st : BotState) (u m : String) :
    (addToMemory cfg st u m).autoMemory = st.autoMemory := by
  simp only [addToMemory]
  split <;> rfl

theorem addToAutoMemory_conversationMemory (cfg : Config) (st : BotState) (u m : String) :
    (addToAutoMemory cfg st u m).conversationMemory = st.conversationMemory := by
  simp only [addToAutoMemory]
  split <;> rfl

theorem sendReply_autoMemory (cfg : Config) (w : World) (st : BotState) (t r : String)
    (d : Bool) : (sendReply cfg w st t r d).autoMemory = st.autoMemory := by
  have key : ∀ b : Bool,
      (if b = true then addToMemory cfg (record st (Call.sendReply t r d)) cfg.BOT_USERNAME t
        else record st (Call.sendReply t r d)).autoMemory = st.autoMemory := by
    intro b
    cases b <;> simp [addToMemory_autoMemory, record]
  exact key _

theorem sendReply_trace (cfg : Config) (w : World) (st : BotState) (t r : String)
    (d : Bool) : (sendReply cfg w st t r d).trace = st.trace ++ [Call.sendReply t r d] := by
  have key : ∀ b : Bool,
      (if b = true then addToMemory cfg (record st (Call.sendReply t r d)) cfg.BOT_USERNAME t
        else record st (Call.sendReply t r d)).trace = st.trace ++ [Call.sendReply t r d] := by
    intro b
    cases b <;> simp [addToMemory_trace, record]
  exact key _

theorem isReplyToBot_iff (cfg : Config) (note : Note) :
    isReplyToBot cfg note = true ↔ ∃ r, note.reply = some r ∧ r.userId = cfg.BOT_USER_ID := by
  unfold isReplyToBot
  cases h : note.reply with
  | none => simp
  | some r => simp

theorem isMentionToBot_iff (cfg : Config) (text : String) :
    isMentionToBot cfg text = true ↔ ("@" ++ cfg.BOT_USERNAME).data <:+: text.data := by
  simp [isMentionToBot, includes]

theorem quotedMessage_eq (cfg : Config) (note : Note) :
    quotedMessage cfg note =
      match note.reply with
      | some r => if r.userId = cfg.BOT_USER_ID then r.text else none
      | none => none := by
  unfold quotedMessage isReplyToBot
  cases h : note.reply with
  | none => simp
  | some r => by_cases hr : r.userId = cfg.BOT_USER_ID <;> simp [hr]

theorem processMessage_no_text (cfg : Config) (w : World) (st : BotState)
    (message : Entry MessageBody) (ht : message.body.body.text = none) :
    processMessage cfg w st message = (st, .error .TypeError) := by
  unfold processMessage
  simp only [ht]

theorem processMessage_no_user (cfg : Config) (w : World) (st : BotState)
    (message : Entry MessageBody) (t : String) (ht : message.body.body.text = some t)
    (h : (isReplyToBot cfg message.body.body || isMentionToBot cfg t) = true)
    (hu : message.body.body.user = none) :
    processMessage cfg w st message = (st, .error .TypeError) := by
  unfold processMessage
  simp only [ht, h, if_true, hu]

theorem processMessage_relevant (cfg : Config) (w : World) (st : BotState)
    (message : Entry MessageBody) (t : String) (u : User)
    (ht : message.body.body.text = some t) (hu : message.body.body.user = some u)
    (h : (isReplyToBot cfg message.body.body || isMentionToBot cfg t) = true) :
    processMessage cfg w st message =
      match processWithAI cfg w (addToMemory cfg st u.username t) t
          (quotedMessage cfg message.body.body) with
      | some r =>
        (sendReply cfg w
          (record (addToMemory cfg st u.username t)
            (Call.processWithAI t (quotedMessage cfg message.body.body)))
          r message.body.body.id (message.body.body.visibility == "specified"), .ok ())
      | none =>
        (record (addToMemory cfg st u.username t)
          (Call.processWithAI t (quotedMessage cfg message.body.body)), .ok ()) := by
  unfold processMessage
  simp only [ht, hu, h, if_true]

theorem processMessage_irrelevant (cfg : Config) (w : World) (st : BotState)
    (message : Entry MessageBody) (t : String) (ht : message.body.body.text = some t)
    (h : (isReplyToBot cfg message.body.body || isMentionToBot cfg t) = false) :
    processMessage cfg w st message = (st, .ok ()) := by
  unfold processMessage
  simp [ht, h]

/-- C4: when the completion request of a run of `processMessage` fails
(`processWithAI` returns `null`), the run makes no `sendReply` call, and the
interactive buffer afterwards is either the buffer before (an irrelevant note, or a
run ended by a `TypeError` before the buffer is touched) or the buffer before with
the single entry `author: text` appended by `addToMemory` (with its cap eviction);
no entry under the bot's name is added. -/
theorem processMessage_completion_failure (cfg : Config) (w : World) (st : BotState)
    (message : Entry MessageBody)
    (hfail : ∀ u t, message.body.body.user = some u → message.body.body.text = some t →
      processWithAI cfg w (addToMemory cfg st u.username t) t
        (quotedMessage cfg message.body.body) = none) :
    (∃ new, (processMessage cfg w st message).1.trace = st.trace ++ new
        ∧ ∀ t r d, Call.sendReply t r d ∉ new)
    ∧ ((processMessage cfg w st message).1.conversationMemory = st.conversationMemory
        ∨ ∃ u t, message.body.body.user = some u ∧ message.body.body.text = some t
            ∧ (processMessage cfg w st message).1.conversationMemory =
              (addToMemory cfg st u.username t).conversationMemory) := by
  cases ht : message.body.body.text with
  | none =>
    rw [processMessage_no_text cfg w st message ht]
    exact ⟨⟨[], by simp, by simp⟩, Or.inl rfl⟩
  | some t =>
    cases h : (isReplyToBot cfg message.body.body || isMentionToBot cfg t) with
    | false =>
      rw [processMessage_irrelevant cfg w st message t ht h]
      exact ⟨⟨[], by simp, by simp⟩, Or.inl rfl⟩
    | true =>
      cases hu : message.body.body.user with
      | none =>
        rw [processMessage_no_user cfg w st message t ht h hu]
        exact ⟨⟨[], by simp, by simp⟩, Or.inl rfl⟩
      | some u =>
        rw [processMessage_relevant cfg w st message t u ht hu h, hfail u t hu ht]
        refine ⟨⟨[Call.processWithAI t (quotedMessage cfg message.body.body)], ?_, ?_⟩,
          Or.inr ⟨u, t, rfl, rfl, rfl⟩⟩
        · simp [record, addToMemory_trace]
        · intro t r d
          simp

/-- C4, instantiated: the mention `@bot hello` with a completion endpoint that
rejects every request leaves exactly the author's entry in the buffer. -/
theorem processMessage_completion_failure_witness :
    (∀ u t, mentionExample.body.body.user = some u → mentionExample.body.body.text = some t →
      processWithAI exampleConfig failingWorld
        (addToMemory exampleConfig initialState u.username t) t
        (quotedMessage exampleConfig mentionExample.body.body) = none)
    ∧ ((∃ new, (processMessage exampleConfig failingWorld initialState mentionExample).1.trace
          = initialState.trace ++ new ∧ ∀ t r d, Call.sendReply t r d ∉ new)
      ∧ ((processMessage exampleConfig failingWorld initialState
            mentionExample).1.conversationMemory = initialState.conversationMemory
        ∨ ∃ u t, mentionExample.body.body.user = some u
            ∧ mentionExample.body.body.text = some t
            ∧ (processMessage exampleConfig failingWorld initialState
                mentionExample).1.conversationMemory =
              (addToMemory exampleConfig initialState u.username t).conversationMemory)) :=
  ⟨fun _ _ _ _ => rfl,
    processMessage_completion_failure exampleConfig failingWorld initialState
      mentionExample (fun _ _ _ _ => rfl)⟩

theorem processMessage_relevance_of_text (cfg : Config) (w : World) (st : BotState)
    (message : Entry MessageBody) (t : String) (u : User)
    (ht : message.body.body.text = some t) (hu : message.body.body.user = some u) :
    (((∃ r, message.body.body.reply = some r ∧ r.userId = cfg.BOT_USER_ID)
        ∨ ("@" ++ cfg.BOT_USERNAME).data <:+: t.data)
      ↔ ∃ q rest, (processMessage cfg w st message).1.trace =
          st.trace ++ Call.processWithAI t q :: rest)
    ∧ (((∃ r, message.body.body.reply = some r ∧ r.userId = cfg.BOT_USER_ID)
        ∨ ("@" ++ cfg.BOT_USERNAME).data <:+: t.data)
      → ∃ rest, (processMessage cfg w st message).1.trace =
          st.trace ++ Call.processWithAI t
            (match message.body.body.reply with
              | some r => if r.userId = cfg.BOT_USER_ID then r.text else none
              | none => none) :: rest)
    ∧ (¬ ((∃ r, message.body.body.reply = some r ∧ r.userId = cfg.BOT_USER_ID)
        ∨ ("@" ++ cfg.BOT_USERNAME).data <:+: t.data)
      → processMessage cfg w st message = (st, .ok ())) := by
  have hrel : ((∃ r, message.body.body.reply = some r ∧ r.userId = cfg.BOT_USER_ID)
        ∨ ("@" ++ cfg.BOT_USERNAME).data <:+: t.data)
      ↔ (isReplyToBot cfg message.body.body || isMentionToBot cfg t) = true := by
    rw [Bool.or_eq_true, isReplyToBot_iff, isMentionToBot_iff]
  have hyes : (isReplyToBot cfg message.body.body || isMentionToBot cfg t) = true
      → ∃ rest, (processMessage cfg w st message).1.trace =
          st.trace ++ Call.processWithAI t (quotedMessage cfg message.body.body) :: rest := by
    intro h
    rw [processMessage_relevant cfg w st message t u ht hu h]
    cases processWithAI cfg w (addToMemory cfg st u.username t) t
        (quotedMessage cfg message.body.body) with
    | none => exact ⟨[], by simp [record, addToMemory_trace]⟩
    | some r =>
      exact ⟨[Call.sendReply r message.body.body.id (message.body.body.visibility == "specified")],
        by simp [sendReply_trace, record, addToMemory_trace]⟩
  have hno : ¬ (isReplyToBot cfg message.body.body || isMentionToBot cfg t) = true
      → processMessage cfg w st message = (st, .ok ()) := by
    intro h
    exact processMessage_irrelevant cfg w st message t ht (by simpa using h)
  refine ⟨⟨fun h => ?_, fun h => ?_⟩, fun h => ?_, fun h => ?_⟩
  · obtain ⟨rest, hr⟩ := hyes (hrel.mp h)
    exact ⟨_, rest, hr⟩
  · by_contra hn
    obtain ⟨q, rest, hr⟩ := h
    rw [hno (fun hc => hn (hrel.mpr hc))] at hr
    have := congrArg List.length hr
    simp at this
  · obtain ⟨rest, hr⟩ := hyes (hrel.mp h)
    rw [quotedMessage_eq] at hr
    exact ⟨rest, hr⟩
  · exact hno (fun hc => h (hrel.mpr hc))

theorem processMessage_relevance_examples :
    (∃ rest, (processMessage exampleConfig workingWorld initialState mentionExample).1.trace =
        initialState.trace ++ Call.processWithAI "@bot hello" none :: rest)
    ∧ (∃ rest, (processMessage exampleConfig workingWorld initialState replyExample).1.trace =
        initialState.trace ++ Call.processWithAI "ok" (some "how are you?") :: rest) :=
  ⟨(processMessage_relevance_of_text exampleConfig workingWorld initialState mentionExample
      "@bot hello" ⟨"alice"⟩ rfl rfl).2.1 (Or.inr ⟨[], " hello".data, rfl⟩),
   (processMessage_relevance_of_text exampleConfig workingWorld initialState replyExample
      "ok" ⟨"alice"⟩ rfl rfl).2.1 (Or.inl ⟨_, rfl, rfl⟩)⟩

/-- C5 at a reply to the bot whose note has no text: the note has a reply target
whose `userId` is `BOT_USER_ID`, yet `processMessage` does not treat it as relevant.
Line 162 evaluates `note.text.includes` on `null`, the run ends with a `TypeError`,
and the state is the one before: no `addToMemory`, no `processWithAI` call, no
reply. -/
theorem processMessage_reply_without_text_throws :
    (∃ r, fileOnlyReplyExample.body.body.reply = some r ∧ r.userId = exampleConfig.BOT_USER_ID)
    ∧ processMessage exampleConfig workingWorld initialState fileOnlyReplyExample
        = (initialState, .error JSError.TypeError)
    ∧ ¬ ∃ q m rest,
        (processMessage exampleConfig workingWorld initialState fileOnlyReplyExample).1.trace =
          initialState.trace ++ Call.processWithAI m q :: rest := by
  refine ⟨⟨_, rfl, rfl⟩, rfl, ?_⟩
  rintro ⟨q, m, rest, h⟩
  have e : (processMessage exampleConfig workingWorld initialState fileOnlyReplyExample).1.trace
      = [] := rfl
  rw [e] at h
  have := congrArg List.length h
  simp [initialState] at this

/-! ### The autonomous pipeline -/

theorem processMessage_autoMemory (cfg : Config) (w : World) (st : BotState)
    (message : Entry MessageBody) :
    (processMessage cfg w st message).1.autoMemory = st.autoMemory := by
  cases ht : message.body.body.text with
  | none => rw [processMessage_no_text cfg w st message ht]
  | some t =>
    cases h : (isReplyToBot cfg message.body.body || isMentionToBot cfg t) with
    | false => rw [processMessage_irrelevant cfg w st message t ht h]
    | true =>
      cases hu : message.body.body.user with
      | none => rw [processMessage_no_user cfg w st message t ht h hu]
      | some u =>
        rw [processMessage_relevant cfg w st message t u ht hu h]
        cases processWithAI cfg w (addToMemory cfg st u.username t) t
            (quotedMessage cfg message.body.body) with
        | none => simp [record, addToMemory_autoMemory]
        | some r => simp [sendReply_autoMemory, record, addToMemory_autoMemory]

theorem addToMemory_record (cfg : Config) (st : BotState) (c : Call) (u m : String) :
    (addToMemory cfg (record st c) u m).conversationMemory =
      (addToMemory cfg st u m).conversationMemory := by
  simp only [addToMemory, record]
  split <;> rfl

theorem sendNoteToChannel_conversationMemory (cfg : Config) (w : World) (st : BotState)
    (text : String) :
    (sendNoteToChannel cfg w st text none).conversationMemory =
      if w.post { channelId := cfg.CHANNEL_ID, text := text, replyId := none, visibility := none }
      then (addToMemory cfg st cfg.BOT_USERNAME text).conversationMemory
      else st.conversationMemory := by
  simp only [sendNoteToChannel, Option.filter]
  split
  · exact addToMemory_record cfg st _ _ _
  · rfl

/-- C8, refuted as stated: one run of `sendAutoMessage` from the empty state, with
a completion `hi` and a successful post, leaves the entry `bot: hi` in the
interactive buffer `conversationMemory` (which was empty before), and the same
entry in `autoMemory`. -/
theorem sendAutoMessage_changes_conversationMemory :
    (sendAutoMessage exampleConfig workingWorld initialState).conversationMemory = ["bot: hi"]
    ∧ (sendAutoMessage exampleConfig workingWorld initialState).autoMemory = ["bot: hi"]
    ∧ (sendAutoMessage exampleConfig workingWorld initialState).conversationMemory
        ≠ initialState.conversationMemory := by
  refine ⟨by decide, by decide, by decide⟩

theorem sendNoteToChannel_autoMemory (cfg : Config) (w : World) (st : BotState)
    (text : String) (replyId : Option String) :
    (sendNoteToChannel cfg w st text replyId).autoMemory = st.autoMemory := by
  simp only [sendNoteToChannel]
  split
  · rw [addToMemory_autoMemory]
    rfl
  · rfl

theorem addToAutoMemory_autoMemory_congr (cfg : Config) (st st' : BotState) (u m : String)
    (h : st'.autoMemory = st.autoMemory) :
    (addToAutoMemory cfg st' u m).autoMemory = (addToAutoMemory cfg st u m).autoMemory := by
  simp only [addToAutoMemory, h]
  split <;> rfl

/-- C8, amended: a run of `sendAutoMessage` leaves `conversationMemory` unchanged
when the completion fails or the post fails, and when both succeed it adds to it
exactly the one entry `BOT_USERNAME: response` through `addToMemory`; the same
entry `BOT_USERNAME: response` is what the run adds to `autoMemory` (through
`addToAutoMemory`, whenever the completion succeeds); a run of `processMessage`,
however it ends, never changes `autoMemory`. -/
theorem pipelines_buffer_frame (cfg : Config) (w : World) (st : BotState)
    (message : Entry MessageBody) :
    (sendAutoMessage cfg w st).conversationMemory =
      (match processAutoWithAI cfg w st "AUTO" with
        | some response =>
          if w.post { channelId := cfg.CHANNEL_ID, text := response, replyId := none,
                      visibility := none }
          then (addToMemory cfg st cfg.BOT_USERNAME response).conversationMemory
          else st.conversationMemory
        | none => st.conversationMemory)
    ∧ (sendAutoMessage cfg w st).autoMemory =
      (match processAutoWithAI cfg w st "AUTO" with
        | some response => (addToAutoMemory cfg st cfg.BOT_USERNAME response).autoMemory
        | none => st.autoMemory)
    ∧ (processMessage cfg w st message).1.autoMemory = st.autoMemory := by
  have hrec : processAutoWithAI cfg w (record st (Call.processAutoWithAI "AUTO")) "AUTO" =
      processAutoWithAI cfg w st "AUTO" := rfl
  refine ⟨?_, ?_, processMessage_autoMemory cfg w st message⟩
  · simp only [sendAutoMessage, hrec]
    cases processAutoWithAI cfg w st "AUTO" with
    | none => rfl
    | some response =>
      simp only [addToAutoMemory_conversationMemory, sendNoteToChannel_conversationMemory,
        addToMemory_record]
      rfl
  · simp only [sendAutoMessage, hrec]
    cases processAutoWithAI cfg w st "AUTO" with
    | none => rfl
    | some response =>
      exact addToAutoMemory_autoMemory_congr cfg st _ _ _
        (by rw [sendNoteToChannel_autoMemory]; rfl)

/-! ### The `Map` operations -/

theorem mapHas_mapSet {β : Type} (m : List (Key × β)) (k k' : Key) (v : β) :
    mapHas (mapSet m k v) k' = (mapHas m k' || decide (k' = k)) := by
  induction m with
  | nil =>
    by_cases hk : k' = k
    · simp [mapSet, mapHas, hk]
    · have hk2 : ¬ k = k' := fun e => hk e.symm
      simp [mapSet, mapHas, hk, hk2]
  | cons p ps ih =>
    by_cases hp : p.1 = k
    · by_cases hk : k' = k
      · simp [mapSet, mapHas, hp, hk]
      · have hk2 : ¬ k = k' := fun e => hk e.symm
        simp [mapSet, mapHas, hp, hk, hk2]
    · by_cases hpk : p.1 = k'
      · have hk : ¬ k' = k := fun e => hp (hpk.trans e)
        simp [mapSet, mapHas, hp, hpk, hk]
      · simp [mapSet, mapHas, hp, hpk, ih]

theorem mapHas_mapDelete {β : Type} (m : List (Key × β)) (k k' : Key) :
    mapHas (mapDelete m k) k' = (mapHas m k' && decide (k' ≠ k)) := by
  induction m with
  | nil => simp [mapDelete, mapHas]
  | cons p ps ih =>
    by_cases hp : p.1 = k
    · by_cases hk : k' = k
      · subst hk
        simp [mapDelete, hp, ih]
      · have hk2 : ¬ k = k' := fun e => hk e.symm
        simp [mapDelete, mapHas, hp, hk, hk2, ih]
    · by_cases hpk : p.1 = k'
      · have hk : ¬ k' = k := fun e => hp (hpk.trans e)
        simp [mapDelete, mapHas, hp, hpk, hk]
      · simp [mapDelete, mapHas, hp, hpk, ih]

theorem mapGet_none_of_not_mapHas {β : Type} (m : List (Key × β)) (k : Key)
    (h : mapHas m k = false) : mapGet m k = none := by
  induction m with
  | nil => rfl
  | cons p ps ih =>
    by_cases hp : p.1 = k
    · simp [mapHas, hp] at h
    · simp only [mapHas, if_neg hp] at h
      simp [mapGet, hp, ih h]

theorem mapGet_mapSet {β : Type} (m : List (Key × β)) (k k' : Key) (v : β) :
    mapGet (mapSet m k v) k' = if k' = k then some v else mapGet m k' := by
  induction m with
  | nil =>
    by_cases hk : k' = k
    · simp [mapSet, mapGet, hk]
    · have hk2 : ¬ k = k' := fun e => hk e.symm
      simp [mapSet, mapGet, hk, hk2]
  | cons p ps ih =>
    by_cases hp : p.1 = k
    · by_cases hk : k' = k
      · simp [mapSet, mapGet, hp, hk]
      · have hk2 : ¬ k = k' := fun e => hk e.symm
        simp [mapSet, mapGet, hp, hk, hk2]
    · by_cases hpk : p.1 = k'
      · have hk : ¬ k' = k := fun e => hp (hpk.trans e)
        simp [mapSet, mapGet, hp, hpk, hk]
      · simp [mapSet, mapGet, hp, hpk, ih]

/-! ### The message handler -/

theorem getProp_ok_iff (v x : JSValue) (name : String) :
    getProp v name = .ok x ↔ v ≠ .undefined ∧ v ≠ .null ∧ x = v.field name := by
  cases v <;> simp [getProp, eq_comm]

theorem strictEquals_iff (v : JSValue) (s : String) :
    strictEquals v s = true ↔ v = .str s := by
  cases v <;> simp [strictEquals]

theorem field_ne_undefined (v : JSValue) (name : String) (h : v.field name ≠ .undefined) :
    v ≠ .undefined ∧ v ≠ .null := by
  cases v <;> simp [JSValue.field] at h ⊢

theorem handleFrame_arrival (parse : String → Except JSError JSValue) (st : Coalescer)
    (data : String) (message : JSValue) (t : String) (body note : JSValue)
    (hparse : parse data = .ok message) (h : IsArrival message t body note) :
    handleFrame parse st data =
      .ok (storeMessage st (note.field "id") { type := t, body := body }) := by
  obtain ⟨htype, hbody, hbt, ht, hnote, hnu, hnn⟩ := h
  have hm := field_ne_undefined message "type" (by rw [htype]; simp)
  have hb := field_ne_undefined body "type" (by rw [hbt]; simp)
  have e1 : getProp message "type" = .ok (.str "channel") :=
    (getProp_ok_iff _ _ _).mpr ⟨hm.1, hm.2, htype.symm⟩
  have e2 : getProp message "body" = .ok body :=
    (getProp_ok_iff _ _ _).mpr ⟨hm.1, hm.2, hbody⟩
  have e3 : getProp body "type" = .ok (.str t) :=
    (getProp_ok_iff _ _ _).mpr ⟨hb.1, hb.2, hbt.symm⟩
  have e4 : getProp body "body" = .ok note :=
    (getProp_ok_iff _ _ _).mpr ⟨hb.1, hb.2, hnote⟩
  have e5 : getProp note "id" = .ok (note.field "id") :=
    (getProp_ok_iff _ _ _).mpr ⟨hnu, hnn, rfl⟩
  have c1 : strictEquals (.str "channel") "pong" = false := by decide
  have c2 : strictEquals (.str "channel") "channel" = true := by decide
  have c3 : (strictEquals (.str t) "mention" || strictEquals (.str t) "reply") = true := by
    rcases ht with ht | ht <;> subst ht <;> decide
  have c4 : (if strictEquals (.str t) "mention" = true then "mention" else "reply") = t := by
    rcases ht with ht | ht <;> subst ht <;> decide
  simp only [handleFrame, hparse, e1, e2, e3, e4, e5, c1, c2, c3, c4, if_true,
    Bool.false_eq_true, if_false]

theorem handleFrame_not_arrival (parse : String → Except JSError JSValue) (st : Coalescer)
    (data : String)
    (h : ¬ ∃ message t body note, parse data = .ok message ∧ IsArrival message t body note) :
    onMessage parse st data = st := by
  cases hparse : parse data with
  | error e => simp [onMessage, handleFrame, hparse]
  | ok message =>
    cases h1 : getProp message "type" with
    | error e => simp [onMessage, handleFrame, hparse, h1]
    | ok type =>
      by_cases hpong : strictEquals type "pong" = true
      · simp [onMessage, handleFrame, hparse, h1, hpong]
      · by_cases hch : strictEquals type "channel" = true
        · cases h2 : getProp message "body" with
          | error e => simp [onMessage, handleFrame, hparse, h1, hpong, hch, h2]
          | ok body =>
            cases h3 : getProp body "type" with
            | error e => simp [onMessage, handleFrame, hparse, h1, hpong, hch, h2, h3]
            | ok bodyType =>
              by_cases hc : (strictEquals bodyType "mention" || strictEquals bodyType "reply")
                  = true
              · cases h4 : getProp body "body" with
                | error e =>
                  simp only [onMessage, handleFrame, hparse, h1, hpong, hch, h2, h3, hc, h4,
                    if_true, if_false, Bool.false_eq_true]
                | ok note =>
                  cases h5 : getProp note "id" with
                  | error e =>
                    simp only [onMessage, handleFrame, hparse, h1, hpong, hch, h2, h3, hc, h4,
                      h5, if_true, if_false, Bool.false_eq_true]
                  | ok messageId =>
                    exfalso
                    apply h
                    obtain ⟨_, _, e1⟩ := (getProp_ok_iff _ _ _).mp h1
                    obtain ⟨_, _, e2⟩ := (getProp_ok_iff _ _ _).mp h2
                    obtain ⟨_, _, e3⟩ := (getProp_ok_iff _ _ _).mp h3
                    obtain ⟨_, _, e4⟩ := (getProp_ok_iff _ _ _).mp h4
                    obtain ⟨n1, n2, _⟩ := (getProp_ok_iff _ _ _).mp h5
                    have hty := (strictEquals_iff _ _).mp hch
                    rw [Bool.or_eq_true, strictEquals_iff, strictEquals_iff] at hc
                    rcases hc with hc | hc
                    · exact ⟨message, "mention", body, note, hparse,
                        by rw [← e1, hty], e2, by rw [← e3, hc], Or.inl rfl, e4, n1, n2⟩
                    · exact ⟨message, "reply", body, note, hparse,
                        by rw [← e1, hty], e2, by rw [← e3, hc], Or.inr rfl, e4, n1, n2⟩
              · simp only [onMessage, handleFrame, hparse, h1, hpong, hch, h2, h3, hc,
                  if_true, if_false, Bool.false_eq_true]
        · simp [onMessage, handleFrame, hparse, h1, hpong, hch]

theorem storeMessage_mapGet (st : Coalescer) (messageId : JSValue) (entry : Entry JSValue)
    (k : Key) :
    mapGet (storeMessage st messageId entry).incomingMessages k =
      if k = (toKey st.allocated messageId).1 then
        some ((mapGet st.incomingMessages (toKey st.allocated messageId).1).getD [] ++ [entry])
      else mapGet st.incomingMessages k := by
  simp only [storeMessage]
  by_cases hhas : mapHas st.incomingMessages (toKey st.allocated messageId).1 = true
  · simp only [hhas, if_true, mapGet_mapSet]
  · have hnone := mapGet_none_of_not_mapHas _ _ (Bool.eq_false_iff.mpr hhas)
    simp only [hhas, Bool.false_eq_true, if_false, processMessageAfterCooldown, mapGet_mapSet,
      if_true, Option.getD_some, hnone, Option.getD_none]
    by_cases hk : k = (toKey st.allocated messageId).1
    · simp [hk]
    · simp [hk]

/-- C9: the message handler is a total function of the frame (every exception of
its `try` block is caught), and it changes the pending-arrival map only for an
arrival: when the frame parses to a message with `type` `channel`, `body.type`
`mention` or `reply` and a note payload `body.body`, the map afterwards has, under
the key of the note's id, the former bucket (empty if the key was absent) with the
one entry `{type: body.type, body}` appended, and every other key as before; for
every other frame (unparseable, `pong`, another tag or shape, no note payload)
the state is unchanged. -/
theorem onMessage_changes_map_only_for_arrivals (parse : String → Except JSError JSValue)
    (st : Coalescer) (data : String) :
    (∀ message t body note, parse data = .ok message → IsArrival message t body note →
      ∀ k, mapGet (onMessage parse st data).incomingMessages k =
        if k = (toKey st.allocated (note.field "id")).1 then
          some ((mapGet st.incomingMessages (toKey st.allocated (note.field "id")).1).getD []
            ++ [{ type := t, body := body }])
        else mapGet st.incomingMessages k)
    ∧ ((¬ ∃ message t body note, parse data = .ok message ∧ IsArrival message t body note) →
      onMessage parse st data = st) := by
  refine ⟨?_, handleFrame_not_arrival parse st data⟩
  intro message t body note hparse harr k
  unfold onMessage
  rw [handleFrame_arrival parse st data message t body note hparse harr]
  exact storeMessage_mapGet st _ _ k

/-- C9, instantiated: the first `reply` frame for note `n1` creates the bucket of
`n1` with that one entry, and a frame that does not parse changes nothing. -/
theorem onMessage_changes_map_only_for_arrivals_witness :
    mapGet (onMessage exampleParse Coalescer.initial "frame").incomingMessages (.str "n1") =
        some [{ type := "reply",
                body := .obj [("type", .str "reply"), ("body", .obj [("id", .str "n1")])] }]
    ∧ onMessage (fun _ => .error .SyntaxError) Coalescer.initial "not json" =
        Coalescer.initial := by
  refine ⟨?_, ?_⟩
  · exact ((onMessage_changes_map_only_for_arrivals exampleParse Coalescer.initial
      "frame").1 _ "reply" _ _ rfl
      ⟨rfl, rfl, rfl, Or.inr rfl, rfl,
        (by show JSValue.obj _ ≠ _; simp), (by show JSValue.obj _ ≠ _; simp)⟩
      (.str "n1")).trans rfl
  · exact (onMessage_changes_map_only_for_arrivals (fun _ => .error .SyntaxError)
      Coalescer.initial "not json").2 (by simp)

/-! ### Cooldown timers -/

theorem storeMessage_timers (st : Coalescer) (messageId : JSValue) (entry : Entry JSValue) :
    (storeMessage st messageId entry).timers =
      if mapHas st.incomingMessages (toKey st.allocated messageId).1 then st.timers
      else st.timers ++ [{ messageId := (toKey st.allocated messageId).1,
                           delay := COOLDOWN_DURATION }] := by
  simp only [storeMessage]
  by_cases hhas : mapHas st.incomingMessages (toKey st.allocated messageId).1 = true
  · simp only [hhas, if_true]
  · simp only [hhas, Bool.false_eq_true, if_false, processMessageAfterCooldown]

theorem storeMessage_mapHas (st : Coalescer) (messageId : JSValue) (entry : Entry JSValue)
    (k : Key) :
    mapHas (storeMessage st messageId entry).incomingMessages k =
      (mapHas st.incomingMessages k || decide (k = (toKey st.allocated messageId).1)) := by
  simp only [storeMessage]
  by_cases hhas : mapHas st.incomingMessages (toKey st.allocated messageId).1 = true
  · simp only [hhas, if_true, mapHas_mapSet]
  · simp only [hhas, Bool.false_eq_true, if_false, processMessageAfterCooldown, mapHas_mapSet]
    cases mapHas st.incomingMessages k <;> simp

theorem storeMessage_calls (st : Coalescer) (messageId : JSValue) (entry : Entry JSValue) :
    (storeMessage st messageId entry).processMessageCalls = st.processMessageCalls := by
  simp only [storeMessage]
  by_cases hhas : mapHas st.incomingMessages (toKey st.allocated messageId).1 = true
  · simp only [hhas, if_true]
  · simp only [hhas, Bool.false_eq_true, if_false, processMessageAfterCooldown]

theorem storeMessage_allocated (st : Coalescer) (messageId : JSValue) (entry : Entry JSValue) :
    (storeMessage st messageId entry).allocated = (toKey st.allocated messageId).2 := by
  simp only [storeMessage]
  by_cases hhas : mapHas st.incomingMessages (toKey st.allocated messageId).1 = true
  · simp only [hhas, if_true]
  · simp only [hhas, Bool.false_eq_true, if_false, processMessageAfterCooldown]

theorem onMessage_cases (parse : String → Except JSError JSValue) (st : Coalescer)
    (data : String) :
    onMessage parse st data = st
      ∨ ∃ messageId entry, onMessage parse st data = storeMessage st messageId entry := by
  by_cases h : ∃ message t body note, parse data = .ok message ∧ IsArrival message t body note
  · obtain ⟨message, t, body, note, hparse, harr⟩ := h
    right
    refine ⟨note.field "id", { type := t, body := body }, ?_⟩
    unfold onMessage
    rw [handleFrame_arrival parse st data message t body note hparse harr]
  · exact Or.inl (handleFrame_not_arrival parse st data h)

theorem countP_erase_of_mem (p : Timer → Bool) (l : List Timer) (t : Timer) (h : t ∈ l) :
    (l.erase t).countP p + (if p t then 1 else 0) = l.countP p := by
  induction l with
  | nil => simp at h
  | cons x xs ih =>
    by_cases hx : x = t
    · subst hx
      simp only [List.erase_cons_head, List.countP_cons]
    · have hmem : t ∈ xs := by
        rcases List.mem_cons.mp h with h | h
        · exact absurd h.symm hx
        · exact h
      have hne : (x == t) = false := by simpa using hx
      rw [List.erase_cons, hne]
      simp only [Bool.false_eq_true, if_false, List.countP_cons]
      have := ih hmem
      omega

theorem fireTimer_timers (st : Coalescer) (t : Timer) :
    (fireTimer st t).timers = st.timers.erase t := by
  simp only [fireTimer, cooldownCallback]
  split <;> rfl

theorem fireTimer_incomingMessages (st : Coalescer) (t : Timer) :
    (fireTimer st t).incomingMessages = mapDelete st.incomingMessages t.messageId := by
  simp only [fireTimer, cooldownCallback]
  split <;> rfl

theorem fireTimer_allocated (st : Coalescer) (t : Timer) :
    (fireTimer st t).allocated = st.allocated := by
  simp only [fireTimer, cooldownCallback]
  split <;> rfl

theorem fireTimer_calls (st : Coalescer) (t : Timer) :
    (fireTimer st t).processMessageCalls =
      if ((mapGet st.incomingMessages t.messageId).getD []).length > 0 then
        st.processMessageCalls ++
          [selectMessage ((mapGet st.incomingMessages t.messageId).getD [])]
      else st.processMessageCalls := by
  simp only [fireTimer, cooldownCallback]
  split <;> rfl

theorem primitiveKey_ne_ref (v : JSValue) (k : Key) (n : Nat) (h : primitiveKey v = some k) :
    k ≠ .ref n := by
  cases v <;> simp [primitiveKey] at h <;> subst h <;> simp

theorem toKey_fresh (a : Nat) (v : JSValue) :
    a ≤ (toKey a v).2 ∧ ∀ n, (toKey a v).2 ≤ n → Key.ref n ≠ (toKey a v).1 := by
  unfold toKey
  cases hp : primitiveKey v with
  | none =>
    refine ⟨Nat.le_succ a, ?_⟩
    intro n hn hc
    have hn' : a + 1 ≤ n := hn
    have hc' : n = a := by simpa using hc
    omega
  | some k =>
    refine ⟨Nat.le_refl a, ?_⟩
    intro n _ hc
    exact primitiveKey_ne_ref v k n hp hc.symm

/-- The invariant of the coalescer: a note id has one pending timer when it is a key
of `incomingMessages` and none otherwise, and no key is an object not yet
allocated. -/
theorem reachable_invariant (parse : String → Except JSError JSValue) (st : Coalescer)
    (h : Reachable parse st) :
    (∀ k, pendingTimers st k = if mapHas st.incomingMessages k then 1 else 0)
      ∧ ∀ n, st.allocated ≤ n → mapHas st.incomingMessages (.ref n) = false := by
  induction h with
  | start => exact ⟨fun k => rfl, fun n _ => rfl⟩
  | step st st' _ hs ih =>
    obtain ⟨ht, hf⟩ := ih
    cases hs with
    | frame data =>
      rcases onMessage_cases parse st data with hst | ⟨messageId, entry, hst⟩
      · rw [hst]; exact ⟨ht, hf⟩
      · rw [hst]
        have hkey := toKey_fresh st.allocated messageId
        refine ⟨fun k => ?_, fun n hn => ?_⟩
        · simp only [pendingTimers, storeMessage_timers, storeMessage_mapHas]
          have htk := ht k
          have htkey := ht (toKey st.allocated messageId).1
          simp only [pendingTimers] at htk htkey
          by_cases hhas : mapHas st.incomingMessages (toKey st.allocated messageId).1 = true
          · simp only [hhas, if_true]
            by_cases hk : k = (toKey st.allocated messageId).1
            · subst hk
              simp [hhas, htk]
            · simp [hk, htk]
          · simp only [hhas, Bool.false_eq_true, if_false, List.countP_append,
              List.countP_cons, List.countP_nil]
            by_cases hk : k = (toKey st.allocated messageId).1
            · rw [hk]
              simp only [hhas, Bool.false_eq_true, if_false] at htkey
              rw [htkey]
              simp
            · have hk2 : ¬ (toKey st.allocated messageId).1 = k := fun e => hk e.symm
              simp [hk, hk2, htk]
        · rw [storeMessage_allocated] at hn
          rw [storeMessage_mapHas, hf n (le_trans hkey.1 hn)]
          simp [hkey.2 n hn]
    | timer t hmem =>
      refine ⟨fun k => ?_, fun n hn => ?_⟩
      · simp only [pendingTimers, fireTimer_timers, fireTimer_incomingMessages,
          mapHas_mapDelete]
        have hc := countP_erase_of_mem (fun x => x.messageId == k) st.timers t hmem
        have htk := ht k
        simp only [pendingTimers] at htk
        by_cases hk : k = t.messageId
        · subst hk
          have hpos : 0 < List.countP (fun x => x.messageId == t.messageId) st.timers :=
            List.countP_pos_iff.mpr ⟨t, hmem, by simp⟩
          simp only [beq_self_eq_true, if_true] at hc
          by_cases hhas : mapHas st.incomingMessages t.messageId = true
          · simp only [hhas, if_true] at htk
            have h0 : List.countP (fun x => x.messageId == t.messageId) (st.timers.erase t) = 0 := by
              omega
            rw [h0]
            simp
          · simp only [hhas, Bool.false_eq_true, if_false] at htk
            omega
        · have hk2 : ¬ t.messageId = k := fun e => hk e.symm
          simp only [beq_iff_eq, hk2, if_false, Nat.add_zero] at hc
          rw [hc, htk]
          simp [hk]
      · rw [fireTimer_allocated] at hn
        rw [fireTimer_incomingMessages, mapHas_mapDelete, hf n hn]
        rfl

theorem arrival_step (parse : String → Except JSError JSValue) (st : Coalescer) (id : Key)
    (f : String) (h : ArrivesFor parse id f)
    (hinv : pendingTimers st id = if mapHas st.incomingMessages id then 1 else 0) :
    mapHas (onMessage parse st f).incomingMessages id = true
    ∧ pendingTimers (onMessage parse st f) id = 1
    ∧ (onMessage parse st f).processMessageCalls = st.processMessageCalls
    ∧ ((mapGet (onMessage parse st f).incomingMessages id).getD []).length =
        ((mapGet st.incomingMessages id).getD []).length + 1 := by
  obtain ⟨message, t, body, note, hparse, harr, hprim⟩ := h
  have hst : onMessage parse st f =
      storeMessage st (note.field "id") { type := t, body := body } := by
    unfold onMessage
    rw [handleFrame_arrival parse st f message t body note hparse harr]
  have hkey : (toKey st.allocated (note.field "id")).1 = id := by
    simp [toKey, hprim]
  rw [hst]
  refine ⟨?_, ?_, storeMessage_calls _ _ _, ?_⟩
  · rw [storeMessage_mapHas, hkey]
    simp
  · simp only [pendingTimers, storeMessage_timers, hkey]
    simp only [pendingTimers] at hinv
    by_cases hhas : mapHas st.incomingMessages id = true
    · simp only [hhas, if_true] at hinv ⊢
      exact hinv
    · simp only [hhas, Bool.false_eq_true, if_false] at hinv ⊢
      simp [List.countP_append, hinv]
  · rw [storeMessage_mapGet, hkey]
    simp

theorem arrivals_fold (parse : String → Except JSError JSValue) (id : Key)
    (frames : List String) :
    ∀ st : Coalescer, (∀ f ∈ frames, ArrivesFor parse id f) →
      mapHas st.incomingMessages id = true → pendingTimers st id = 1 →
      mapHas (frames.foldl (onMessage parse) st).incomingMessages id = true
      ∧ pendingTimers (frames.foldl (onMessage parse) st) id = 1
      ∧ (frames.foldl (onMessage parse) st).processMessageCalls = st.processMessageCalls
      ∧ ((mapGet (frames.foldl (onMessage parse) st).incomingMessages id).getD []).length =
          ((mapGet st.incomingMessages id).getD []).length + frames.length := by
  induction frames with
  | nil => intro st _ h1 h2; exact ⟨h1, h2, rfl, rfl⟩
  | cons f fs ih =>
    intro st hall h1 h2
    obtain ⟨a1, a2, a3, a4⟩ := arrival_step parse st id f (hall f (List.mem_cons_self _ _))
      (by rw [h1, h2]; rfl)
    obtain ⟨b1, b2, b3, b4⟩ := ih (onMessage parse st f)
      (fun g hg => hall g (List.mem_cons_of_mem _ hg)) a1 a2
    refine ⟨b1, b2, b3.trans a3, ?_⟩
    simp only [List.foldl_cons, List.length_cons] at b4 ⊢
    omega

/-- C2: from any reachable state in which the note id is absent from
`incomingMessages`, after one or more arrivals for that id (and before its timer
fires) exactly one timer is pending for the id, no `processMessage` call has been
made, and the bucket holds one entry per arrival; when that timer fires,
`processMessage` is called exactly once, and afterwards the id is absent from
`incomingMessages` and has no pending timer. -/
theorem cooldown_arms_one_timer_and_processes_once
    (parse : String → Except JSError JSValue) (st : Coalescer) (id : Key)
    (frames : List String) (hreach : Reachable parse st)
    (habsent : mapHas st.incomingMessages id = false) (hne : frames ≠ [])
    (harr : ∀ f ∈ frames, ArrivesFor parse id f) :
    pendingTimers (frames.foldl (onMessage parse) st) id = 1
    ∧ (frames.foldl (onMessage parse) st).processMessageCalls = st.processMessageCalls
    ∧ ((mapGet (frames.foldl (onMessage parse) st).incomingMessages id).getD []).length =
        frames.length
    ∧ ∀ t ∈ (frames.foldl (onMessage parse) st).timers, t.messageId = id →
        (∃ message, (fireTimer (frames.foldl (onMessage parse) st) t).processMessageCalls =
            (frames.foldl (onMessage parse) st).processMessageCalls ++ [message])
        ∧ mapHas (fireTimer (frames.foldl (onMessage parse) st) t).incomingMessages id = false
        ∧ pendingTimers (fireTimer (frames.foldl (onMessage parse) st) t) id = 0 := by
  cases frames with
  | nil => exact absurd rfl hne
  | cons f fs =>
    have hinv := (reachable_invariant parse st hreach).1 id
    obtain ⟨a1, a2, a3, a4⟩ := arrival_step parse st id f (harr f (List.mem_cons_self _ _)) hinv
    obtain ⟨b1, b2, b3, b4⟩ := arrivals_fold parse id fs (onMessage parse st f)
      (fun g hg => harr g (List.mem_cons_of_mem _ hg)) a1 a2
    have hnone := mapGet_none_of_not_mapHas st.incomingMessages id habsent
    have hlen : ((mapGet (List.foldl (onMessage parse) st (f :: fs)).incomingMessages id).getD
        []).length = (f :: fs).length := by
      simp only [List.foldl_cons, List.length_cons] at b4 ⊢
      rw [b4, a4, hnone]
      simp
      omega
    refine ⟨b2, b3.trans a3, hlen, ?_⟩
    intro t ht hid
    refine ⟨?_, ?_, ?_⟩
    · rw [fireTimer_calls, hid, hlen]
      simp
    · rw [fireTimer_incomingMessages, mapHas_mapDelete, hid]
      simp
    · have hc := countP_erase_of_mem (fun x => x.messageId == id) _ t ht
      simp only [pendingTimers, fireTimer_timers] at b2 ⊢
      simp only [List.foldl_cons] at hc ⊢
      rw [b2] at hc
      simp only [hid, beq_self_eq_true, if_true] at hc
      omega

/-- C2, instantiated: from module start, two `reply` frames for note `n1` leave one
pending timer, whose firing calls `processMessage` once and removes `n1`. -/
theorem cooldown_arms_one_timer_and_processes_once_witness :
    pendingTimers (["a", "b"].foldl (onMessage exampleParse) Coalescer.initial) (.str "n1") = 1
    ∧ (["a", "b"].foldl (onMessage exampleParse) Coalescer.initial).processMessageCalls =
        Coalescer.initial.processMessageCalls
    ∧ ((mapGet (["a", "b"].foldl (onMessage exampleParse) Coalescer.initial).incomingMessages
          (.str "n1")).getD []).length = ["a", "b"].length
    ∧ ∀ t ∈ (["a", "b"].foldl (onMessage exampleParse) Coalescer.initial).timers,
        t.messageId = .str "n1" →
        (∃ message,
          (fireTimer (["a", "b"].foldl (onMessage exampleParse) Coalescer.initial)
            t).processMessageCalls =
            (["a", "b"].foldl (onMessage exampleParse)
              Coalescer.initial).processMessageCalls ++ [message])
        ∧ mapHas (fireTimer (["a", "b"].foldl (onMessage exampleParse) Coalescer.initial)
            t).incomingMessages (.str "n1") = false
        ∧ pendingTimers (fireTimer (["a", "b"].foldl (onMessage exampleParse) Coalescer.initial)
            t) (.str "n1") = 0 :=
  cooldown_arms_one_timer_and_processes_once exampleParse Coalescer.initial (.str "n1")
    ["a", "b"] Reachable.start rfl (by simp)
    (fun f _ => ⟨_, "reply", _, _, rfl,
      ⟨rfl, rfl, rfl, Or.inr rfl, rfl,
        (by show JSValue.obj _ ≠ _; simp), (by show JSValue.obj _ ≠ _; simp)⟩, rfl⟩)

/-! ### The delay of the autonomous poster -/

theorem roundHalfEven_le_add_half (m : ℚ) : (roundHalfEven m : ℚ) ≤ m + 1 / 2 := by
  have h1 : (⌊m⌋ : ℚ) ≤ m := Int.floor_le m
  unfold roundHalfEven
  split_ifs with a b c
  · linarith
  · push_cast; linarith
  · linarith
  · push_cast; linarith

theorem roundHalfEven_nonneg (m : ℚ) (h : 0 ≤ m) : 0 ≤ roundHalfEven m := by
  have h1 : 0 ≤ ⌊m⌋ := Int.floor_nonneg.mpr h
  unfold roundHalfEven
  split_ifs <;> omega

theorem roundHalfEven_intCast (k : ℤ) : roundHalfEven (k : ℚ) = k := by
  unfold roundHalfEven
  simp

theorem ulp_pos (q : ℚ) : (0 : ℚ) < 2 ^ ulpExponent q := zpow_pos (by norm_num) _

theorem roundToDouble_nonneg (q : ℚ) (h : 0 ≤ q) : 0 ≤ roundToDouble q := by
  unfold roundToDouble
  have hu := ulp_pos q
  have : 0 ≤ roundHalfEven (q / 2 ^ ulpExponent q) :=
    roundHalfEven_nonneg _ (div_nonneg h hu.le)
  have : (0 : ℚ) ≤ roundHalfEven (q / 2 ^ ulpExponent q) := by exact_mod_cast this
  positivity

theorem roundToDouble_le (q : ℚ) : roundToDouble q ≤ q + 2 ^ ulpExponent q / 2 := by
  unfold roundToDouble
  have hu := ulp_pos q
  have h := roundHalfEven_le_add_half (q / 2 ^ ulpExponent q)
  calc (roundHalfEven (q / 2 ^ ulpExponent q) : ℚ) * 2 ^ ulpExponent q
      ≤ (q / 2 ^ ulpExponent q + 1 / 2) * 2 ^ ulpExponent q :=
        mul_le_mul_of_nonneg_right h hu.le
    _ = q + 2 ^ ulpExponent q / 2 := by field_simp; ring

theorem ulpExponent_le (q : ℚ) (h0 : 0 ≤ q) (h : q < 2 ^ (24 : ℤ)) : ulpExponent q ≤ -29 := by
  unfold ulpExponent
  rw [abs_of_nonneg h0]
  rcases eq_or_lt_of_le h0 with h0 | h0
  · rw [← h0, Int.log_zero_right]; decide
  · have h' : q < ((2 : ℕ) : ℚ) ^ (24 : ℤ) := by push_cast; exact h
    have := (Int.lt_zpow_iff_log_lt (b := 2) (by norm_num) h0).mp h'
    omega

theorem isDouble_lt_one (r : ℚ) (hd : IsDouble r) (h0 : 0 ≤ r) (h1 : r < 1) :
    r ≤ 1 - 2 ^ (-53 : ℤ) := by
  rcases eq_or_lt_of_le h0 with h0' | h0'
  · rw [← h0']; norm_num
  · have hlog : Int.log 2 r < 0 :=
      (Int.lt_zpow_iff_log_lt (b := 2) (by norm_num) h0').mp (by simpa using h1)
    by_cases he : Int.log 2 r ≤ -2
    · have h2 := Int.lt_zpow_succ_log_self (b := 2) (by norm_num) r
      have h3 : ((2 : ℕ) : ℚ) ^ (Int.log 2 r + 1) ≤ ((2 : ℕ) : ℚ) ^ (-1 : ℤ) :=
        zpow_le_zpow_right₀ (by norm_num) (by omega)
      have h4 : ((2 : ℕ) : ℚ) ^ (-1 : ℤ) ≤ 1 - 2 ^ (-53 : ℤ) := by norm_num
      linarith
    · have he' : Int.log 2 r = -1 := by omega
      have hu : ulpExponent r = -53 := by
        unfold ulpExponent
        rw [abs_of_nonneg h0, he']
        decide
      unfold IsDouble roundToDouble at hd
      rw [hu] at hd
      set k := roundHalfEven (r / 2 ^ (-53 : ℤ)) with hk
      have hk1 : (k : ℚ) < 2 ^ (53 : ℕ) := by
        have : (k : ℚ) * 2 ^ (-53 : ℤ) < 1 := by rw [hd]; exact h1
        have h6 : (2 : ℚ) ^ (-53 : ℤ) * 2 ^ (53 : ℕ) = 1 := by norm_num
        have h5 : (k : ℚ) = (k : ℚ) * 2 ^ (-53 : ℤ) * 2 ^ (53 : ℕ) := by
          rw [mul_assoc, h6, mul_one]
        rw [h5]
        calc (k : ℚ) * 2 ^ (-53 : ℤ) * 2 ^ (53 : ℕ) < 1 * 2 ^ (53 : ℕ) :=
              mul_lt_mul_of_pos_right this (by positivity)
          _ = 2 ^ (53 : ℕ) := one_mul _
      have hk2 : k < 2 ^ (53 : ℕ) := by exact_mod_cast hk1
      have hk3 : k ≤ 2 ^ (53 : ℕ) - 1 := by omega
      have hk4 : (k : ℚ) ≤ 2 ^ (53 : ℕ) - 1 := by exact_mod_cast hk3
      rw [← hd]
      calc (k : ℚ) * 2 ^ (-53 : ℤ) ≤ (2 ^ (53 : ℕ) - 1) * 2 ^ (-53 : ℤ) :=
            mul_le_mul_of_nonneg_right hk4 (by positivity)
        _ = 1 - 2 ^ (-53 : ℤ) := by norm_num

theorem roundToDouble_intCast (n : ℤ) (h1 : 1 ≤ n) (h2 : n < 9007199254740992) :
    roundToDouble (n : ℚ) = n := by
  have hpos : (0 : ℚ) < n := by exact_mod_cast (by omega : 0 < n)
  have h1' : ((2 : ℕ) : ℚ) ^ (0 : ℤ) ≤ n := by
    rw [zpow_zero]; exact_mod_cast h1
  have h2' : (n : ℚ) < ((2 : ℕ) : ℚ) ^ (53 : ℤ) := by
    have : (n : ℚ) < 9007199254740992 := by exact_mod_cast h2
    calc (n : ℚ) < 9007199254740992 := this
      _ = ((2 : ℕ) : ℚ) ^ (53 : ℤ) := by norm_num
  have hlo : 0 ≤ Int.log 2 (n : ℚ) :=
    (Int.zpow_le_iff_le_log (b := 2) (by norm_num) hpos).mp h1'
  have hhi : Int.log 2 (n : ℚ) < 53 :=
    (Int.lt_zpow_iff_log_lt (b := 2) (by norm_num) hpos).mp h2'
  have hu : ulpExponent (n : ℚ) = -(((52 - Int.log 2 (n : ℚ)).toNat : ℕ) : ℤ) := by
    unfold ulpExponent
    rw [abs_of_pos hpos]
    omega
  unfold roundToDouble
  rw [hu, zpow_neg, zpow_natCast, div_inv_eq_mul]
  have : (n : ℚ) * 2 ^ (52 - Int.log 2 (n : ℚ)).toNat =
      ((n * 2 ^ (52 - Int.log 2 (n : ℚ)).toNat : ℤ) : ℚ) := by push_cast; ring
  rw [this, roundHalfEven_intCast]
  push_cast
  field_simp

/-- C6: for every double `r` with `0 <= r < 1` that `Math.random()` returns, the
delay computed by `scheduleNextAutoMessage`, in double arithmetic, is an integer
between 1,800,000 and 14,400,000 inclusive. -/
theorem scheduleDelay_bounds (r : ℚ) (hd : IsDouble r) (h0 : 0 ≤ r) (h1 : r < 1) :
    ∃ n : ℤ, scheduleDelay r = n ∧ 1800000 ≤ n ∧ n ≤ 14400000 := by
  have hr := isDouble_lt_one r hd h0 h1
  have e1 : (2 : ℚ) ^ (-29 : ℤ) = 1 / 536870912 := by norm_num
  have e2 : (2 : ℚ) ^ (-53 : ℤ) = 1 / 9007199254740992 := by norm_num
  have e4 : (2 : ℚ) ^ (24 : ℤ) = 16777216 := by norm_num
  rw [e2] at hr
  have hq0 : 0 ≤ r * 12600001 := mul_nonneg h0 (by norm_num)
  have hq1 : r * 12600001 ≤ 12600001 - 12600001 * (1 / 9007199254740992) := by linarith
  have hq2 : r * 12600001 < 2 ^ (24 : ℤ) := by rw [e4]; linarith
  have hu := ulpExponent_le _ hq0 hq2
  have hu2 : (2 : ℚ) ^ ulpExponent (r * 12600001) ≤ 2 ^ (-29 : ℤ) :=
    zpow_le_zpow_right₀ (by norm_num) hu
  rw [e1] at hu2
  have hp0 := roundToDouble_nonneg _ hq0
  have hp1 := roundToDouble_le (r * 12600001)
  have hp2 : roundToDouble (r * 12600001) < 12600001 := by linarith
  have hf0 : 0 ≤ ⌊roundToDouble (r * 12600001)⌋ := Int.floor_nonneg.mpr hp0
  have hf1 : ⌊roundToDouble (r * 12600001)⌋ < 12600001 :=
    Int.floor_lt.mpr (by exact_mod_cast hp2)
  refine ⟨⌊roundToDouble (r * 12600001)⌋ + 1800000, ?_, by omega, by omega⟩
  have hc : ((4 * 60 * 60 * 1000 : ℚ) - 30 * 60 * 1000 + 1) = 12600001 := by norm_num
  have hm : (30 * 60 * 1000 : ℚ) = ((1800000 : ℤ) : ℚ) := by norm_num
  have hs : scheduleDelay r =
      roundToDouble ((⌊roundToDouble (r * 12600001)⌋ : ℚ) + ((1800000 : ℤ) : ℚ)) := by
    simp only [scheduleDelay]
    rw [hc, hm]
  rw [hs, ← Int.cast_add]
  exact roundToDouble_intCast (⌊roundToDouble (r * 12600001)⌋ + 1800000) (by omega) (by omega)

/-- The number 1/2 is a double. -/
theorem isDouble_half : IsDouble (1 / 2) := by
  unfold IsDouble roundToDouble
  have hlog : Int.log 2 |(1 / 2 : ℚ)| = -1 := by
    have : |(1 / 2 : ℚ)| = ((2 : ℕ) : ℚ) ^ (-1 : ℤ) := by norm_num [abs_of_pos]
    rw [this, Int.log_zpow (by norm_num)]
  have hu : ulpExponent (1 / 2) = -53 := by
    unfold ulpExponent
    rw [hlog]; decide
  rw [hu]
  have : (1 / 2 : ℚ) / 2 ^ (-53 : ℤ) = ((2 ^ 52 : ℤ) : ℚ) := by norm_num
  rw [this, roundHalfEven_intCast]
  norm_num


/-- C6, instantiated at `Math.random() = 0.5`. -/
theorem scheduleDelay_bounds_witness :
    IsDouble (1 / 2) ∧ (0 : ℚ) ≤ 1 / 2 ∧ (1 / 2 : ℚ) < 1
      ∧ ∃ n : ℤ, scheduleDelay (1 / 2) = n ∧ 1800000 ≤ n ∧ n ≤ 14400000 :=
  ⟨isDouble_half, by norm_num, by norm_num,
    scheduleDelay_bounds (1 / 2) isDouble_half (by norm_num) (by norm_num)⟩

/-! ### The close handler -/

/-- C7, the defect: on a close event the handler cancels the keepalive timer and
then ends with `ReferenceError: connectWebSocket is not defined`, raised while the
arguments of `setTimeout` are evaluated; no reconnect timer is scheduled. -/
theorem onClose_schedules_no_reconnect (c : Connection) :
    onClose c =
      ({ pingIntervalArmed := false, reconnectTimers := c.reconnectTimers,
         log := c.log ++ ["Disconnected from Misskey streaming API"] },
        some (.ReferenceError "connectWebSocket")) := by
  have hn : ¬ ("connectWebSocket" ∈ moduleBindings ∨ "connectWebSocket" ∈ hostGlobals) := by
    decide
  have h : resolveIdentifier "connectWebSocket" =
      .error (.ReferenceError "connectWebSocket") := by
    unfold resolveIdentifier
    rw [if_neg hn]
  simp only [onClose, h]


/-! ### The sort and the selected entry -/

section SortProofs

variable {α : Type}

theorem setAt_objects (a : FixedArray α) (i j : Int) (v : α) :
    (setAt a i v).objects j = if j = i then v else a.objects j := rfl

theorem Copy_objects (s : FixedArray α) (sp : Int) (t : FixedArray α) (dp len j : Int) :
    (Copy s sp t dp len).objects j =
      if dp ≤ j ∧ j < dp + len then s.objects (sp + (j - dp)) else t.objects j := rfl

theorem reverseLoop_objects (fuel : Nat) :
    ∀ (a : FixedArray α) (low high : Int), high - low < fuel →
      ∀ j, (reverseLoop fuel a low high).objects j =
        if low ≤ j ∧ j ≤ high then a.objects (low + high - j) else a.objects j := by
  induction fuel with
  | zero =>
    intro a low high h j
    simp only [reverseLoop]
    rw [if_neg (by omega)]
  | succ n ih =>
    intro a low high h j
    unfold reverseLoop
    by_cases hlt : low < high
    · simp only [hlt, if_true]
      rw [ih _ _ _ (by omega)]
      by_cases h1 : low + 1 ≤ j ∧ j ≤ high - 1
      · have h2 : low ≤ j ∧ j ≤ high := ⟨by omega, by omega⟩
        rw [if_pos h1, if_pos h2]
        simp only [setAt_objects]
        rw [if_neg (by omega), if_neg (by omega)]
        congr 1
        omega
      · rw [if_neg h1]
        simp only [setAt_objects]
        by_cases hj : j = high
        · rw [if_pos hj, if_pos ⟨by omega, by omega⟩]
          congr 1; omega
        · rw [if_neg hj]
          by_cases hj2 : j = low
          · rw [if_pos hj2, if_pos ⟨by omega, by omega⟩]
            congr 1; omega
          · rw [if_neg hj2, if_neg (by omega)]
    · simp only [hlt, if_false]
      by_cases h2 : low ≤ j ∧ j ≤ high
      · rw [if_pos h2]
        congr 1; omega
      · rw [if_neg h2]

theorem ReverseRange_objects (a : FixedArray α) (lo hi j : Int) (h : lo ≤ hi) :
    (ReverseRange a lo hi).objects j =
      if lo ≤ j ∧ j < hi then a.objects (lo + hi - 1 - j) else a.objects j := by
  unfold ReverseRange
  by_cases hz : (hi - lo).toNat = 0
  · have : hi = lo := by omega
    subst this
    rw [hz]
    simp only [reverseLoop]
    rw [if_neg (by omega)]
  · rw [reverseLoop_objects _ _ _ _ (by omega)]
    by_cases h1 : lo ≤ j ∧ j < hi
    · rw [if_pos ⟨h1.1, by omega⟩, if_pos h1]
      congr 1; omega
    · rw [if_neg (by omega), if_neg h1]

theorem slideLoop_objects (fuel : Nat) :
    ∀ (a : FixedArray α) (p left : Int), p - left ≤ fuel →
      ∀ j, (slideLoop fuel a p left).objects j =
        if left < j ∧ j ≤ p then a.objects (j - 1) else a.objects j := by
  induction fuel with
  | zero =>
    intro a p left h j
    simp only [slideLoop]
    rw [if_neg (by omega)]
  | succ n ih =>
    intro a p left h j
    unfold slideLoop
    by_cases hlt : p > left
    · simp only [hlt, if_true]
      rw [ih _ _ _ (by omega)]
      by_cases h1 : left < j ∧ j ≤ p - 1
      · rw [if_pos h1, if_pos ⟨h1.1, by omega⟩, setAt_objects, if_neg (by omega)]
      · rw [if_neg h1, setAt_objects]
        by_cases hj : j = p
        · rw [if_pos hj, if_pos ⟨by omega, by omega⟩, hj]
        · rw [if_neg hj, if_neg (by omega)]
    · simp only [hlt, if_false]
      rw [if_neg (by omega)]

theorem insertionPoint_reply (cmp : α → α → Int) (isR : α → Bool)
    (hc : ∀ x y, cmp x y < 0 ↔ isR x = true) (a : FixedArray α) (pivot : α)
    (hp : isR pivot = true) (fuel : Nat) :
    ∀ left right : Int, left ≤ right → insertionPoint cmp a pivot fuel left right = left := by
  induction fuel with
  | zero => intro left right _; rfl
  | succ n ih =>
    intro left right h
    unfold insertionPoint
    by_cases hlt : left < right
    · simp only [hlt, if_true, (hc pivot _).mpr hp]
      exact ih _ _ (by omega)
    · simp only [hlt, if_false]

theorem insertionPoint_other (cmp : α → α → Int) (isR : α → Bool)
    (hc : ∀ x y, cmp x y < 0 ↔ isR x = true) (a : FixedArray α) (pivot : α)
    (hp : isR pivot = false) (fuel : Nat) :
    ∀ left right : Int, left ≤ right → right - left ≤ fuel →
      insertionPoint cmp a pivot fuel left right = right := by
  induction fuel with
  | zero => intro left right h1 h2; simp only [insertionPoint]; omega
  | succ n ih =>
    intro left right h1 h2
    unfold insertionPoint
    have hn : ∀ y, ¬ cmp pivot y < 0 := by
      intro y hy
      rw [(hc pivot y).mp hy] at hp
      exact Bool.noConfusion hp
    by_cases hlt : left < right
    · simp only [hlt, if_true, hn, if_false]
      exact ih _ _ (by omega) (by omega)
    · simp only [hlt, if_false]
      omega

theorem pick_noR (isR : α → Bool) (o : FixedArray α) (lo : Int) (n : Nat)
    (h : ∀ i : Int, 1 ≤ i → i ≤ n → isR (o.objects (lo + i)) = false) :
    pick isR o lo n = o.objects lo := by
  induction n with
  | zero => rfl
  | succ m ih =>
    unfold pick
    have h1 := h ((m : Int) + 1) (by omega) (by push_cast; omega)
    rw [h1]
    simp only [Bool.false_eq_true, if_false]
    exact ih (fun i hi1 hi2 => h i hi1 (by push_cast; omega))

theorem pick_last (isR : α → Bool) (o : FixedArray α) (lo : Int) (n : Nat) (hn : 1 ≤ n)
    (h : isR (o.objects (lo + n)) = true) : pick isR o lo n = o.objects (lo + n) := by
  cases n with
  | zero => omega
  | succ m =>
    unfold pick
    have e : lo + ((m : Int) + 1) = lo + ((m + 1 : Nat) : Int) := by push_cast; rfl
    rw [e, h]
    simp

theorem pick_succ (isR : α → Bool) (o : FixedArray α) (lo : Int) (n : Nat) :
    pick isR o lo (n + 1) =
      if isR (o.objects (lo + ((n : Int) + 1))) then o.objects (lo + ((n : Int) + 1))
      else pick isR o lo n := rfl

theorem insertionLoop_spec (cmp : α → α → Int) (isR : α → Bool)
    (hc : ∀ x y, cmp x y < 0 ↔ isR x = true) (o : FixedArray α) (low high : Int)
    (fuel : Nat) :
    ∀ (g : FixedArray α) (start c : Int), low < start → start ≤ high → high - start ≤ fuel →
      SplitAt isR g low c start →
      g.objects low = pick isR o low (start - low - 1).toNat →
      (∀ j, start ≤ j → g.objects j = o.objects j) →
      (∃ c', SplitAt isR (insertionLoop cmp low high fuel g start) low c' high)
      ∧ (insertionLoop cmp low high fuel g start).objects low =
          pick isR o low (high - low - 1).toNat
      ∧ (∀ j, high ≤ j → (insertionLoop cmp low high fuel g start).objects j = o.objects j)
      ∧ (∀ j, j < low → (insertionLoop cmp low high fuel g start).objects j = g.objects j) := by
  induction fuel with
  | zero =>
    intro g start c h1 h2 h3 hs hh ho
    have : start = high := by omega
    subst this
    simp only [insertionLoop]
    exact ⟨⟨c, hs⟩, hh, ho, fun _ _ => trivial⟩
  | succ n ih =>
    intro g start c h1 h2 h3 hs hh ho
    unfold insertionLoop
    by_cases hlt : start < high
    · simp only [hlt, if_true]
      obtain ⟨hs1, hs2, hsR, hsN⟩ := hs
      have hnat : (((start - low - 1).toNat : Nat) : Int) = start - low - 1 :=
        Int.toNat_of_nonneg (by omega)
      have hnext : (start + 1 - low - 1).toNat = (start - low - 1).toNat + 1 := by omega
      by_cases hp : isR (g.objects start) = true
      · rw [insertionPoint_reply cmp isR hc g _ hp _ low start (by omega)]
        have hobj : ∀ j, (setAt (slideLoop (start - low).toNat g start low) low
            (g.objects start)).objects j =
            if j = low then g.objects start
            else if low < j ∧ j ≤ start then g.objects (j - 1) else g.objects j := by
          intro j
          rw [setAt_objects, slideLoop_objects _ _ _ _ (by omega)]
        have hres := ih (setAt (slideLoop (start - low).toNat g start low) low (g.objects start))
          (start + 1) (c + 1) (by omega) (by omega) (by omega)
          ⟨by omega, by omega, ?_, ?_⟩ ?_ ?_
        · obtain ⟨r1, r2, r3, r4⟩ := hres
          refine ⟨r1, r2, r3, fun j hj => ?_⟩
          rw [r4 j hj, hobj, if_neg (by omega), if_neg (by omega)]
        · intro i hi1 hi2
          rw [hobj]
          by_cases hi : i = low
          · rw [if_pos hi]; exact hp
          · rw [if_neg hi, if_pos ⟨by omega, by omega⟩]
            exact hsR (i - 1) (by omega) (by omega)
        · intro i hi1 hi2
          rw [hobj, if_neg (by omega), if_pos ⟨by omega, by omega⟩]
          exact hsN (i - 1) (by omega) (by omega)
        · rw [hobj, if_pos rfl, hnext, pick_succ, hnat]
          have e : low + (start - low - 1 + 1) = start := by omega
          rw [e, ← ho start (le_refl _), hp]
          simp
        · intro j hj
          rw [hobj, if_neg (by omega), if_neg (by omega)]
          exact ho j (by omega)
      · have hp' : isR (g.objects start) = false := by simpa using hp
        rw [insertionPoint_other cmp isR hc g _ hp' _ low start (by omega) (by omega)]
        have hobj : ∀ j, (setAt (slideLoop (start - start).toNat g start start) start
            (g.objects start)).objects j = g.objects j := by
          intro j
          rw [setAt_objects, slideLoop_objects _ _ _ _ (by omega)]
          by_cases hj : j = start
          · rw [if_pos hj, hj]
          · rw [if_neg hj, if_neg (by omega)]
        have hres := ih (setAt (slideLoop (start - start).toNat g start start) start
          (g.objects start)) (start + 1) c (by omega) (by omega) (by omega)
          ⟨hs1, by omega, ?_, ?_⟩ ?_ ?_
        · obtain ⟨r1, r2, r3, r4⟩ := hres
          refine ⟨r1, r2, r3, fun j hj => ?_⟩
          rw [r4 j hj, hobj]
        · intro i hi1 hi2
          rw [hobj]
          exact hsR i hi1 hi2
        · intro i hi1 hi2
          rw [hobj]
          by_cases hi : i = start
          · rw [hi]; exact hp'
          · exact hsN i hi1 (by omega)
        · rw [hobj, hnext, pick_succ, hnat]
          have e : low + (start - low - 1 + 1) = start := by omega
          rw [e, ← ho start (le_refl _), hp']
          simpa using hh
        · intro j hj
          rw [hobj]
          exact ho j (by omega)
    · have : start = high := by omega
      subst this
      simp only [hlt, if_false]
      exact ⟨⟨c, hs⟩, hh, ho, fun _ _ => trivial⟩

theorem countRunLoop_spec (cmp : α → α → Int) (isR : α → Bool)
    (hc : ∀ x y, cmp x y < 0 ↔ isR x = true) (a : FixedArray α) (d : Bool) (high : Int)
    (fuel : Nat) :
    ∀ (idx : Int) (prev : α) (rl : Int),
      ∃ k : Int, 0 ≤ k ∧ countRunLoop cmp a d high fuel idx prev rl = rl + k
        ∧ (idx ≤ high → idx + k ≤ high)
        ∧ ∀ i, idx ≤ i → i < idx + k → isR (a.objects i) = d := by
  induction fuel with
  | zero =>
    intro idx prev rl
    exact ⟨0, le_refl _, by simp [countRunLoop], fun h => by omega, fun i h1 h2 => by omega⟩
  | succ n ih =>
    intro idx prev rl
    unfold countRunLoop
    by_cases hlt : idx < high
    · simp only [hlt, if_true]
      by_cases hr : isR (a.objects idx) = true
      · have hneg : cmp (a.objects idx) prev < 0 := (hc _ _).mpr hr
        cases d with
        | true =>
          simp only [if_true, ge_iff_le, not_le.mpr hneg, if_false]
          obtain ⟨k, hk0, hk1, hk2, hk3⟩ := ih (idx + 1) (a.objects idx) (rl + 1)
          refine ⟨k + 1, by omega, by rw [hk1]; omega, fun _ => by omega, fun i h1 h2 => ?_⟩
          by_cases hi : i = idx
          · rw [hi]; exact hr
          · exact hk3 i (by omega) (by omega)
        | false =>
          simp only [Bool.false_eq_true, if_false, hneg, if_true]
          exact ⟨0, le_refl _, by simp, fun h => by omega, fun i h1 h2 => by omega⟩
      · have hr' : isR (a.objects idx) = false := by simpa using hr
        have hneg : ¬ cmp (a.objects idx) prev < 0 := fun h => hr ((hc _ _).mp h)
        cases d with
        | true =>
          simp only [if_true, ge_iff_le, not_lt.mp hneg]
          exact ⟨0, le_refl _, by simp, fun h => by omega, fun i h1 h2 => by omega⟩
        | false =>
          simp only [Bool.false_eq_true, if_false, hneg]
          obtain ⟨k, hk0, hk1, hk2, hk3⟩ := ih (idx + 1) (a.objects idx) (rl + 1)
          refine ⟨k + 1, by omega, by rw [hk1]; omega, fun _ => by omega, fun i h1 h2 => ?_⟩
          by_cases hi : i = idx
          · rw [hi]; exact hr'
          · exact hk3 i (by omega) (by omega)
    · simp only [hlt, if_false]
      exact ⟨0, le_refl _, by simp, fun h => by omega, fun i h1 h2 => by omega⟩

theorem CountAndMakeRun_spec (cmp : α → α → Int) (isR : α → Bool)
    (hc : ∀ x y, cmp x y < 0 ↔ isR x = true) (g : FixedArray α) (lowArg high : Int)
    (h : lowArg < high) :
    1 ≤ (CountAndMakeRun cmp g lowArg high).2
    ∧ lowArg + (CountAndMakeRun cmp g lowArg high).2 ≤ high
    ∧ (∃ c, SplitAt isR (CountAndMakeRun cmp g lowArg high).1 lowArg c
        (lowArg + (CountAndMakeRun cmp g lowArg high).2))
    ∧ (CountAndMakeRun cmp g lowArg high).1.objects lowArg =
        pick isR g lowArg ((CountAndMakeRun cmp g lowArg high).2 - 1).toNat
    ∧ (∀ j, j < lowArg ∨ lowArg + (CountAndMakeRun cmp g lowArg high).2 ≤ j →
        (CountAndMakeRun cmp g lowArg high).1.objects j = g.objects j) := by
  unfold CountAndMakeRun
  by_cases h1 : lowArg + 1 = high
  · simp only [h1, if_true]
    refine ⟨le_refl _, by omega, ?_, rfl, fun _ _ => trivial⟩
    by_cases hr : isR (g.objects lowArg) = true
    · exact ⟨lowArg + 1, by omega, by omega, fun i h1 h2 => by
        have : i = lowArg := by omega
        rw [this]; exact hr, fun i h1 h2 => by omega⟩
    · exact ⟨lowArg, by omega, by omega, fun i h1 h2 => by omega, fun i h1 h2 => by
        have : i = lowArg := by omega
        rw [this]; simpa using hr⟩
  · simp only [h1, if_false]
    obtain ⟨k, hk0, hk1, hk2, hk3⟩ := countRunLoop_spec cmp isR hc g
      (decide (cmp (g.objects (lowArg + 1)) (g.objects (lowArg + 1 - 1)) < 0)) high
      (high - (lowArg + 1)).toNat (lowArg + 1 + 1) (g.objects (lowArg + 1)) 2
    have hk2' := hk2 (by omega)
    rw [hk1]
    by_cases hd : cmp (g.objects (lowArg + 1)) (g.objects (lowArg + 1 - 1)) < 0
    · have hr1 : isR (g.objects (lowArg + 1)) = true := (hc _ _).mp hd
      simp only [hd, decide_True] at hk3
      simp only [hd, decide_True, if_true]
      have hall : ∀ i, lowArg + 1 ≤ i → i < lowArg + (2 + k) → isR (g.objects i) = true := by
        intro i hi1 hi2
        by_cases hi : i = lowArg + 1
        · rw [hi]; exact hr1
        · exact hk3 i (by omega) (by omega)
      have hobj := ReverseRange_objects g lowArg (lowArg + (2 + k)) 
      refine ⟨by omega, by omega, ?_, ?_, ?_⟩
      · by_cases hr : isR (g.objects lowArg) = true
        · refine ⟨lowArg + (2 + k), by omega, by omega, fun i h1 h2 => ?_, fun i h1 h2 => by omega⟩
          rw [hobj i (by omega), if_pos ⟨h1, h2⟩]
          by_cases hi : i = lowArg + (2 + k) - 1
          · have : lowArg + (lowArg + (2 + k)) - 1 - i = lowArg := by omega
            rw [this]; exact hr
          · exact hall _ (by omega) (by omega)
        · refine ⟨lowArg + (2 + k) - 1, by omega, by omega, fun i h1 h2 => ?_, fun i h1 h2 => ?_⟩
          · rw [hobj i (by omega), if_pos ⟨h1, by omega⟩]
            exact hall _ (by omega) (by omega)
          · rw [hobj i (by omega), if_pos ⟨by omega, h2⟩]
            have : lowArg + (lowArg + (2 + k)) - 1 - i = lowArg := by omega
            rw [this]; simpa using hr
      · rw [hobj lowArg (by omega), if_pos ⟨le_refl _, by omega⟩]
        have hn : (((2 + k - 1).toNat : Nat) : Int) = 2 + k - 1 := Int.toNat_of_nonneg (by omega)
        have e : lowArg + (lowArg + (2 + k)) - 1 - lowArg = lowArg + ((2 + k - 1).toNat : Nat) := by
          rw [hn]; omega
        rw [e]
        symm
        apply pick_last
        · omega
        · rw [← e]
          exact hall _ (by omega) (by omega)
      · intro j hj
        rw [hobj j (by omega), if_neg (by omega)]
    · have hr1 : isR (g.objects (lowArg + 1)) = false := by
        have : ¬ isR (g.objects (lowArg + 1)) = true := fun h => hd ((hc _ _).mpr h)
        simpa using this
      simp only [hd, decide_False] at hk3
      simp only [hd, decide_False, Bool.false_eq_true, if_false]
      have hall : ∀ i, lowArg + 1 ≤ i → i < lowArg + (2 + k) → isR (g.objects i) = false := by
        intro i hi1 hi2
        by_cases hi : i = lowArg + 1
        · rw [hi]; exact hr1
        · exact hk3 i (by omega) (by omega)
      refine ⟨by omega, by omega, ?_, ?_, fun _ _ => trivial⟩
      · by_cases hr : isR (g.objects lowArg) = true
        · refine ⟨lowArg + 1, by omega, by omega, fun i h1 h2 => ?_, fun i h1 h2 => hall i h1 h2⟩
          have : i = lowArg := by omega
          rw [this]; exact hr
        · refine ⟨lowArg, by omega, by omega, fun i h1 h2 => by omega, fun i h1 h2 => ?_⟩
          by_cases hi : i = lowArg
          · rw [hi]; simpa using hr
          · exact hall i (by omega) h2
      · symm
        apply pick_noR
        intro i hi1 hi2
        have hn : (((2 + k - 1).toNat : Nat) : Int) = 2 + k - 1 := Int.toNat_of_nonneg (by omega)
        exact hall _ (by omega) (by omega)

theorem gallopLoop_spec (probe : Int → Bool) (maxOfs : Int) (fuel : Nat) :
    ∀ l0 f0 : Int, 0 ≤ l0 → l0 < f0 → maxOfs - f0 ≤ fuel →
      l0 ≤ (gallopLoop probe maxOfs fuel l0 f0).1
      ∧ (gallopLoop probe maxOfs fuel l0 f0).1 < (gallopLoop probe maxOfs fuel l0 f0).2
      ∧ ((gallopLoop probe maxOfs fuel l0 f0).1 = l0
          ∨ (probe (gallopLoop probe maxOfs fuel l0 f0).1 = false
              ∧ (gallopLoop probe maxOfs fuel l0 f0).1 < maxOfs))
      ∧ (maxOfs ≤ (gallopLoop probe maxOfs fuel l0 f0).2
          ∨ ((gallopLoop probe maxOfs fuel l0 f0).2 < maxOfs
              ∧ probe (gallopLoop probe maxOfs fuel l0 f0).2 = true)) := by
  induction fuel with
  | zero =>
    intro l0 f0 h1 h2 h3
    have e : gallopLoop probe maxOfs 0 l0 f0 = (l0, f0) := rfl
    rw [e]
    exact ⟨le_refl _, h2, Or.inl rfl, Or.inl (by omega)⟩
  | succ n ih =>
    intro l0 f0 h1 h2 h3
    have e : gallopLoop probe maxOfs (n + 1) l0 f0 =
        if f0 < maxOfs then
          if probe f0 then (l0, f0)
          else gallopLoop probe maxOfs n f0 (if f0 * 2 + 1 ≤ 0 then maxOfs else f0 * 2 + 1)
        else (l0, f0) := rfl
    rw [e]
    by_cases hlt : f0 < maxOfs
    · rw [if_pos hlt]
      by_cases hp : probe f0 = true
      · rw [if_pos hp]
        exact ⟨le_refl _, h2, Or.inl rfl, Or.inr ⟨hlt, hp⟩⟩
      · rw [if_neg hp]
        have hpos : ¬ f0 * 2 + 1 ≤ 0 := by omega
        rw [if_neg hpos]
        obtain ⟨r1, r2, r3, r4⟩ := ih f0 (f0 * 2 + 1) (by omega) (by omega) (by omega)
        refine ⟨by omega, r2, Or.inr ?_, r4⟩
        rcases r3 with r3 | r3
        · rw [r3]; exact ⟨by simpa using hp, hlt⟩
        · exact r3
    · rw [if_neg hlt]
      exact ⟨le_refl _, h2, Or.inl rfl, Or.inl (by omega)⟩

theorem gallopLeftSearch_spec (cmp : α → α → Int) (isR : α → Bool)
    (hc : ∀ x y, cmp x y < 0 ↔ isR x = true) (array : FixedArray α) (key : α)
    (base length c : Int) (hsplit : SplitAt isR array base (base + c) (base + length))
    (fuel : Nat) :
    ∀ lastOfs offset : Int, 0 ≤ lastOfs → lastOfs ≤ c → c ≤ offset → offset ≤ length →
      offset - lastOfs ≤ fuel →
      gallopLeftSearch cmp array key base fuel lastOfs offset = c := by
  obtain ⟨_, _, hR, hN⟩ := hsplit
  induction fuel with
  | zero =>
    intro lastOfs offset h1 h2 h3 h4 h5
    simp only [gallopLeftSearch]
    omega
  | succ n ih =>
    intro lastOfs offset h1 h2 h3 h4 h5
    unfold gallopLeftSearch
    by_cases hlt : lastOfs < offset
    · simp only [hlt, if_true]
      by_cases hm : lastOfs + (offset - lastOfs) / 2 < c
      · have hr := hR (base + (lastOfs + (offset - lastOfs) / 2)) (by omega) (by omega)
        simp only [(hc _ key).mpr hr, if_true]
        exact ih _ _ (by omega) (by omega) h3 h4 (by omega)
      · have hr := hN (base + (lastOfs + (offset - lastOfs) / 2)) (by omega) (by omega)
        have hneg : ¬ cmp (array.objects (base + (lastOfs + (offset - lastOfs) / 2))) key < 0 := by
          intro h
          rw [(hc _ _).mp h] at hr
          exact Bool.noConfusion hr
        simp only [hneg, if_false]
        exact ih _ _ h1 h2 (by omega) (by omega) (by omega)
    · simp only [hlt, if_false]
      omega

theorem GallopLeft_spec (cmp : α → α → Int) (isR : α → Bool)
    (hc : ∀ x y, cmp x y < 0 ↔ isR x = true) (array : FixedArray α) (key : α)
    (base length hint c : Int) (hh0 : 0 ≤ hint) (hh1 : hint < length) (hc0 : 0 ≤ c)
    (hsplit : SplitAt isR array base (base + c) (base + length)) :
    GallopLeft cmp array key base length hint = c := by
  have hsplit' := hsplit
  obtain ⟨_, hcl, hR, hN⟩ := hsplit
  have hcl' : c ≤ length := by omega
  have hlt_of_R : ∀ i, 0 ≤ i → i < length → isR (array.objects (base + i)) = true → i < c := by
    intro i h1 h2 h3
    by_contra hn
    rw [hN (base + i) (by omega) (by omega)] at h3
    exact Bool.noConfusion h3
  have hge_of_N : ∀ i, 0 ≤ i → i < length → isR (array.objects (base + i)) = false → c ≤ i := by
    intro i h1 h2 h3
    by_contra hn
    rw [hR (base + i) (by omega) (by omega)] at h3
    exact Bool.noConfusion h3
  unfold GallopLeft
  by_cases ho : cmp (array.objects (base + hint)) key < 0
  · have hr0 : isR (array.objects (base + hint)) = true := (hc _ _).mp ho
    simp only [ho, if_true]
    obtain ⟨r1, r2, r3, r4⟩ := gallopLoop_spec
      (fun offset => decide (cmp (array.objects (base + hint + offset)) key ≥ 0))
      (length - hint) (length - hint).toNat 0 1 (le_refl _) (by omega) (by omega)
    generalize gallopLoop
      (fun offset => decide (cmp (array.objects (base + hint + offset)) key ≥ 0))
      (length - hint) (length - hint).toNat 0 1 = r at r1 r2 r3 r4
    have hl : hint + r.1 < c := by
      rcases r3 with r3 | ⟨r3, r3'⟩
      · rw [r3]; simpa using hlt_of_R hint hh0 hh1 hr0
      · apply hlt_of_R _ (by omega) (by omega)
        have : cmp (array.objects (base + hint + r.1)) key < 0 := by simpa using r3
        have e : base + (hint + r.1) = base + hint + r.1 := by omega
        rw [e]
        exact (hc _ _).mp this
    have hf : c ≤ (if r.2 > length - hint then length - hint else r.2) + hint
        ∧ (if r.2 > length - hint then length - hint else r.2) + hint ≤ length := by
      by_cases hgt : r.2 > length - hint
      · rw [if_pos hgt]; omega
      · rw [if_neg hgt]
        rcases r4 with r4 | ⟨r4, r4'⟩
        · omega
        · refine ⟨?_, by omega⟩
          have hge : ¬ cmp (array.objects (base + hint + r.2)) key < 0 := by
            have : cmp (array.objects (base + hint + r.2)) key ≥ 0 := by simpa using r4'
            omega
          have hnr : isR (array.objects (base + (r.2 + hint))) = false := by
            have e : base + (r.2 + hint) = base + hint + r.2 := by omega
            rw [e]
            have : ¬ isR (array.objects (base + hint + r.2)) = true := fun h => hge ((hc _ _).mpr h)
            simpa using this
          exact hge_of_N _ (by omega) (by omega) hnr
    exact gallopLeftSearch_spec cmp isR hc array key base length c hsplit' _ _ _
      (by omega) (by omega) hf.1 hf.2 (by omega)
  · have hr0 : isR (array.objects (base + hint)) = false := by
      have : ¬ isR (array.objects (base + hint)) = true := fun h => ho ((hc _ _).mpr h)
      simpa using this
    simp only [ho, if_false]
    obtain ⟨r1, r2, r3, r4⟩ := gallopLoop_spec
      (fun offset => decide (cmp (array.objects (base + hint - offset)) key < 0))
      (hint + 1) (hint + 1).toNat 0 1 (le_refl _) (by omega) (by omega)
    generalize gallopLoop
      (fun offset => decide (cmp (array.objects (base + hint - offset)) key < 0))
      (hint + 1) (hint + 1).toNat 0 1 = r at r1 r2 r3 r4
    have hl : c ≤ hint - r.1 ∧ r.1 ≤ hint := by
      rcases r3 with r3 | ⟨r3, r3'⟩
      · rw [r3]
        refine ⟨?_, hh0⟩
        simpa using hge_of_N hint hh0 hh1 hr0
      · refine ⟨?_, by omega⟩
        apply hge_of_N _ (by omega) (by omega)
        have : ¬ cmp (array.objects (base + hint - r.1)) key < 0 := by simpa using r3
        have e : base + (hint - r.1) = base + hint - r.1 := by omega
        rw [e]
        have : ¬ isR (array.objects (base + hint - r.1)) = true := fun h => this ((hc _ _).mpr h)
        simpa using this
    have hf : hint - (if r.2 > hint + 1 then hint + 1 else r.2) + 1 ≤ c
        ∧ 0 ≤ hint - (if r.2 > hint + 1 then hint + 1 else r.2) + 1 := by
      by_cases hgt : r.2 > hint + 1
      · rw [if_pos hgt]; omega
      · rw [if_neg hgt]
        rcases r4 with r4 | ⟨r4, r4'⟩
        · have : r.2 = hint + 1 := by omega
          rw [this]; omega
        · refine ⟨?_, by omega⟩
          have hlt : cmp (array.objects (base + hint - r.2)) key < 0 := by simpa using r4'
          have hrr : isR (array.objects (base + (hint - r.2))) = true := by
            have e : base + (hint - r.2) = base + hint - r.2 := by omega
            rw [e]
            exact (hc _ _).mp hlt
          have := hlt_of_R _ (by omega) (by omega) hrr
          omega
    exact gallopLeftSearch_spec cmp isR hc array key base length c hsplit' _ _ _
      hf.2 hf.1 hl.1 (by omega) (by omega)

theorem gallopRightSearch_reply (cmp : α → α → Int) (isR : α → Bool)
    (hc : ∀ x y, cmp x y < 0 ↔ isR x = true) (array : FixedArray α) (key : α) (base : Int)
    (hk : isR key = true) (fuel : Nat) :
    ∀ lastOfs offset : Int, lastOfs ≤ offset → offset - lastOfs ≤ fuel →
      gallopRightSearch cmp array key base fuel lastOfs offset = lastOfs := by
  induction fuel with
  | zero =>
    intro lastOfs offset h1 h2
    simp only [gallopRightSearch]
    omega
  | succ n ih =>
    intro lastOfs offset h1 h2
    unfold gallopRightSearch
    by_cases hlt : lastOfs < offset
    · simp only [hlt, if_true, (hc key _).mpr hk]
      exact ih _ _ (by omega) (by omega)
    · simp only [hlt, if_false]
      omega

theorem gallopRightSearch_other (cmp : α → α → Int) (isR : α → Bool)
    (hc : ∀ x y, cmp x y < 0 ↔ isR x = true) (array : FixedArray α) (key : α) (base : Int)
    (hk : isR key = false) (fuel : Nat) :
    ∀ lastOfs offset : Int,
      gallopRightSearch cmp array key base fuel lastOfs offset = offset := by
  have hn : ∀ y, ¬ cmp key y < 0 := by
    intro y hy
    rw [(hc key y).mp hy] at hk
    exact Bool.noConfusion hk
  induction fuel with
  | zero => intro lastOfs offset; rfl
  | succ n ih =>
    intro lastOfs offset
    unfold gallopRightSearch
    by_cases hlt : lastOfs < offset
    · simp only [hlt, if_true, hn, if_false]
      exact ih _ _
    · simp only [hlt, if_false]

theorem GallopRight_reply (cmp : α → α → Int) (isR : α → Bool)
    (hc : ∀ x y, cmp x y < 0 ↔ isR x = true) (array : FixedArray α) (key : α)
    (base length hint : Int) (hh0 : 0 ≤ hint) (hk : isR key = true) :
    GallopRight cmp array key base length hint = 0 := by
  unfold GallopRight
  simp only [(hc key _).mpr hk, if_true]
  obtain ⟨r1, r2, r3, r4⟩ := gallopLoop_spec
    (fun offset => decide (cmp key (array.objects (base + hint - offset)) ≥ 0))
    (hint + 1) (hint + 1).toNat 0 1 (le_refl _) (by omega) (by omega)
  generalize gallopLoop
    (fun offset => decide (cmp key (array.objects (base + hint - offset)) ≥ 0))
    (hint + 1) (hint + 1).toNat 0 1 = r at r1 r2 r3 r4
  have h4 : hint + 1 ≤ r.2 := by
    rcases r4 with r4 | ⟨_, r4⟩
    · exact r4
    · have : cmp key (array.objects (base + hint - r.2)) ≥ 0 := by simpa using r4
      have := (hc key (array.objects (base + hint - r.2))).mpr hk
      omega
  have h3 : r.1 ≤ hint := by
    rcases r3 with r3 | ⟨_, r3⟩
    · omega
    · omega
  have e : (if r.2 > hint + 1 then hint + 1 else r.2) = hint + 1 := by
    by_cases hgt : r.2 > hint + 1
    · rw [if_pos hgt]
    · rw [if_neg hgt]; omega
  rw [e]
  have e2 : hint - (hint + 1) + 1 = 0 := by omega
  simp only [e2]
  exact gallopRightSearch_reply cmp isR hc array key base hk _ 0 (hint - r.1) (by omega)
    (by omega)

theorem GallopRight_other (cmp : α → α → Int) (isR : α → Bool)
    (hc : ∀ x y, cmp x y < 0 ↔ isR x = true) (array : FixedArray α) (key : α)
    (base length hint : Int) (_hh0 : 0 ≤ hint) (hh1 : hint < length) (hk : isR key = false) :
    GallopRight cmp array key base length hint = length := by
  have hn : ∀ y, ¬ cmp key y < 0 := by
    intro y hy
    rw [(hc key y).mp hy] at hk
    exact Bool.noConfusion hk
  unfold GallopRight
  simp only [hn, if_false]
  obtain ⟨r1, r2, r3, r4⟩ := gallopLoop_spec
    (fun _ => decide False)
    (length - hint) (length - hint).toNat 0 1 (le_refl _) (by omega) (by omega)
  generalize gallopLoop
    (fun _ => decide False)
    (length - hint) (length - hint).toNat 0 1 = r at r1 r2 r3 r4
  have h4 : length - hint ≤ r.2 := by
    rcases r4 with r4 | ⟨_, r4⟩
    · exact r4
    · simp at r4
  have e : (if r.2 > length - hint then length - hint else r.2) = length - hint := by
    by_cases hgt : r.2 > length - hint
    · rw [if_pos hgt]
    · rw [if_neg hgt]; omega
  rw [e, gallopRightSearch_other cmp isR hc array key base hk]
  omega

theorem LowInv_lowTakeB (w : FixedArray α) (baseA la lb : Int) (m : Merge α) (j : Int)
    (hla : 0 ≤ la) (hj : 0 ≤ j) (h : LowInv w baseA la lb m j) :
    LowInv w baseA la lb (lowTakeB m) (j + 1) := by
  obtain ⟨h1, h2, h3, h4, h5, h6, h7, h8⟩ := h
  refine ⟨?_, ?_, ?_, h4, h5, h6, ?_, ?_⟩
  · show m.dest + 1 = _; omega
  · show m.cursor + 1 = _; omega
  · show m.lengthB - 1 = _; omega
  · intro x hx1 hx2
    show (setAt m.work m.dest (m.work.objects m.cursor)).objects x = _
    rw [setAt_objects]
    by_cases hx : x = m.dest
    · rw [if_pos hx, h2, h8 _ (Or.inr (le_refl _))]
      congr 1; omega
    · rw [if_neg hx]
      exact h7 x hx1 (by omega)
  · intro x hx
    show (setAt m.work m.dest (m.work.objects m.cursor)).objects x = _
    rw [setAt_objects, if_neg (by omega)]
    exact h8 x (by omega)

theorem LowInv_minGallop (w : FixedArray α) (baseA la lb : Int) (m : Merge α) (j : Int)
    (a b : Int) (h : LowInv w baseA la lb m j) :
    LowInv w baseA la lb { m with minGallop := a, stateMinGallop := b } j := h

theorem LowInv_cursor_reply (isR : α → Bool) (w : FixedArray α) (baseA la lb : Int)
    (m : Merge α) (j : Int) (hB : AllR isR w (baseA + la) (baseA + la + lb))
    (hj0 : 0 ≤ j) (hj : j < lb) (h : LowInv w baseA la lb m j) :
    isR (m.work.objects m.cursor) = true := by
  obtain ⟨h1, h2, h3, h4, h5, h6, h7, h8⟩ := h
  rw [h2, h8 _ (Or.inr (by omega))]
  exact hB _ (by omega) (by omega)

theorem mergeLowStraight_spec (cmp : α → α → Int) (isR : α → Bool)
    (hc : ∀ x y, cmp x y < 0 ↔ isR x = true) (w : FixedArray α) (baseA la lb : Int)
    (hla : 0 ≤ la) (hB : AllR isR w (baseA + la) (baseA + la + lb)) (fuel : Nat) :
    ∀ (m : Merge α) (j a b : Int), 0 ≤ j → j < lb → LowInv w baseA la lb m j →
      ∃ j', j ≤ j' ∧ j' ≤ lb ∧ LowInv w baseA la lb (mergeLowStraight cmp fuel m a b).1 j'
        ∧ (((mergeLowStraight cmp fuel m a b).2 = Sum.inl Label.Succeed ∧ j' = lb)
          ∨ (∃ v, (mergeLowStraight cmp fuel m a b).2 = Sum.inr v ∧ j' < lb)) := by
  induction fuel with
  | zero =>
    intro m j a b hj0 hj h
    exact ⟨j, le_refl _, by omega, h, Or.inr ⟨(a, b), rfl, hj⟩⟩
  | succ n ih =>
    intro m j a b hj0 hj h
    have hr := LowInv_cursor_reply isR w baseA la lb m j hB hj0 hj h
    have hlt : cmp (m.work.objects m.cursor) (m.temp.objects m.cursorTemp) < 0 := (hc _ _).mpr hr
    have hstep := LowInv_lowTakeB w baseA la lb m j hla hj0 h
    have e : mergeLowStraight cmp (n + 1) m a b =
        if (lowTakeB m).lengthB = 0 then (lowTakeB m, Sum.inl Label.Succeed)
        else if b + 1 ≥ (lowTakeB m).minGallop then (lowTakeB m, Sum.inr (0, b + 1))
        else mergeLowStraight cmp n (lowTakeB m) 0 (b + 1) := by
      conv_lhs => unfold mergeLowStraight
      simp only [hlt, if_true]
      rfl
    rw [e]
    have hlen : (lowTakeB m).lengthB = lb - (j + 1) := hstep.2.2.1
    by_cases h0 : (lowTakeB m).lengthB = 0
    · rw [if_pos h0]
      exact ⟨j + 1, by omega, by omega, hstep, Or.inl ⟨rfl, by omega⟩⟩
    · rw [if_neg h0]
      by_cases hg : b + 1 ≥ (lowTakeB m).minGallop
      · rw [if_pos hg]
        exact ⟨j + 1, by omega, by omega, hstep, Or.inr ⟨_, rfl, by omega⟩⟩
      · rw [if_neg hg]
        obtain ⟨j', q1, q2, q3, q4⟩ := ih (lowTakeB m) (j + 1) 0 (b + 1) (by omega) (by omega) hstep
        exact ⟨j', by omega, q2, q3, q4⟩

theorem LowInv_lowTakeRest (w : FixedArray α) (baseA la lb : Int) (m : Merge α) (j : Int)
    (hla : 0 ≤ la) (hj : 0 ≤ j) (hjl : j ≤ lb) (h : LowInv w baseA la lb m j) :
    LowInv w baseA la lb (lowTakeRest m m.lengthB) lb := by
  obtain ⟨h1, h2, h3, h4, h5, h6, h7, h8⟩ := h
  refine ⟨?_, ?_, ?_, h4, h5, h6, ?_, ?_⟩
  · show m.dest + m.lengthB = _; omega
  · show m.cursor + m.lengthB = _; omega
  · show m.lengthB - m.lengthB = _; omega
  · intro x hx1 hx2
    show (Copy m.work m.cursor m.work m.dest m.lengthB).objects x = _
    rw [Copy_objects]
    by_cases hx : m.dest ≤ x ∧ x < m.dest + m.lengthB
    · rw [if_pos hx, h8 _ (Or.inr (by omega))]
      congr 1; omega
    · rw [if_neg hx]
      exact h7 x hx1 (by omega)
  · intro x hx
    show (Copy m.work m.cursor m.work m.dest m.lengthB).objects x = _
    rw [Copy_objects, if_neg (by omega)]
    exact h8 x (by omega)

theorem mergeLowGallop_spec (cmp : α → α → Int) (isR : α → Bool)
    (hc : ∀ x y, cmp x y < 0 ↔ isR x = true) (w : FixedArray α) (baseA la lb : Int)
    (hla : 0 ≤ la) (hB : AllR isR w (baseA + la) (baseA + la + lb))
    (m : Merge α) (j a b : Int) (hj0 : 0 ≤ j) (hj : j < lb) (h : LowInv w baseA la lb m j)
    (fuel : Nat) :
    ∃ m', mergeLowGallop cmp (fuel + 1) m a b true = (m', some Label.Succeed)
      ∧ LowInv w baseA la lb m' lb := by
  have h0 : LowInv w baseA la lb (gallopEnter m) j := h
  have hr := LowInv_cursor_reply isR w baseA la lb (gallopEnter m) j hB hj0 hj h0
  have hGR : GallopRight cmp (gallopEnter m).temp
      ((gallopEnter m).work.objects (gallopEnter m).cursor) (gallopEnter m).cursorTemp
      (gallopEnter m).lengthA 0 = 0 :=
    GallopRight_reply cmp isR hc _ _ _ _ 0 (le_refl _) hr
  have h1 := LowInv_lowTakeB w baseA la lb (gallopEnter m) j hla hj0 h0
  have hlen : m.lengthB - 1 = lb - (j + 1) := h1.2.2.1
  simp only [gallopEnter] at hGR
  conv => enter [1, m', 1, 1]; unfold mergeLowGallop
  simp only [or_true, if_true, hGR, gt_iff_lt, lt_self_iff_false, if_false]
  by_cases hz : m.lengthB - 1 = 0
  · simp only [hz, if_true]
    have hjl : j + 1 = lb := by omega
    rw [hjl] at h1
    obtain ⟨q1, q2, q3, q4, q5, q6, q7, q8⟩ := h1
    exact ⟨_, rfl, q1, q2, by show (0 : Int) = _; omega, q4, q5, q6, q7, q8⟩
  · simp only [hz, if_false]
    have hsplit : SplitAt isR (lowTakeB (gallopEnter m)).work (lowTakeB (gallopEnter m)).cursor
        ((lowTakeB (gallopEnter m)).cursor + (lowTakeB (gallopEnter m)).lengthB)
        ((lowTakeB (gallopEnter m)).cursor + (lowTakeB (gallopEnter m)).lengthB) := by
      obtain ⟨q1, q2, q3, q4, q5, q6, q7, q8⟩ := h1
      refine ⟨by omega, le_refl _, ?_, fun i hi1 hi2 => by omega⟩
      intro i hi1 hi2
      rw [q8 i (Or.inr (by omega))]
      exact hB i (by omega) (by omega)
    have hGL := GallopLeft_spec cmp isR hc (lowTakeB (gallopEnter m)).work
      ((lowTakeB (gallopEnter m)).temp.objects (lowTakeB (gallopEnter m)).cursorTemp)
      (lowTakeB (gallopEnter m)).cursor (lowTakeB (gallopEnter m)).lengthB 0
      (lowTakeB (gallopEnter m)).lengthB (le_refl _)
      (by show 0 < m.lengthB - 1; omega) (by show 0 ≤ m.lengthB - 1; omega) hsplit
    simp only [lowTakeB, gallopEnter] at hGL
    have hpos : 0 < m.lengthB - 1 := by omega
    simp only [hGL, hpos, if_true, sub_self]
    have h2 := LowInv_lowTakeRest w baseA la lb (lowTakeB (gallopEnter m)) (j + 1) hla
      (by omega) (by omega) h1
    obtain ⟨q1, q2, q3, q4, q5, q6, q7, q8⟩ := h2
    exact ⟨_, rfl, q1, q2, by show (0 : Int) = _; omega, q4, q5, q6, q7, q8⟩

theorem mergeLowOuter_spec (cmp : α → α → Int) (isR : α → Bool)
    (hc : ∀ x y, cmp x y < 0 ↔ isR x = true) (w : FixedArray α) (baseA la lb : Int)
    (hla : 0 ≤ la) (hB : AllR isR w (baseA + la) (baseA + la + lb))
    (m : Merge α) (j : Int) (hj0 : 0 ≤ j) (hj : j < lb) (h : LowInv w baseA la lb m j)
    (inner fuel : Nat) :
    ∃ m', mergeLowOuter cmp (inner + 1) (fuel + 1) m = (m', Label.Succeed)
      ∧ LowInv w baseA la lb m' lb := by
  obtain ⟨j', q1, q2, q3, q4⟩ :=
    mergeLowStraight_spec cmp isR hc w baseA la lb hla hB (inner + 1) m j 0 0 hj0 hj h
  unfold mergeLowOuter
  rcases hs : mergeLowStraight cmp (inner + 1) m 0 0 with ⟨m1, r⟩
  rw [hs] at q3 q4
  rcases q4 with ⟨hr, hj'⟩ | ⟨v, hr, hj'⟩
  · simp only at hr
    subst hr
    subst hj'
    exact ⟨m1, rfl, q3⟩
  · simp only at hr
    subst hr
    obtain ⟨a, b⟩ := v
    obtain ⟨m', hg, hinv⟩ := mergeLowGallop_spec cmp isR hc w baseA la lb hla hB
      { m1 with minGallop := m1.minGallop + 1 } j' a b (by omega) hj' q3 inner
    simp only [hg]
    exact ⟨m', rfl, hinv⟩

theorem low_finish (w : FixedArray α) (baseA la lb : Int) (m : Merge α) (_hla : 0 ≤ la)
    (_hlb : 0 ≤ lb) (h : LowInv w baseA la lb m lb) :
    Rotated w (Copy m.temp m.cursorTemp m.work m.dest m.lengthA) baseA la lb := by
  obtain ⟨h1, h2, h3, h4, h5, h6, h7, h8⟩ := h
  intro j
  rw [Copy_objects, h1, h4, h5]
  by_cases hA : baseA ≤ j ∧ j < baseA + lb
  · rw [if_pos hA, if_neg (by omega)]
    exact h7 j hA.1 hA.2
  · rw [if_neg hA]
    by_cases hB : baseA + lb ≤ j ∧ j < baseA + lb + la
    · rw [if_pos hB, if_pos hB, h6 _ (by omega) (by omega)]
      congr 1; omega
    · rw [if_neg hB, if_neg hB]
      exact h8 j (by omega)

theorem low_finish_copy (w : FixedArray α) (baseA lb : Int) (m : Merge α) (j : Int)
    (hj0 : 0 ≤ j) (hj : j ≤ lb) (h : LowInv w baseA 1 lb m j) :
    Rotated w (setAt (Copy m.work m.cursor m.work m.dest m.lengthB) (m.dest + m.lengthB)
      (m.temp.objects m.cursorTemp)) baseA 1 lb := by
  obtain ⟨h1, h2, h3, h4, h5, h6, h7, h8⟩ := h
  intro x
  rw [setAt_objects, Copy_objects, h1, h2, h3, h5]
  by_cases hx : x = baseA + j + (lb - j)
  · rw [if_pos hx, if_neg (by omega), if_pos ⟨by omega, by omega⟩, h6 0 (le_refl _) (by omega)]
    congr 1; omega
  · rw [if_neg hx]
    by_cases hA : baseA + j ≤ x ∧ x < baseA + j + (lb - j)
    · rw [if_pos hA, if_pos ⟨by omega, by omega⟩, h8 _ (Or.inr (by omega))]
      congr 1; omega
    · rw [if_neg hA]
      by_cases hB : baseA ≤ x ∧ x < baseA + lb
      · rw [if_pos hB]
        exact h7 x hB.1 (by omega)
      · rw [if_neg hB, if_neg (by omega)]
        exact h8 x (by omega)

theorem MergeLow_spec (cmp : α → α → Int) (isR : α → Bool)
    (hc : ∀ x y, cmp x y < 0 ↔ isR x = true) (w temp : FixedArray α) (mg : Int)
    (baseA la lb : Int) (hla : 1 ≤ la) (hlb : 1 ≤ lb)
    (hB : AllR isR w (baseA + la) (baseA + la + lb)) :
    Rotated w (MergeLow cmp w temp mg baseA la (baseA + la) lb).1 baseA la lb := by
  have hinit : LowInv w baseA la lb
      { work := setAt w baseA (w.objects (baseA + la)), temp := Copy w baseA temp 0 la,
        lengthA := la, lengthB := lb - 1, dest := baseA + 1, cursorTemp := 0,
        cursor := baseA + la + 1, minGallop := mg, stateMinGallop := mg } 1 := by
    refine ⟨rfl, rfl, rfl, rfl, rfl, ?_, ?_, ?_⟩
    · intro i hi1 hi2
      show (Copy w baseA temp 0 la).objects i = _
      rw [Copy_objects, if_pos ⟨hi1, by omega⟩]
      congr 1; omega
    · intro x hx1 hx2
      show (setAt w baseA (w.objects (baseA + la))).objects x = _
      have : x = baseA := by omega
      rw [setAt_objects, if_pos this, this]
    · intro x hx
      show (setAt w baseA (w.objects (baseA + la))).objects x = _
      rw [setAt_objects, if_neg (by omega)]
  unfold MergeLow
  simp only
  by_cases h1 : lb - 1 = 0
  · simp only [h1, if_true]
    have hpos : la > 0 := by omega
    simp only [hpos, if_true]
    have hlb1 : lb = 1 := by omega
    subst hlb1
    exact low_finish w baseA la 1 _ (by omega) (by omega) hinit
  · simp only [h1, if_false]
    by_cases h2 : la = 1
    · subst h2
      simp only [if_true]
      exact low_finish_copy w baseA lb _ 1 (by omega) (by omega) hinit
    · simp only [h2, if_false]
      obtain ⟨m', hm, hinv⟩ := mergeLowOuter_spec cmp isR hc w baseA la lb (by omega) hB _ 1
        (by omega) (by omega) hinit (la + lb).toNat (la + lb).toNat
      simp only [hm]
      have hpos : m'.lengthA > 0 := by rw [hinv.2.2.2.1]; omega
      simp only [hpos, if_true]
      exact low_finish w baseA la lb m' (by omega) (by omega) hinv

theorem HighInv_highTakeA (w : FixedArray α) (baseA la lb : Int) (m : Merge α) (j : Int)
    (hlb : 1 ≤ lb) (hj : 0 ≤ j) (h : HighInv w baseA la lb m j) :
    HighInv w baseA la lb (highTakeA m) (j + 1) := by
  obtain ⟨h1, h2, h3, h4, h5, h6, h7, h8⟩ := h
  refine ⟨?_, ?_, ?_, h4, h5, h6, ?_, ?_⟩
  · show m.dest - 1 = _; omega
  · show m.cursor - 1 = _; omega
  · show m.lengthA - 1 = _; omega
  · intro x hx1 hx2
    show (setAt m.work m.dest (m.work.objects m.cursor)).objects x = _
    rw [setAt_objects]
    by_cases hx : x = m.dest
    · rw [if_pos hx, h2, h8 _ (Or.inl (le_refl _))]
      congr 1; omega
    · rw [if_neg hx]
      exact h7 x (by omega) hx2
  · intro x hx
    show (setAt m.work m.dest (m.work.objects m.cursor)).objects x = _
    rw [setAt_objects, if_neg (by omega)]
    exact h8 x (by omega)

theorem HighInv_highTakeRest (w : FixedArray α) (baseA la lb : Int) (m : Merge α) (j : Int)
    (hlb : 1 ≤ lb) (hj : 0 ≤ j) (hjl : j ≤ la) (h : HighInv w baseA la lb m j) :
    HighInv w baseA la lb (highTakeRest m m.lengthA) la := by
  obtain ⟨h1, h2, h3, h4, h5, h6, h7, h8⟩ := h
  refine ⟨?_, ?_, ?_, h4, h5, h6, ?_, ?_⟩
  · show m.dest - m.lengthA = _; omega
  · show m.cursor - m.lengthA = _; omega
  · show m.lengthA - m.lengthA = _; omega
  · intro x hx1 hx2
    show (Copy m.work (m.cursor - m.lengthA + 1) m.work (m.dest - m.lengthA + 1)
      m.lengthA).objects x = _
    rw [Copy_objects]
    by_cases hx : m.dest - m.lengthA + 1 ≤ x ∧ x < m.dest - m.lengthA + 1 + m.lengthA
    · rw [if_pos hx, h8 _ (Or.inl (by omega))]
      congr 1; omega
    · rw [if_neg hx]
      exact h7 x (by omega) hx2
  · intro x hx
    show (Copy m.work (m.cursor - m.lengthA + 1) m.work (m.dest - m.lengthA + 1)
      m.lengthA).objects x = _
    rw [Copy_objects, if_neg (by omega)]
    exact h8 x (by omega)

theorem HighInv_temp_reply (isR : α → Bool) (w : FixedArray α) (baseA la lb : Int)
    (m : Merge α) (j : Int) (hB : AllR isR w (baseA + la) (baseA + la + lb))
    (hlb : 1 ≤ lb) (h : HighInv w baseA la lb m j) :
    isR (m.temp.objects m.cursorTemp) = true := by
  obtain ⟨h1, h2, h3, h4, h5, h6, h7, h8⟩ := h
  rw [h5, h6 _ (by omega) (by omega)]
  exact hB _ (by omega) (by omega)

theorem mergeHighStraight_spec (cmp : α → α → Int) (isR : α → Bool)
    (hc : ∀ x y, cmp x y < 0 ↔ isR x = true) (w : FixedArray α) (baseA la lb : Int)
    (hlb : 1 ≤ lb) (hB : AllR isR w (baseA + la) (baseA + la + lb)) (fuel : Nat) :
    ∀ (m : Merge α) (j a b : Int), 0 ≤ j → j < la → HighInv w baseA la lb m j →
      ∃ j', j ≤ j' ∧ j' ≤ la ∧ HighInv w baseA la lb (mergeHighStraight cmp fuel m a b).1 j'
        ∧ (((mergeHighStraight cmp fuel m a b).2 = Sum.inl Label.Succeed ∧ j' = la)
          ∨ (∃ v, (mergeHighStraight cmp fuel m a b).2 = Sum.inr v ∧ j' < la)) := by
  induction fuel with
  | zero =>
    intro m j a b hj0 hj h
    exact ⟨j, le_refl _, by omega, h, Or.inr ⟨(a, b), rfl, hj⟩⟩
  | succ n ih =>
    intro m j a b hj0 hj h
    have hr := HighInv_temp_reply isR w baseA la lb m j hB hlb h
    have hlt : cmp (m.temp.objects m.cursorTemp) (m.work.objects m.cursor) < 0 := (hc _ _).mpr hr
    have hstep := HighInv_highTakeA w baseA la lb m j hlb hj0 h
    have e : mergeHighStraight cmp (n + 1) m a b =
        if (highTakeA m).lengthA = 0 then (highTakeA m, Sum.inl Label.Succeed)
        else if a + 1 ≥ (highTakeA m).minGallop then (highTakeA m, Sum.inr (a + 1, 0))
        else mergeHighStraight cmp n (highTakeA m) (a + 1) 0 := by
      conv_lhs => unfold mergeHighStraight
      simp only [hlt, if_true]
      rfl
    rw [e]
    have hlen : (highTakeA m).lengthA = la - (j + 1) := hstep.2.2.1
    by_cases h0 : (highTakeA m).lengthA = 0
    · rw [if_pos h0]
      exact ⟨j + 1, by omega, by omega, hstep, Or.inl ⟨rfl, by omega⟩⟩
    · rw [if_neg h0]
      by_cases hg : a + 1 ≥ (highTakeA m).minGallop
      · rw [if_pos hg]
        exact ⟨j + 1, by omega, by omega, hstep, Or.inr ⟨_, rfl, by omega⟩⟩
      · rw [if_neg hg]
        obtain ⟨j', q1, q2, q3, q4⟩ := ih (highTakeA m) (j + 1) (a + 1) 0 (by omega) (by omega) hstep
        exact ⟨j', by omega, q2, q3, q4⟩

theorem mergeHighGallop_spec (cmp : α → α → Int) (isR : α → Bool)
    (hc : ∀ x y, cmp x y < 0 ↔ isR x = true) (w : FixedArray α) (baseA la lb : Int)
    (hlb : 1 ≤ lb) (hB : AllR isR w (baseA + la) (baseA + la + lb))
    (m : Merge α) (j a b : Int) (hj0 : 0 ≤ j) (hj : j < la) (h : HighInv w baseA la lb m j)
    (fuel : Nat) :
    ∃ m', mergeHighGallop cmp baseA (fuel + 1) m a b true = (m', some Label.Succeed)
      ∧ HighInv w baseA la lb m' la := by
  have h0 : HighInv w baseA la lb (gallopEnter m) j := h
  have hr := HighInv_temp_reply isR w baseA la lb (gallopEnter m) j hB hlb h0
  have hlen : m.lengthA = la - j := h.2.2.1
  have hGR : GallopRight cmp (gallopEnter m).work
      ((gallopEnter m).temp.objects (gallopEnter m).cursorTemp) baseA
      (gallopEnter m).lengthA ((gallopEnter m).lengthA - 1) = 0 :=
    GallopRight_reply cmp isR hc _ _ _ _ _ (by show 0 ≤ m.lengthA - 1; omega) hr
  simp only [gallopEnter] at hGR
  conv => enter [1, m', 1, 1]; unfold mergeHighGallop
  have hpos : 0 < m.lengthA := by omega
  simp only [or_true, if_true, hGR, gt_iff_lt, sub_zero, hpos, sub_self]
  have h2 := HighInv_highTakeRest w baseA la lb (gallopEnter m) j hlb hj0 (by omega) h0
  obtain ⟨q1, q2, q3, q4, q5, q6, q7, q8⟩ := h2
  exact ⟨_, rfl, q1, q2, by show (0 : Int) = _; omega, q4, q5, q6, q7, q8⟩

theorem mergeHighOuter_spec (cmp : α → α → Int) (isR : α → Bool)
    (hc : ∀ x y, cmp x y < 0 ↔ isR x = true) (w : FixedArray α) (baseA la lb : Int)
    (hlb : 1 ≤ lb) (hB : AllR isR w (baseA + la) (baseA + la + lb))
    (m : Merge α) (j : Int) (hj0 : 0 ≤ j) (hj : j < la) (h : HighInv w baseA la lb m j)
    (inner fuel : Nat) :
    ∃ m', mergeHighOuter cmp baseA (inner + 1) (fuel + 1) m = (m', Label.Succeed)
      ∧ HighInv w baseA la lb m' la := by
  obtain ⟨j', q1, q2, q3, q4⟩ :=
    mergeHighStraight_spec cmp isR hc w baseA la lb hlb hB (inner + 1) m j 0 0 hj0 hj h
  unfold mergeHighOuter
  rcases hs : mergeHighStraight cmp (inner + 1) m 0 0 with ⟨m1, r⟩
  rw [hs] at q3 q4
  rcases q4 with ⟨hr, hj'⟩ | ⟨v, hr, hj'⟩
  · simp only at hr
    subst hr
    subst hj'
    exact ⟨m1, rfl, q3⟩
  · simp only at hr
    subst hr
    obtain ⟨a, b⟩ := v
    obtain ⟨m', hg, hinv⟩ := mergeHighGallop_spec cmp isR hc w baseA la lb hlb hB
      { m1 with minGallop := m1.minGallop + 1 } j' a b (by omega) hj' q3 inner
    simp only [hg]
    exact ⟨m', rfl, hinv⟩

theorem high_finish (w : FixedArray α) (baseA la lb : Int) (m : Merge α) (_hla : 0 ≤ la)
    (_hlb : 1 ≤ lb) (h : HighInv w baseA la lb m la) :
    Rotated w (Copy m.temp 0 m.work (m.dest - (m.lengthB - 1)) m.lengthB) baseA la lb := by
  obtain ⟨h1, h2, h3, h4, h5, h6, h7, h8⟩ := h
  intro j
  rw [Copy_objects, h1, h4]
  by_cases hA : baseA ≤ j ∧ j < baseA + lb
  · rw [if_pos hA, if_pos ⟨by omega, by omega⟩, h6 _ (by omega) (by omega)]
    congr 1; omega
  · rw [if_neg hA, if_neg (by omega)]
    by_cases hB : baseA + lb ≤ j ∧ j < baseA + lb + la
    · rw [if_pos hB]
      exact h7 j (by omega) (by omega)
    · rw [if_neg hB]
      exact h8 j (by omega)

theorem high_finish_copy (w : FixedArray α) (baseA la : Int) (m : Merge α) (j : Int)
    (hj0 : 0 ≤ j) (hj : j ≤ la) (h : HighInv w baseA la 1 m j) :
    Rotated w (setAt (Copy m.work (m.cursor - m.lengthA + 1) m.work
      (m.dest - m.lengthA + 1) m.lengthA) (m.dest - m.lengthA)
      (m.temp.objects m.cursorTemp)) baseA la 1 := by
  obtain ⟨h1, h2, h3, h4, h5, h6, h7, h8⟩ := h
  intro x
  rw [setAt_objects, Copy_objects, h1, h2, h3, h5]
  by_cases hx : x = baseA + la + 1 - 1 - j - (la - j)
  · rw [if_pos hx, if_pos ⟨by omega, by omega⟩, h6 _ (by omega) (by omega)]
    congr 1; omega
  · rw [if_neg hx]
    by_cases hA : baseA + la + 1 - 1 - j - (la - j) + 1 ≤ x
        ∧ x < baseA + la + 1 - 1 - j - (la - j) + 1 + (la - j)
    · rw [if_pos hA, if_neg (by omega), if_pos ⟨by omega, by omega⟩, h8 _ (Or.inl (by omega))]
      congr 1; omega
    · rw [if_neg hA]
      by_cases hB : baseA + 1 ≤ x ∧ x < baseA + 1 + la
      · rw [if_neg (by omega), if_pos hB]
        exact h7 x (by omega) (by omega)
      · rw [if_neg (by omega), if_neg hB]
        exact h8 x (by omega)

theorem MergeHigh_spec (cmp : α → α → Int) (isR : α → Bool)
    (hc : ∀ x y, cmp x y < 0 ↔ isR x = true) (w temp : FixedArray α) (mg : Int)
    (baseA la lb : Int) (hla : 1 ≤ la) (hlb : 1 ≤ lb)
    (hB : AllR isR w (baseA + la) (baseA + la + lb)) :
    Rotated w (MergeHigh cmp w temp mg baseA la (baseA + la) lb).1 baseA la lb := by
  have hinit : HighInv w baseA la lb
      { work := setAt w (baseA + la + lb - 1) (w.objects (baseA + la - 1)),
        temp := Copy w (baseA + la) temp 0 lb,
        lengthA := la - 1, lengthB := lb, dest := baseA + la + lb - 1 - 1,
        cursorTemp := lb - 1, cursor := baseA + la - 1 - 1, minGallop := mg,
        stateMinGallop := mg } 1 := by
    refine ⟨rfl, rfl, rfl, rfl, rfl, ?_, ?_, ?_⟩
    · intro i hi1 hi2
      show (Copy w (baseA + la) temp 0 lb).objects i = _
      rw [Copy_objects, if_pos ⟨hi1, by omega⟩]
      congr 1; omega
    · intro x hx1 hx2
      show (setAt w (baseA + la + lb - 1) (w.objects (baseA + la - 1))).objects x = _
      have : x = baseA + la + lb - 1 := by omega
      rw [setAt_objects, if_pos this, this]
      congr 1; omega
    · intro x hx
      show (setAt w (baseA + la + lb - 1) (w.objects (baseA + la - 1))).objects x = _
      rw [setAt_objects, if_neg (by omega)]
  unfold MergeHigh
  simp only
  by_cases h1 : la - 1 = 0
  · simp only [h1, if_true]
    have hpos : lb > 0 := by omega
    simp only [hpos, if_true]
    have hla1 : la = 1 := by omega
    subst hla1
    exact high_finish w baseA 1 lb _ (by omega) hlb hinit
  · simp only [h1, if_false]
    by_cases h2 : lb = 1
    · subst h2
      simp only [if_true]
      have key := high_finish_copy w baseA la _ 1 (by omega) (by omega) hinit
      exact key
    · simp only [h2, if_false]
      obtain ⟨m', hm, hinv⟩ := mergeHighOuter_spec cmp isR hc w baseA la lb hlb hB _ 1
        (by omega) (by omega) hinit (la + lb).toNat (la + lb).toNat
      simp only [hm]
      have hpos : m'.lengthB > 0 := by rw [hinv.2.2.2.1]; omega
      simp only [hpos, if_true]
      exact high_finish w baseA la lb m' (by omega) hlb hinv

theorem pick_append (isR : α → Bool) (o : FixedArray α) (lo : Int) (nA : Nat) (nB : Nat) :
    pick isR o lo (nA + 1 + nB) =
      if isR (pick isR o (lo + ((nA : Int) + 1)) nB) then pick isR o (lo + ((nA : Int) + 1)) nB
      else pick isR o lo nA := by
  induction nB with
  | zero => rfl
  | succ m ih =>
    have e : lo + (((nA + 1 + m : Nat) : Int) + 1) = lo + ((nA : Int) + 1) + ((m : Int) + 1) := by
      push_cast; omega
    show pick isR o lo ((nA + 1 + m) + 1) = _
    rw [pick_succ, pick_succ, e]
    by_cases h : isR (o.objects (lo + ((nA : Int) + 1) + ((m : Int) + 1))) = true
    · simp only [h, if_true]
    · simp only [h, if_false]
      exact ih

theorem pick_congr (isR : α → Bool) (o o' : FixedArray α) (lo : Int) (n : Nat)
    (h : ∀ i : Int, 0 ≤ i → i ≤ n → o.objects (lo + i) = o'.objects (lo + i)) :
    pick isR o lo n = pick isR o' lo n := by
  induction n with
  | zero =>
    have := h 0 (le_refl _) (le_refl _)
    simp only [add_zero] at this
    exact this
  | succ m ih =>
    rw [pick_succ, pick_succ, h ((m : Int) + 1) (by omega) (by push_cast; omega),
      ih (fun i hi1 hi2 => h i hi1 (by push_cast; omega))]

theorem pick_isR (isR : α → Bool) (o : FixedArray α) (lo : Int) (n : Nat)
    (h : ∃ i : Int, 0 ≤ i ∧ i ≤ n ∧ isR (o.objects (lo + i)) = true) :
    isR (pick isR o lo n) = true := by
  induction n with
  | zero =>
    obtain ⟨i, h1, h2, h3⟩ := h
    have : i = 0 := by omega
    subst this
    simpa [pick] using h3
  | succ m ih =>
    rw [pick_succ]
    by_cases hm : isR (o.objects (lo + ((m : Int) + 1))) = true
    · simp only [hm, if_true]
    · simp only [hm, if_false]
      obtain ⟨i, h1, h2, h3⟩ := h
      have hne : i ≠ (m : Int) + 1 := by
        intro e
        rw [e] at h3
        exact hm h3
      exact ih ⟨i, h1, by push_cast at h2; omega, h3⟩

theorem pick_merge (isR : α → Bool) (o : FixedArray α) (lo la lb : Int) (hla : 1 ≤ la)
    (hlb : 1 ≤ lb) :
    pick isR o lo (la + lb - 1).toNat =
      if isR (pick isR o (lo + la) (lb - 1).toNat) then pick isR o (lo + la) (lb - 1).toNat
      else pick isR o lo (la - 1).toNat := by
  have e1 : (la + lb - 1).toNat = (la - 1).toNat + 1 + (lb - 1).toNat := by omega
  have e2 : lo + la = lo + (((la - 1).toNat : Int) + 1) := by omega
  rw [e1, e2]
  exact pick_append isR o lo _ _

theorem set_at_length (pre : List (Int × Int)) (a b : Int × Int) (rest : List (Int × Int)) :
    (pre ++ a :: rest).set pre.length b = pre ++ b :: rest := by
  induction pre with
  | nil => rfl
  | cons x xs ih => simp only [List.cons_append, List.length_cons, List.set_cons_succ, ih]

theorem set_at_length_succ (pre : List (Int × Int)) (a b c : Int × Int)
    (rest : List (Int × Int)) :
    (pre ++ a :: b :: rest).set (pre.length + 1) c = pre ++ a :: c :: rest := by
  induction pre with
  | nil => rfl
  | cons x xs ih => simp only [List.cons_append, List.length_cons, List.set_cons_succ, ih]

theorem take_at_length (pre rest : List (Int × Int)) (k : Nat) :
    (pre ++ rest).take (pre.length + k) = pre ++ rest.take k := by
  induction pre with
  | nil => simp
  | cons x xs ih =>
    have e : (x :: xs).length + k = (xs.length + k) + 1 := by simp only [List.length_cons]; omega
    rw [e]
    simp only [List.cons_append, List.take_succ_cons, ih]

theorem getD_at_length (pre : List (Int × Int)) (a d : Int × Int) (rest : List (Int × Int)) :
    (pre ++ a :: rest).getD pre.length d = a := by
  induction pre with
  | nil => rfl
  | cons x xs ih => simpa using ih

theorem getD_at_length_succ (pre : List (Int × Int)) (a b d : Int × Int)
    (rest : List (Int × Int)) :
    (pre ++ a :: b :: rest).getD (pre.length + 1) d = b := by
  induction pre with
  | nil => rfl
  | cons x xs ih => simpa using ih

theorem getD_at_length_succ2 (pre : List (Int × Int)) (a b c d : Int × Int)
    (rest : List (Int × Int)) :
    (pre ++ a :: b :: c :: rest).getD (pre.length + 2) d = c := by
  induction pre with
  | nil => rfl
  | cons x xs ih => simpa using ih

theorem MergeAt_pendingRuns (cmp : α → α → Int) (s : SortState α) (pre post : List (Int × Int))
    (A B : Int × Int) (hruns : s.pendingRuns = pre ++ A :: B :: post) (hpost : post.length ≤ 1) :
    (MergeAt cmp s pre.length).pendingRuns = pre ++ (A.1, A.2 + B.2) :: post := by
  have hA : s.pendingRuns.getD pre.length (0, 0) = A := by
    rw [hruns]; exact getD_at_length _ _ _ _
  have hB : s.pendingRuns.getD (pre.length + 1) (0, 0) = B := by
    rw [hruns]; exact getD_at_length_succ _ _ _ _ _
  have key : (MergeAt cmp s pre.length).pendingRuns =
      ((if ((pre.length : Nat) : Int) = (s.pendingRuns.length : Int) - 3 then
        (s.pendingRuns.set pre.length (A.1, A.2 + B.2)).set (pre.length + 1)
          (GetPendingRunBase s.pendingRuns ((pre.length : Int) + 2),
            GetPendingRunLength s.pendingRuns ((pre.length : Int) + 2))
        else s.pendingRuns.set pre.length (A.1, A.2 + B.2)).take
          ((s.pendingRuns.length : Int) - 1).toNat) := by
    have e1 : ((pre.length : Int) + 1).toNat = pre.length + 1 := by omega
    unfold MergeAt
    simp only [GetPendingRunBase, GetPendingRunLength, Int.toNat_ofNat, e1, hA, hB]
    split_ifs <;> rfl
  rw [key]
  cases post with
  | nil =>
    have hlen : s.pendingRuns.length = pre.length + 2 := by rw [hruns]; simp
    have e2 : ((s.pendingRuns.length : Int) - 1).toNat = pre.length + 1 := by omega
    rw [if_neg (by omega), e2, hruns, set_at_length, take_at_length]
    rfl
  | cons C rest =>
    have hrest : rest = [] := by
      cases rest with
      | nil => rfl
      | cons _ _ => simp at hpost
    subst hrest
    have hlen : s.pendingRuns.length = pre.length + 3 := by rw [hruns]; simp
    have e2 : ((s.pendingRuns.length : Int) - 1).toNat = pre.length + 2 := by omega
    have e3 : ((pre.length : Int) + 2).toNat = pre.length + 2 := by omega
    rw [if_pos (by omega), e2, hruns, set_at_length, set_at_length_succ, take_at_length]
    simp only [GetPendingRunBase, GetPendingRunLength, e3, getD_at_length_succ2]
    rfl

theorem RunOK_of_rotated (isR : α → Bool) (o w g : FixedArray α) (baseA la lb cA cB : Int)
    (hla : 1 ≤ la) (hlb : 1 ≤ lb) (hcB : 1 ≤ cB)
    (sA : SplitAt isR w baseA cA (baseA + la))
    (sB : SplitAt isR w (baseA + la) (baseA + la + cB) (baseA + la + lb))
    (hBh : w.objects (baseA + la) = pick isR o (baseA + la) (lb - 1).toNat)
    (hrot : Rotated w g baseA la cB) :
    RunOK isR o g (baseA, la + lb)
    ∧ ∀ j, j < baseA ∨ baseA + la + lb ≤ j → g.objects j = w.objects j := by
  obtain ⟨a1, a2, a3, a4⟩ := sA
  obtain ⟨b1, b2, b3, b4⟩ := sB
  have hkB : isR (w.objects (baseA + la)) = true := b3 _ (le_refl _) (by omega)
  refine ⟨⟨by show 1 ≤ la + lb; omega, ⟨cA + cB, ?_, ?_, ?_, ?_⟩, ?_⟩, ?_⟩
  · show baseA ≤ cA + cB; omega
  · show cA + cB ≤ baseA + (la + lb); omega
  · intro j hj1 hj2
    rw [hrot j]
    by_cases h1 : baseA ≤ j ∧ j < baseA + cB
    · rw [if_pos h1]
      exact b3 _ (by omega) (by omega)
    · rw [if_neg h1, if_pos ⟨by omega, by omega⟩]
      exact a3 _ (by omega) (by omega)
  · intro j hj1 hj2
    change j < baseA + (la + lb) at hj2
    rw [hrot j, if_neg (by omega)]
    by_cases h2 : baseA + cB ≤ j ∧ j < baseA + cB + la
    · rw [if_pos h2]
      exact a4 _ (by omega) (by omega)
    · rw [if_neg h2]
      exact b4 _ (by omega) (by omega)
  · show g.objects baseA = pick isR o baseA (la + lb - 1).toNat
    rw [hrot baseA, if_pos ⟨le_refl _, by omega⟩, pick_merge isR o baseA la lb hla hlb, ← hBh,
      if_pos hkB]
  · intro j hj
    rw [hrot j, if_neg (by omega), if_neg (by omega)]

theorem MergeAt_workArray (cmp : α → α → Int) (isR : α → Bool)
    (hc : ∀ x y, cmp x y < 0 ↔ isR x = true) (o : FixedArray α) (s : SortState α)
    (pre post : List (Int × Int)) (A B : Int × Int)
    (hruns : s.pendingRuns = pre ++ A :: B :: post) (hB1 : B.1 = A.1 + A.2)
    (hA : RunOK isR o s.workArray A) (hB : RunOK isR o s.workArray B) :
    RunOK isR o (MergeAt cmp s pre.length).workArray (A.1, A.2 + B.2)
    ∧ ∀ j, j < A.1 ∨ A.1 + A.2 + B.2 ≤ j →
        (MergeAt cmp s pre.length).workArray.objects j = s.workArray.objects j := by
  obtain ⟨baseA, la⟩ := A
  obtain ⟨baseB, lb⟩ := B
  simp only at hB1
  subst hB1
  obtain ⟨hla, ⟨cA, sA⟩, hAh⟩ := hA
  obtain ⟨hlb, ⟨cB, sB⟩, hBh⟩ := hB
  simp only at hla hlb sA sB hAh hBh
  have hgA : s.pendingRuns.getD pre.length (0, 0) = (baseA, la) := by
    rw [hruns]; exact getD_at_length _ _ _ _
  have hgB : s.pendingRuns.getD (pre.length + 1) (0, 0) = (baseA + la, lb) := by
    rw [hruns]; exact getD_at_length_succ _ _ _ _ _
  have e1 : ((pre.length : Int) + 1).toNat = pre.length + 1 := by omega
  by_cases hk : isR (s.workArray.objects (baseA + la)) = true
  · have hcB : baseA + la + 1 ≤ cB := by
      by_contra hn
      have := sB.2.2.2 (baseA + la) (by have := sB.1; omega) (by omega)
      rw [hk] at this
      exact Bool.noConfusion this
    have hGR : GallopRight cmp s.workArray (s.workArray.objects (baseA + la)) baseA la 0 = 0 :=
      GallopRight_reply cmp isR hc _ _ _ _ _ (le_refl _) hk
    have sB' : SplitAt isR s.workArray (baseA + la) (baseA + la + (cB - (baseA + la)))
        (baseA + la + lb) := by
      have e : baseA + la + (cB - (baseA + la)) = cB := by omega
      rw [e]; exact sB
    have hGL : ∀ key, GallopLeft cmp s.workArray key (baseA + la) lb (lb - 1) =
        cB - (baseA + la) := fun key =>
      GallopLeft_spec cmp isR hc _ key _ _ _ _ (by omega) (by omega) (by omega) sB'
    have hBall : AllR isR s.workArray (baseA + la) (baseA + la + (cB - (baseA + la))) := sB'.2.2.1
    have hlow := MergeLow_spec cmp isR hc s.workArray s.tempArray s.minGallop baseA la
      (cB - (baseA + la)) hla (by omega) hBall
    have hhigh := MergeHigh_spec cmp isR hc s.workArray s.tempArray s.minGallop baseA la
      (cB - (baseA + la)) hla (by omega) hBall
    have hne1 : ¬ la = 0 := by omega
    have hne2 : ¬ cB - (baseA + la) = 0 := by omega
    unfold MergeAt
    simp only [GetPendingRunBase, GetPendingRunLength, Int.toNat_ofNat, e1, hgA, hgB, hGR, hGL,
      add_zero, sub_zero, hne1, hne2, if_false]
    by_cases hle : la ≤ cB - (baseA + la)
    · simp only [hle, if_true]
      exact RunOK_of_rotated isR o s.workArray _ baseA la lb cA (cB - (baseA + la)) hla hlb
        (by omega) sA sB' hBh hlow
    · simp only [hle, if_false]
      exact RunOK_of_rotated isR o s.workArray _ baseA la lb cA (cB - (baseA + la)) hla hlb
        (by omega) sA sB' hBh hhigh
  · have hk' : isR (s.workArray.objects (baseA + la)) = false := by
      cases h : isR (s.workArray.objects (baseA + la))
      · rfl
      · exact absurd h hk
    have hcB : cB = baseA + la := by
      by_contra hn
      have := sB.2.2.1 (baseA + la) (le_refl _) (by have := sB.1; omega)
      exact hk this
    have hGR : GallopRight cmp s.workArray (s.workArray.objects (baseA + la)) baseA la 0 = la :=
      GallopRight_other cmp isR hc _ _ _ _ _ (le_refl _) (by omega) hk'
    unfold MergeAt
    simp only [GetPendingRunBase, GetPendingRunLength, Int.toNat_ofNat, e1, hgA, hgB, hGR,
      sub_self, if_true]
    refine ⟨⟨by show 1 ≤ la + lb; omega, ⟨cA, sA.1, ?_, sA.2.2.1, ?_⟩, ?_⟩, fun _ _ => trivial⟩
    · show cA ≤ baseA + (la + lb)
      have := sA.2.1
      omega
    · intro j hj1 hj2
      change j < baseA + (la + lb) at hj2
      by_cases h : j < baseA + la
      · exact sA.2.2.2 j hj1 h
      · exact sB.2.2.2 j (by omega) (by omega)
    · show s.workArray.objects baseA = pick isR o baseA (la + lb - 1).toNat
      rw [pick_merge isR o baseA la lb hla hlb, ← hBh, hk', ← hAh]
      rfl

theorem RunOK_congr (isR : α → Bool) (o g g' : FixedArray α) (r : Int × Int)
    (h : ∀ j, r.1 ≤ j → j < r.1 + r.2 → g'.objects j = g.objects j) (hr : RunOK isR o g r) :
    RunOK isR o g' r := by
  obtain ⟨h1, ⟨c, c1, c2, c3, c4⟩, h3⟩ := hr
  refine ⟨h1, ⟨c, c1, c2, ?_, ?_⟩, ?_⟩
  · intro j hj1 hj2
    rw [h j hj1 (by omega)]
    exact c3 j hj1 hj2
  · intro j hj1 hj2
    rw [h j (by omega) hj2]
    exact c4 j hj1 hj2
  · rw [h _ (le_refl _) (by omega)]
    exact h3

theorem Stack_le (isR : α → Bool) (o g : FixedArray α) (rs : List (Int × Int)) :
    ∀ lo hi, Stack isR o g rs lo hi → lo ≤ hi := by
  induction rs with
  | nil =>
    intro lo hi h
    exact le_of_eq h
  | cons r rs ih =>
    intro lo hi h
    obtain ⟨_, hr, ht⟩ := h
    have := ih _ _ ht
    have := hr.1
    omega

theorem Stack_congr (isR : α → Bool) (o g g' : FixedArray α) (rs : List (Int × Int)) :
    ∀ lo hi, (∀ j, lo ≤ j → j < hi → g'.objects j = g.objects j) →
      Stack isR o g rs lo hi → Stack isR o g' rs lo hi := by
  induction rs with
  | nil =>
    intro lo hi _ h
    exact h
  | cons r rs ih =>
    intro lo hi hg h
    obtain ⟨h1, hr, ht⟩ := h
    have hle := Stack_le isR o g rs _ _ ht
    have h2 := hr.1
    refine ⟨h1, RunOK_congr isR o g g' r (fun j hj1 hj2 => hg j (by omega) (by omega)) hr,
      ih _ _ (fun j hj1 hj2 => hg j (by omega) hj2) ht⟩

theorem Stack_split (isR : α → Bool) (o g : FixedArray α) (pre rest : List (Int × Int)) :
    ∀ lo hi, Stack isR o g (pre ++ rest) lo hi →
      ∃ mid, Stack isR o g pre lo mid ∧ Stack isR o g rest mid hi := by
  induction pre with
  | nil =>
    intro lo hi h
    exact ⟨lo, rfl, h⟩
  | cons r rs ih =>
    intro lo hi h
    obtain ⟨h1, hr, ht⟩ := h
    obtain ⟨mid, m1, m2⟩ := ih _ _ ht
    exact ⟨mid, ⟨h1, hr, m1⟩, m2⟩

theorem Stack_join (isR : α → Bool) (o g : FixedArray α) (pre rest : List (Int × Int)) :
    ∀ lo mid hi, Stack isR o g pre lo mid → Stack isR o g rest mid hi →
      Stack isR o g (pre ++ rest) lo hi := by
  induction pre with
  | nil =>
    intro lo mid hi h1 h2
    have e : lo = mid := h1
    subst e
    exact h2
  | cons r rs ih =>
    intro lo mid hi h1 h2
    obtain ⟨a1, a2, a3⟩ := h1
    exact ⟨a1, a2, ih _ _ _ a3 h2⟩

theorem MergeAt_inv (cmp : α → α → Int) (isR : α → Bool)
    (hc : ∀ x y, cmp x y < 0 ↔ isR x = true) (o : FixedArray α) (s : SortState α) (low : Int)
    (pre post : List (Int × Int)) (A B : Int × Int)
    (hruns : s.pendingRuns = pre ++ A :: B :: post) (hpost : post.length ≤ 1)
    (hinv : SortInv isR o s low) :
    SortInv isR o (MergeAt cmp s pre.length) low
    ∧ (MergeAt cmp s pre.length).pendingRuns.length + 1 = s.pendingRuns.length := by
  obtain ⟨hst, htail⟩ := hinv
  rw [hruns] at hst
  obtain ⟨mid, hpre, hA1, hA, hB1, hB, hrest⟩ := Stack_split isR o s.workArray pre _ _ _ hst
  have hB1' : B.1 = A.1 + A.2 := by rw [hB1, hA1]
  obtain ⟨hrun, hout⟩ := MergeAt_workArray cmp isR hc o s pre post A B hruns hB1' hA hB
  have hruns' := MergeAt_pendingRuns cmp s pre post A B hruns hpost
  have hle0 := Stack_le isR o s.workArray pre _ _ hpre
  have hle1 := Stack_le isR o s.workArray post _ _ hrest
  refine ⟨⟨?_, ?_⟩, ?_⟩
  · rw [hruns']
    refine Stack_join isR o _ pre _ 0 mid low
      (Stack_congr isR o s.workArray _ pre _ _ (fun j _ hj2 => hout j (by omega)) hpre)
      ⟨hA1, hrun, ?_⟩
    have e : mid + (A.1, A.2 + B.2).2 = mid + A.2 + B.2 := by
      show mid + (A.2 + B.2) = _
      omega
    rw [e]
    exact Stack_congr isR o s.workArray _ post _ _ (fun j hj1 _ => hout j (by omega)) hrest
  · intro j hj
    rw [hout j (by omega)]
    exact htail j hj
  · rw [hruns', hruns]
    simp only [List.length_append, List.length_cons]
    omega

theorem exists_last_two (l : List (Int × Int)) (h : 2 ≤ l.length) :
    ∃ pre A B, l = pre ++ [A, B] ∧ (pre.length : Int) = (l.length : Int) - 2 := by
  refine ⟨l.take (l.length - 2), (l.drop (l.length - 2)).getD 0 (0, 0),
    (l.drop (l.length - 2)).getD 1 (0, 0), ?_, ?_⟩
  · have hd : (l.drop (l.length - 2)).length = 2 := by rw [List.length_drop]; omega
    have e : l.drop (l.length - 2) = [(l.drop (l.length - 2)).getD 0 (0, 0),
        (l.drop (l.length - 2)).getD 1 (0, 0)] := by
      generalize l.drop (l.length - 2) = d at hd
      match d, hd with
      | [a, b], _ => rfl
    rw [← e, List.take_append_drop]
  · rw [List.length_take]
    omega

theorem exists_last_three (l : List (Int × Int)) (h : 3 ≤ l.length) :
    ∃ pre A B C, l = pre ++ [A, B, C] ∧ (pre.length : Int) = (l.length : Int) - 3 := by
  refine ⟨l.take (l.length - 3), (l.drop (l.length - 3)).getD 0 (0, 0),
    (l.drop (l.length - 3)).getD 1 (0, 0), (l.drop (l.length - 3)).getD 2 (0, 0), ?_, ?_⟩
  · have hd : (l.drop (l.length - 3)).length = 3 := by rw [List.length_drop]; omega
    have e : l.drop (l.length - 3) = [(l.drop (l.length - 3)).getD 0 (0, 0),
        (l.drop (l.length - 3)).getD 1 (0, 0), (l.drop (l.length - 3)).getD 2 (0, 0)] := by
      generalize l.drop (l.length - 3) = d at hd
      match d, hd with
      | [a, b, c], _ => rfl
    rw [← e, List.take_append_drop]
  · rw [List.length_take]
    omega

theorem MergeAt_inv_index (cmp : α → α → Int) (isR : α → Bool)
    (hc : ∀ x y, cmp x y < 0 ↔ isR x = true) (o : FixedArray α) (s : SortState α) (low : Int)
    (i : Int) (hinv : SortInv isR o s low)
    (hi : (i = (s.pendingRuns.length : Int) - 2 ∧ 2 ≤ s.pendingRuns.length)
      ∨ (i = (s.pendingRuns.length : Int) - 3 ∧ 3 ≤ s.pendingRuns.length)) :
    SortInv isR o (MergeAt cmp s i) low
    ∧ (MergeAt cmp s i).pendingRuns.length + 1 = s.pendingRuns.length := by
  rcases hi with ⟨hi, hlen⟩ | ⟨hi, hlen⟩
  · obtain ⟨pre, A, B, hl, hp⟩ := exists_last_two s.pendingRuns hlen
    have e : i = (pre.length : Int) := by omega
    rw [e]
    exact MergeAt_inv cmp isR hc o s low pre [] A B hl (by simp) hinv
  · obtain ⟨pre, A, B, C, hl, hp⟩ := exists_last_three s.pendingRuns hlen
    have e : i = (pre.length : Int) := by omega
    rw [e]
    exact MergeAt_inv cmp isR hc o s low pre [C] A B hl (by simp) hinv

theorem MergeCollapse_inv (cmp : α → α → Int) (isR : α → Bool)
    (hc : ∀ x y, cmp x y < 0 ↔ isR x = true) (o : FixedArray α) (low : Int) (fuel : Nat) :
    ∀ s : SortState α, SortInv isR o s low → SortInv isR o (MergeCollapse cmp fuel s) low := by
  induction fuel with
  | zero =>
    intro s h
    exact h
  | succ n ih =>
    intro s h
    unfold MergeCollapse
    simp only
    split_ifs with h1 h2 h3 h4
    · have hlen : 3 ≤ s.pendingRuns.length := by
        by_contra hn
        have e : (s.pendingRuns.length : Int) = 2 := by omega
        rw [e] at h2
        simp [RunInvariantEstablished] at h2
      exact ih _ (MergeAt_inv_index cmp isR hc o s low _ h (Or.inr ⟨by omega, hlen⟩)).1
    · exact ih _ (MergeAt_inv_index cmp isR hc o s low _ h (Or.inl ⟨rfl, by omega⟩)).1
    · exact ih _ (MergeAt_inv_index cmp isR hc o s low _ h (Or.inl ⟨rfl, by omega⟩)).1
    · exact h
    · exact h

theorem MergeForceCollapse_inv (cmp : α → α → Int) (isR : α → Bool)
    (hc : ∀ x y, cmp x y < 0 ↔ isR x = true) (o : FixedArray α) (low : Int) (fuel : Nat) :
    ∀ s : SortState α, SortInv isR o s low → s.pendingRuns.length ≤ fuel + 1 →
      SortInv isR o (MergeForceCollapse cmp fuel s) low
      ∧ (MergeForceCollapse cmp fuel s).pendingRuns.length ≤ 1 := by
  induction fuel with
  | zero =>
    intro s h hl
    exact ⟨h, hl⟩
  | succ n ih =>
    intro s h hl
    unfold MergeForceCollapse
    simp only
    split_ifs with h1 h2
    · have hm := MergeAt_inv_index cmp isR hc o s low ((s.pendingRuns.length : Int) - 2 - 1) h
        (Or.inr ⟨by omega, by omega⟩)
      exact ih _ hm.1 (by omega)
    · have hm := MergeAt_inv_index cmp isR hc o s low ((s.pendingRuns.length : Int) - 2) h
        (Or.inl ⟨rfl, by omega⟩)
      exact ih _ hm.1 (by omega)
    · exact ⟨h, by omega⟩

theorem SortInv_push (isR : α → Bool) (o : FixedArray α) (s : SortState α) (low len : Int)
    (g : FixedArray α) (hinv : SortInv isR o s low) (hrun : RunOK isR o g (low, len))
    (hbelow : ∀ j, j < low → g.objects j = s.workArray.objects j)
    (habove : ∀ j, low + len ≤ j → g.objects j = o.objects j) :
    SortInv isR o { s with workArray := g, pendingRuns := s.pendingRuns ++ [(low, len)] }
      (low + len) := by
  obtain ⟨hst, _⟩ := hinv
  refine ⟨?_, habove⟩
  exact Stack_join isR o g s.pendingRuns _ 0 low (low + len)
    (Stack_congr isR o s.workArray g _ _ _ (fun j _ hj => hbelow j hj) hst) ⟨rfl, hrun, rfl⟩

theorem timSortLoop_inv (cmp : α → α → Int) (isR : α → Bool)
    (hc : ∀ x y, cmp x y < 0 ↔ isR x = true) (o : FixedArray α) (minRunLength : Int)
    (fuel : Nat) :
    ∀ (s : SortState α) (low remaining : Int), SortInv isR o s low → 0 ≤ remaining →
      remaining ≤ fuel →
      SortInv isR o (timSortLoop cmp minRunLength fuel s low remaining) (low + remaining) := by
  induction fuel with
  | zero =>
    intro s low remaining h h0 h1
    have e : remaining = 0 := by
      have : ((0 : Nat) : Int) = 0 := rfl
      omega
    rw [e, add_zero]
    exact h
  | succ n ih =>
    intro s low remaining h h0 h1
    unfold timSortLoop
    by_cases hr : remaining = 0
    · simp only [hr, ne_eq, not_true_eq_false, if_false, add_zero]
      exact h
    · simp only [hr, ne_eq, not_false_eq_true, if_true]
      obtain ⟨c1, c2, ⟨c, c3⟩, c4, c5⟩ :=
        CountAndMakeRun_spec cmp isR hc s.workArray low (low + remaining) (by omega)
      have hhead : (CountAndMakeRun cmp s.workArray low (low + remaining)).1.objects low =
          pick isR o low ((CountAndMakeRun cmp s.workArray low (low + remaining)).2 - 1).toNat := by
        rw [c4]
        exact pick_congr isR _ _ low _ (fun i hi1 _ => h.2 _ (by omega))
      generalize CountAndMakeRun cmp s.workArray low (low + remaining) = run at c1 c2 c3 c4 c5 hhead
      obtain ⟨g1, len⟩ := run
      simp only at c1 c2 c3 c4 c5 hhead
      by_cases hm : len < minRunLength
      · simp only [hm, if_true]
        have hf1 : len ≤ min minRunLength remaining := by
          rw [le_min_iff]
          exact ⟨by omega, by omega⟩
        have hf2 : min minRunLength remaining ≤ remaining := min_le_right _ _
        generalize min minRunLength remaining = forced at hf1 hf2
        have hstart : ¬ low = low + len := by omega
        unfold BinaryInsertionSort
        simp only [hstart, if_false]
        obtain ⟨⟨c', d1⟩, d2, d3, d4⟩ := insertionLoop_spec cmp isR hc o low (low + forced)
          (low + forced - (low + len)).toNat g1 (low + len) c (by omega) (by omega) (by omega) c3
          (by
            have e : (low + len - low - 1).toNat = (len - 1).toNat := by
              congr 1; omega
            rw [e]; exact hhead)
          (fun j hj => by rw [c5 j (Or.inr hj)]; exact h.2 j (by omega))
        have e2 : (low + forced - low - 1).toNat = (forced - 1).toNat := by
          congr 1; omega
        rw [e2] at d2
        have hpush := SortInv_push isR o s low forced _ h ⟨by show 1 ≤ forced; omega, ⟨c', d1⟩, d2⟩
          (fun j hj => by rw [d4 j hj]; exact c5 j (Or.inl hj)) d3
        have hcol := MergeCollapse_inv cmp isR hc o (low + forced) (s.pendingRuns ++ [(low, forced)]).length
          _ hpush
        have := ih _ (low + forced) (remaining - forced) hcol (by omega) (by omega)
        have e3 : low + forced + (remaining - forced) = low + remaining := by omega
        rw [e3] at this
        exact this
      · simp only [hm, if_false]
        have hpush := SortInv_push isR o s low len g1 h ⟨c1, ⟨c, c3⟩, hhead⟩
          (fun j hj => c5 j (Or.inl hj))
          (fun j hj => by rw [c5 j (Or.inr hj)]; exact h.2 j (by omega))
        have hcol := MergeCollapse_inv cmp isR hc o (low + len) (s.pendingRuns ++ [(low, len)]).length
          _ hpush
        have := ih _ (low + len) (remaining - len) hcol (by omega) (by omega)
        have e3 : low + len + (remaining - len) = low + remaining := by omega
        rw [e3] at this
        exact this

theorem ArrayTimSortImpl_head (cmp : α → α → Int) (isR : α → Bool)
    (hc : ∀ x y, cmp x y < 0 ↔ isR x = true) (s : SortState α) (length : Int)
    (hruns : s.pendingRuns = []) (hlen : 1 ≤ length) :
    (ArrayTimSortImpl cmp s length).workArray.objects 0 =
      pick isR s.workArray 0 (length - 1).toNat := by
  unfold ArrayTimSortImpl
  by_cases h2 : length < 2
  · simp only [h2, if_true]
    have e : (length - 1).toNat = 0 := by omega
    rw [e]
    rfl
  · simp only [h2, if_false]
    have h0 : SortInv isR s.workArray s 0 := by
      refine ⟨?_, fun _ _ => rfl⟩
      rw [hruns]
      rfl
    have h1 := timSortLoop_inv cmp isR hc s.workArray (ComputeMinRunLength length) length.toNat
      s 0 length h0 (by omega) (by omega)
    obtain ⟨⟨h3, _⟩, h4⟩ := MergeForceCollapse_inv cmp isR hc s.workArray (0 + length)
      (timSortLoop cmp (ComputeMinRunLength length) length.toNat s 0 length).pendingRuns.length
      _ h1 (by omega)
    generalize MergeForceCollapse cmp
      (timSortLoop cmp (ComputeMinRunLength length) length.toNat s 0 length).pendingRuns.length
      (timSortLoop cmp (ComputeMinRunLength length) length.toNat s 0 length) = t at h3 h4
    match hp : t.pendingRuns, h3, h4 with
    | [], h3, _ =>
      have e : (0 : Int) = 0 + length := h3
      omega
    | [r], h3, _ =>
      obtain ⟨r1, ⟨_, _, r2⟩, r3⟩ := h3
      have e : (0 : Int) + r.2 = 0 + length := r3
      have e' : r.2 = length := by omega
      rw [r1, e'] at r2
      exact r2
    | _ :: _ :: _, _, h4 =>
      simp at h4

theorem pick_mem (isR : α → Bool) (o : FixedArray α) (lo : Int) (n : Nat) :
    ∃ i : Nat, i ≤ n ∧ pick isR o lo n = o.objects (lo + (i : Int)) := by
  induction n with
  | zero => exact ⟨0, le_refl _, by simp [pick]⟩
  | succ m ih =>
    rw [pick_succ]
    by_cases hm : isR (o.objects (lo + ((m : Int) + 1))) = true
    · simp only [hm, if_true]
      exact ⟨m + 1, le_refl _, by push_cast; rfl⟩
    · simp only [hm, if_false]
      obtain ⟨i, hi, e⟩ := ih
      exact ⟨i, by omega, e⟩

theorem arraySort_head (cmp : α → α → Int) (isR : α → Bool)
    (hc : ∀ x y, cmp x y < 0 ↔ isR x = true) (x : α) (xs : List α) :
    (arraySort cmp (x :: xs))[0]? =
      some (pick isR ⟨fun i => (x :: xs).getD i.toNat x⟩ 0 xs.length) := by
  have h := ArrayTimSortImpl_head cmp isR hc
    { workArray := ⟨fun i => (x :: xs).getD i.toNat x⟩, tempArray := ⟨fun _ => x⟩,
      minGallop := kMinGallopWins, pendingRuns := [] } ((x :: xs).length : Int) rfl
    (by simp only [List.length_cons]; omega)
  have e : (((x :: xs).length : Int) - 1).toNat = xs.length := by
    simp only [List.length_cons]; omega
  rw [e] at h
  unfold arraySort
  simp only [List.getElem?_map, List.length_cons]
  rw [List.getElem?_range (Nat.succ_pos _)]
  exact congrArg some h

theorem prioritizeReplies_neg {β : Type} (a b : Entry β) :
    prioritizeReplies a b < 0 ↔ decide (a.type = "reply") = true := by
  unfold prioritizeReplies
  split_ifs with h1 h2
  · simp [h1]
  · simp [h1]
  · simp [h1]

theorem selectMessage_cons {β : Type} (x : Entry β) (xs : List (Entry β)) :
    selectMessage (x :: xs) =
      some (pick (fun e => decide (e.type = "reply")) ⟨fun i => (x :: xs).getD i.toNat x⟩
        0 xs.length) :=
  arraySort_head prioritizeReplies _ prioritizeReplies_neg x xs

/-- C1: for every bucket of pending arrivals that contains at least one `reply` entry
(so a non-empty one, of any length and with entries of any kinds), the cooldown
callback selects an entry of the bucket whose kind is `reply`: element 0 of the bucket
sorted with the comparator of lines 142-146. -/
theorem selectMessage_prefers_reply {β : Type} (bucket : List (Entry β))
    (h : ∃ e ∈ bucket, e.type = "reply") :
    ∃ e ∈ bucket, selectMessage bucket = some e ∧ e.type = "reply" := by
  obtain ⟨e, hmem, he⟩ := h
  cases bucket with
  | nil => simp at hmem
  | cons x xs =>
    refine ⟨_, ?_, selectMessage_cons x xs, ?_⟩
    · obtain ⟨i, hi, hp⟩ := pick_mem (fun e : Entry β => decide (e.type = "reply"))
        ⟨fun i => (x :: xs).getD i.toNat x⟩ 0 xs.length
      rw [hp]
      show (x :: xs).getD (0 + (i : Int)).toNat x ∈ x :: xs
      have e1 : (0 + (i : Int)).toNat = i := by omega
      have hlt : i < (x :: xs).length := by simp only [List.length_cons]; omega
      rw [e1, List.getD_eq_getElem _ _ hlt]
      exact List.getElem_mem hlt
    · obtain ⟨i, hlt, hi⟩ := List.getElem_of_mem hmem
      have hp := pick_isR (fun e : Entry β => decide (e.type = "reply"))
        ⟨fun i => (x :: xs).getD i.toNat x⟩ 0 xs.length ⟨(i : Int), by omega,
          by simp only [List.length_cons] at hlt; omega, by
            show decide (((x :: xs).getD (0 + (i : Int)).toNat x).type = "reply") = true
            have e1 : (0 + (i : Int)).toNat = i := by omega
            rw [e1, List.getD_eq_getElem _ _ hlt, hi]
            exact decide_eq_true he⟩
      exact of_decide_eq_true hp

theorem selectMessage_prefers_reply_witness :
    (∃ e ∈ [mentionExample, replyExample], e.type = "reply")
    ∧ ∃ e ∈ [mentionExample, replyExample],
        selectMessage [mentionExample, replyExample] = some e ∧ e.type = "reply" :=
  ⟨⟨replyExample, by simp, rfl⟩,
    selectMessage_prefers_reply [mentionExample, replyExample] ⟨replyExample, by simp, rfl⟩⟩

/-- C10 at a bucket of two `reply` entries for one note: the cooldown callback selects
the entry that arrived last, not the earliest-arrived one. The comparator answers
`-1` for the pair in either order, the sort takes the two entries for a descending
run and reverses it. -/
theorem selectMessage_two_replies_takes_latest :
    selectMessage [replyExample, secondReplyExample] = some secondReplyExample
    ∧ secondReplyExample.body.body.text ≠ replyExample.body.body.text := by
  refine ⟨?_, by decide⟩
  rw [selectMessage_cons]
  rfl

end SortProofs

end MisskeyLLM
